import Mathlib

/-!
# K-means (message-passing and shared-memory realizations)

Shallow embedding of `kmeans_mpi.c` and `kmeans_pthreads.c`.

Conventions of the embedding:

* a C array is a total map `Nat → Int` from indices to values; a write is a
  `Function.update`; an access the program makes outside the allocated block
  is reported as `none`;
* sizes and loop bounds (`M`, `D`, `K`, `I`, worker counts, point indices) are
  C `int`s that the loops only use as non-negative trip counts; they are `Nat`;
* data values (`int` coordinates, `long long` distances and sums, `int` counts,
  `cluster_id`) are `Int`, and every arithmetic result that the program stores
  in an `int` or `long long` is wrapped to the width of that type.
-/

namespace KMeans

/-! ## Machine integers -/

/-- The constant `LLONG_MAX` of `limits.h`. -/
def LLONG_MAX : Int := 9223372036854775807

/-- The constant `LLONG_MIN` of `limits.h`. -/
def LLONG_MIN : Int := -9223372036854775808

/-- The constant `INT_MAX` of `limits.h`. -/
def INT_MAX : Int := 2147483647

/-- The constant `INT_MIN` of `limits.h`. -/
def INT_MIN : Int := -2147483648

/-- Value held by a `long long` after an arithmetic result `x` is stored in it
(two's complement wrap-around to 64 bits). -/
def wrapLL (x : Int) : Int :=
  (x + 9223372036854775808) % 18446744073709551616 - 9223372036854775808

/-- Value held by an `int` after an arithmetic result `x` is stored in it
(two's complement wrap-around to 32 bits). -/
def wrapInt (x : Int) : Int :=
  (x + 2147483648) % 4294967296 - 2147483648

/-- A value representable as a 32-bit signed `int`. -/
def isInt (x : Int) : Prop := -2147483648 ≤ x ∧ x ≤ 2147483647

/-- A value representable as a 64-bit signed `long long`. -/
def isLL (x : Int) : Prop := -9223372036854775808 ≤ x ∧ x ≤ 9223372036854775807

instance (x : Int) : Decidable (isInt x) := by unfold isInt; infer_instance

instance (x : Int) : Decidable (isLL x) := by unfold isLL; infer_instance

/-! ## Squared distance -/

/-- Body of the loop of `euclidean_dist_sq` (kmeans_mpi.c, lines 26-27):
`diff = (long long)p1[i] - p2[i]; dist += diff * diff`. -/
def dist_step (p1 p2 : Nat → Int) (dist : Int) (i : Nat) : Int :=
  let diff := wrapLL (p1 i - p2 i)
  wrapLL (dist + wrapLL (diff * diff))

/-- The mathematical squared distance: the sum over `i < D` of `(p1 i - p2 i)^2`. -/
def sq_dist (p1 p2 : Nat → Int) (D : Nat) : Int :=
  ((List.range D).map (fun i => (p1 i - p2 i) ^ 2)).sum

namespace Mpi

/-- The function `euclidean_dist_sq` of kmeans_mpi.c: one dimension per step. -/
def euclidean_dist_sq (p1 p2 : Nat → Int) (D : Nat) : Int :=
  (List.range D).foldl (dist_step p1 p2) 0

end Mpi

namespace Pthreads

/-- First loop of `euclidean_dist_sq` of kmeans_pthreads.c (lines 54-60):
`for (; i <= D - 4; i += 4)`, four dimensions per step. Returns the index and
the distance at loop exit. The first argument bounds the number of steps. -/
def unrolled_loop (p1 p2 : Nat → Int) (D : Nat) : Nat → Nat → Int → Nat × Int
  | 0, i, dist => (i, dist)
  | fuel + 1, i, dist =>
    if i + 4 ≤ D then
      let d0 := wrapLL (p1 i - p2 i)
      let d1 := wrapLL (p1 (i + 1) - p2 (i + 1))
      let d2 := wrapLL (p1 (i + 2) - p2 (i + 2))
      let d3 := wrapLL (p1 (i + 3) - p2 (i + 3))
      unrolled_loop p1 p2 D fuel (i + 4)
        (wrapLL (dist + wrapLL (wrapLL (wrapLL (wrapLL (d0 * d0) + wrapLL (d1 * d1))
          + wrapLL (d2 * d2)) + wrapLL (d3 * d3))))
    else (i, dist)

/-- The function `euclidean_dist_sq` of kmeans_pthreads.c: the unrolled loop
followed by the remainder loop `for (; i < D; i++)` (lines 63-66). -/
def euclidean_dist_sq (p1 p2 : Nat → Int) (D : Nat) : Int :=
  let r := unrolled_loop p1 p2 D D 0 0
  (List.range' r.1 (D - r.1)).foldl (dist_step p1 p2) r.2

end Pthreads

/-! ## Nearest centroid -/

/-- Body of the search loop over `k` (kmeans_mpi.c lines 264-268, 91-95;
kmeans_pthreads.c lines 118-122): `if (dist < min_dist) { min_dist = dist;
best_cluster = k; }`. The state is `(min_dist, best_cluster)`. -/
def search_step (dist : Nat → Int) (st : Int × Int) (k : Nat) : Int × Int :=
  if dist k < st.1 then (dist k, (k : Int)) else st

/-- The search loop `for (k = 0; k < K; k++)` started with
`min_dist = LLONG_MAX` and `best_cluster = init`. -/
def search_loop (dist : Nat → Int) (K : Nat) (init : Int) : Int × Int :=
  (List.range K).foldl (search_step dist) (LLONG_MAX, init)

namespace Mpi

/-- The `best_cluster` computed for one point by kmeans_mpi.c (lines 87-96 and
260-269): the search starts with `best_cluster = -1`. -/
def best_cluster (p : Nat → Int) (centroids : Nat → Nat → Int) (K D : Nat) : Int :=
  (search_loop (fun k => euclidean_dist_sq p (centroids k) D) K (-1)).2

end Mpi

namespace Pthreads

/-- The `best_cluster` computed for one point by kmeans_pthreads.c (lines
113-123): the search starts with `best_cluster = 0`. -/
def best_cluster (p : Nat → Int) (centroids : Nat → Nat → Int) (K D : Nat) : Int :=
  (search_loop (fun k => euclidean_dist_sq p (centroids k) D) K 0).2

end Pthreads

/-! ## Partition set-up (kmeans_pthreads.c) -/

namespace Pthreads

/-- State of the set-up loop of `main`: `current_idx` and the `start_idx` and
`end_idx` fields written so far. -/
structure Ranges where
  current_idx : Nat
  start_idx : Nat → Nat
  end_idx : Nat → Nat

/-- Body of the set-up loop (lines 224-227). -/
def setup_step (points_per_thread remainder : Nat) (s : Ranges) (i : Nat) : Ranges :=
  let count := points_per_thread + (if i < remainder then 1 else 0)
  { current_idx := s.current_idx + count
    start_idx := Function.update s.start_idx i s.current_idx
    end_idx := Function.update s.end_idx i (s.current_idx + count) }

/-- The set-up loop of `main` (lines 210-228) run for the first `n` threads. -/
def setup_upto (M num_threads n : Nat) : Ranges :=
  (List.range n).foldl (setup_step (M / num_threads) (M % num_threads))
    { current_idx := 0, start_idx := fun _ => 0, end_idx := fun _ => 0 }

/-- The partition set-up of `main` (lines 210-228). -/
def setup (M num_threads : Nat) : Ranges := setup_upto M num_threads num_threads

end Pthreads

/-! ## Accumulation, reduction and centroid update -/

/-- The accumulation loop `for (d = 0; d < D; d++) sums[off + d] += coords[d]`
on a `long long` array (kmeans_mpi.c lines 112-114 and 274-276, and, with a
`long long` source, kmeans_pthreads.c lines 161-163). -/
def add_row (sums : Nat → Int) (off D : Nat) (coords : Nat → Int) : Nat → Int :=
  (List.range D).foldl
    (fun s d => Function.update s (off + d) (wrapLL (s (off + d) + coords d))) sums

/-- The store loop `for (d = 0; d < D; d++) coords[d] = sums[off + d] / count`
(kmeans_mpi.c lines 119-122 and 287-289, kmeans_pthreads.c lines 168-170):
a `long long` quotient, truncated toward zero, stored in an `int`. -/
def store_means (sums : Nat → Int) (off : Nat) (count : Int) (D : Nat)
    (coords : Nat → Int) : Nat → Int :=
  (List.range D).foldl
    (fun c d => Function.update c d (wrapInt (Int.tdiv (sums (off + d)) count))) coords

/-- The update loop over the clusters (kmeans_mpi.c lines 117-124 and 285-291):
`if (counts[k] > 0)` the row of centroid `k` is overwritten by the means. -/
def write_centroids (sums counts : Nat → Int) (K D : Nat)
    (centroids : Nat → Nat → Int) : Nat → Nat → Int :=
  (List.range K).foldl
    (fun c k =>
      if counts k > 0 then
        Function.update c k (store_means sums (k * D) (counts k) D (c k))
      else c) centroids

/-- The per-worker mutable data: the `cluster_id` fields of the points the
worker owns and its two accumulator arrays. -/
structure Worker where
  cluster_id : Nat → Int
  sums : Nat → Int
  counts : Nat → Int

/-- The call `memset(a, 0, n * sizeof ...)`: the first `n` cells become 0. -/
def memset0 (a : Nat → Int) (n : Nat) : Nat → Int :=
  fun j => if j < n then 0 else a j

/-- Sequential composition of `n` loop iterations `i = start, start+1, ...`
of a body that may perform an invalid access. -/
def for_loop {σ : Type} (body : σ → Nat → Option σ) (start n : Nat) (s : σ) : Option σ :=
  (List.range' start n).foldlM body s

/-- The checksum loop (kmeans_mpi.c lines 156-161 and 300-305): the
`long long` sum of all `K * D` centroid coordinates. -/
def checksum (centroids : Nat → Nat → Int) (K D : Nat) : Int :=
  (List.range K).foldl
    (fun cs k => (List.range D).foldl (fun cs2 d => wrapLL (cs2 + centroids k d)) cs) 0

/-- The loop `for (iter = 0; iter < I; iter++) body` with loop counter `iter`;
the first argument bounds the number of steps. -/
def iter_loop {σ : Type} (body : σ → Option σ) (I : Nat) : Nat → Nat → σ → Option σ
  | 0, _, s => some s
  | fuel + 1, iter, s =>
    if iter < I then
      match body s with
      | some s2 => iter_loop body I fuel (iter + 1) s2
      | none => none
    else some s

namespace Mpi

/-- The function `assign_points_to_clusters` of kmeans_mpi.c (lines 85-99):
every `points[i].cluster_id`, `i < M`, is set to the point's `best_cluster`. -/
def assign_points_to_clusters (points : Nat → Nat → Int) (centroids : Nat → Nat → Int)
    (M K D : Nat) (cluster_id : Nat → Int) : Nat → Int :=
  (List.range M).foldl
    (fun cid i => Function.update cid i (best_cluster (points i) centroids K D)) cluster_id

/-- Body of the first loop of `update_centroids` (lines 110-114):
`cluster_counts[cluster_id]++` and the row accumulation. The arrays have `K`
and `K * D` cells; an index outside is an invalid access. -/
def count_step (points : Nat → Nat → Int) (cluster_id : Nat → Int) (K D : Nat)
    (acc : (Nat → Int) × (Nat → Int)) (i : Nat) : Option ((Nat → Int) × (Nat → Int)) :=
  let c := cluster_id i
  if 0 ≤ c ∧ c < K then
    some (add_row acc.1 (c.toNat * D) D (points i),
          Function.update acc.2 c.toNat (wrapInt (acc.2 c.toNat + 1)))
  else none

/-- The function `update_centroids` of kmeans_mpi.c (lines 105-128): the
zero-initialised (`calloc`) sums and counts are accumulated over all `M`
points, then the centroids of the non-empty clusters are overwritten. -/
def update_centroids (points : Nat → Nat → Int) (cluster_id : Nat → Int)
    (centroids : Nat → Nat → Int) (M K D : Nat) : Option (Nat → Nat → Int) :=
  match for_loop (count_step points cluster_id K D) 0 M (fun _ => 0, fun _ => 0) with
  | some acc => some (write_centroids acc.1 acc.2 K D centroids)
  | none => none

/-- One sequential k-means iteration: `assign_points_to_clusters` followed by
`update_centroids`. Returns the cluster ids and the centroids. -/
def sequential_iteration (points : Nat → Nat → Int) (M K D : Nat)
    (st : (Nat → Int) × (Nat → Nat → Int)) : Option ((Nat → Int) × (Nat → Nat → Int)) :=
  let cid := assign_points_to_clusters points st.2 M K D st.1
  match update_centroids points cid st.2 M K D with
  | some c => some (cid, c)
  | none => none

/-- The rows a rank receives from `MPI_Scatter` (lines 219-221): rank `r`
holds the `M_local` consecutive rows starting at row `r * M_local`. -/
def scatter (points : Nat → Nat → Int) (M_local r : Nat) : Nat → Nat → Int :=
  fun i => points (r * M_local + i)

/-- Body of the assignment loop of `main` (lines 260-276) for local point `i`. -/
def local_step (local_points : Nat → Nat → Int) (centroids : Nat → Nat → Int) (K D : Nat)
    (w : Worker) (i : Nat) : Option Worker :=
  let best := best_cluster (local_points i) centroids K D
  if 0 ≤ best ∧ best < K then
    some { cluster_id := Function.update w.cluster_id i best
           counts := Function.update w.counts best.toNat (wrapInt (w.counts best.toNat + 1))
           sums := add_row w.sums (best.toNat * D) D (local_points i) }
  else none

/-- Steps B and C of the main loop on one rank (lines 255-277): the
accumulators are zeroed, then the `M_local` local points are assigned and
accumulated. -/
def local_phase (local_points : Nat → Nat → Int) (centroids : Nat → Nat → Int)
    (M_local K D : Nat) (w : Worker) : Option Worker :=
  for_loop (local_step local_points centroids K D) 0 M_local
    { cluster_id := w.cluster_id
      sums := memset0 w.sums (K * D)
      counts := memset0 w.counts K }

/-- The collective `MPI_Reduce(..., MPI_LONG_LONG, MPI_SUM, 0, ...)` (line 280):
cell `j` of the result is the `long long` sum of cell `j` of every rank. The
ranks are combined in rank order; a wrapped sum does not depend on the order. -/
def reduce_sums (local_sums : Nat → Nat → Int) (size : Nat) : Nat → Int :=
  fun j => (List.range size).foldl (fun g r => wrapLL (g + local_sums r j)) 0

/-- The collective `MPI_Reduce(..., MPI_INT, MPI_SUM, 0, ...)` (line 281). -/
def reduce_counts (local_counts : Nat → Nat → Int) (size : Nat) : Nat → Int :=
  fun j => (List.range size).foldl (fun g r => wrapInt (g + local_counts r j)) 0

/-- State of the message-passing program between two iterations: the
centroids held by rank 0 and the mutable data of every rank. -/
structure State where
  centroids : Nat → Nat → Int
  ranks : Nat → Worker

/-- Every rank runs its local phase (in the embedding: rank after rank; the
ranks share no data). -/
def all_local_phases (points : Nat → Nat → Int) (centroids : Nat → Nat → Int)
    (M_local K D size : Nat) (ranks : Nat → Worker) : Option (Nat → Worker) :=
  for_loop
    (fun rs r =>
      match local_phase (scatter points M_local r) centroids M_local K D (rs r) with
      | some w => some (Function.update rs r w)
      | none => none) 0 size ranks

/-- One iteration of the main loop (lines 250-293) with `size` processes:
broadcast of the centroids, local phase on every rank, the two reductions,
update of the centroids on rank 0. -/
def iteration (points : Nat → Nat → Int) (M K D size : Nat) (st : State) : Option State :=
  let M_local := M / size
  match all_local_phases points st.centroids M_local K D size st.ranks with
  | some rs =>
    let global_sums := reduce_sums (fun r => (rs r).sums) size
    let global_counts := reduce_counts (fun r => (rs r).counts) size
    some { centroids := write_centroids global_sums global_counts K D st.centroids
           ranks := rs }
  | none => none

/-- The main loop of kmeans_mpi.c (lines 250-293). -/
def main_loop (points : Nat → Nat → Int) (M K D I size : Nat) (st : State) : Option State :=
  iter_loop (iteration points M K D size) I I 0 st

/-- The `cluster_id` of global point `i` after the scatter: it is local point
`i % M_local` of rank `i / M_local`. -/
def global_cluster_id (M_local : Nat) (ranks : Nat → Worker) (i : Nat) : Int :=
  (ranks (i / M_local)).cluster_id (i % M_local)

end Mpi

namespace Pthreads

/-- Body of the accumulation loops of `thread_worker` (lines 132-138):
`local_sum_coords[offset + d] += coords[d]`. -/
def add_cell (off : Nat) (coords : Nat → Int) (s : Nat → Int) (d : Nat) : Nat → Int :=
  Function.update s (off + d) (wrapLL (s (off + d) + coords d))

/-- The unrolled accumulation loop `for (; d <= D - 4; d += 4)` of
`thread_worker` (lines 131-136). Returns `d` and the array at loop exit. The
first argument bounds the number of steps. -/
def add_row_unrolled_loop (off D : Nat) (coords : Nat → Int) :
    Nat → Nat → (Nat → Int) → Nat × (Nat → Int)
  | 0, d, s => (d, s)
  | fuel + 1, d, s =>
    if d + 4 ≤ D then
      add_row_unrolled_loop off D coords fuel (d + 4)
        (add_cell off coords (add_cell off coords (add_cell off coords
          (add_cell off coords s d) (d + 1)) (d + 2)) (d + 3))
    else (d, s)

/-- The accumulation of one point into `local_sum_coords` (lines 129-139):
the unrolled loop followed by the remainder loop `for (; d < D; d++)`. -/
def add_row_unrolled (sums : Nat → Int) (off D : Nat) (coords : Nat → Int) : Nat → Int :=
  let r := add_row_unrolled_loop off D coords D 0 sums
  (List.range' r.1 (D - r.1)).foldl (add_cell off coords) r.2

/-- State of the threaded program between two iterations: the shared
centroids, the `cluster_id` fields of the shared points, and the two private
accumulator arrays of every thread. -/
structure State where
  centroids : Nat → Nat → Int
  cluster_id : Nat → Int
  sums : Nat → Nat → Int
  counts : Nat → Nat → Int

/-- Body of the assignment loop of `thread_worker` (lines 113-139) for point
`i`, run by the thread whose accumulators are `w.sums` and `w.counts`. The
accumulators have `K * D` and `K` cells. -/
def worker_step (points : Nat → Nat → Int) (centroids : Nat → Nat → Int) (K D : Nat)
    (w : Worker) (i : Nat) : Option Worker :=
  let best := best_cluster (points i) centroids K D
  if 0 ≤ best ∧ best < K then
    some { cluster_id := Function.update w.cluster_id i best
           counts := Function.update w.counts best.toNat (wrapInt (w.counts best.toNat + 1))
           sums := add_row_unrolled w.sums (best.toNat * D) D (points i) }
  else none

/-- The assignment phase of one thread in one iteration (lines 107-140): the
thread zeroes its accumulators and processes the points
`start_idx ≤ i < end_idx`. -/
def worker_phase (points : Nat → Nat → Int) (centroids : Nat → Nat → Int) (K D : Nat)
    (start_idx end_idx : Nat) (w : Worker) : Option Worker :=
  for_loop (worker_step points centroids K D) start_idx (end_idx - start_idx)
    { cluster_id := w.cluster_id
      sums := memset0 w.sums (K * D)
      counts := memset0 w.counts K }

/-- The assignment phases of all threads up to the first barrier (line 143).
In the embedding the threads run one after the other: each writes only its own
accumulators and the `cluster_id` of its own points. -/
def all_worker_phases (points : Nat → Nat → Int) (K D num_threads : Nat)
    (start_idx end_idx : Nat → Nat) (st : State) : Option State :=
  for_loop
    (fun s t =>
      match worker_phase points s.centroids K D (start_idx t) (end_idx t)
          { cluster_id := s.cluster_id, sums := s.sums t, counts := s.counts t } with
      | some w =>
        some { centroids := s.centroids
               cluster_id := w.cluster_id
               sums := Function.update s.sums t w.sums
               counts := Function.update s.counts t w.counts }
      | none => none) 0 num_threads st

/-- The reduction loop over the threads for cluster `k` (lines 152-164):
returns `total_sum` and `total_count`. -/
def leader_reduce (sums counts : Nat → Nat → Int) (num_threads D k : Nat) :
    (Nat → Int) × Int :=
  (List.range num_threads).foldl
    (fun tot t =>
      (add_row tot.1 0 D (fun d => sums t (k * D + d)), wrapInt (tot.2 + counts t k)))
    (fun _ => 0, 0)

/-- Body of the loop over the clusters run by thread 0 (lines 151-172). -/
def leader_step (sums counts : Nat → Nat → Int) (num_threads D : Nat)
    (c : Nat → Nat → Int) (k : Nat) : Nat → Nat → Int :=
  let tot := leader_reduce sums counts num_threads D k
  if tot.2 > 0 then Function.update c k (store_means tot.1 0 tot.2 D (c k)) else c

/-- The reduction and update phase of thread 0 between the two barriers
(lines 148-173). -/
def leader (sums counts : Nat → Nat → Int) (num_threads K D : Nat)
    (centroids : Nat → Nat → Int) : Nat → Nat → Int :=
  (List.range K).foldl (leader_step sums counts num_threads D) centroids

/-- One iteration of the loop of `thread_worker` over all threads (lines
105-177): assignment phases, barrier, leader phase, barrier. -/
def iteration (points : Nat → Nat → Int) (K D num_threads : Nat)
    (start_idx end_idx : Nat → Nat) (st : State) : Option State :=
  match all_worker_phases points K D num_threads start_idx end_idx st with
  | some s =>
    some { centroids := leader s.sums s.counts num_threads K D s.centroids
           cluster_id := s.cluster_id
           sums := s.sums
           counts := s.counts }
  | none => none

/-- The threaded program from the partition set-up of `main` to the join: the
`I` iterations of `thread_worker` on the ranges computed by the set-up loop. -/
def main_loop (points : Nat → Nat → Int) (M K D I num_threads : Nat) (st : State) :
    Option State :=
  let r := setup M num_threads
  iter_loop (iteration points K D num_threads r.start_idx r.end_idx) I I 0 st

end Pthreads

/-! ## Test data -/

/-- The array whose first cells hold the elements of `l`. -/
def ofList (l : List Int) : Nat → Int := fun i => l.getD i 0

/-- The rows of a matrix given as a list of rows. -/
def ofRows (l : List (List Int)) : Nat → Nat → Int := fun i => ofList (l.getD i [])

/-! ## Specification functions -/

/-- The index `b` is the lowest index below `K` that reaches the minimum of
`dist`: it lies in `[0, K)`, no distance is smaller than `dist b`, and every
smaller index has a strictly larger distance. -/
def lowest_argmin (dist : Nat → Int) (K : Nat) (b : Int) : Prop :=
  0 ≤ b ∧ b < K ∧ (∀ k, k < K → dist b.toNat ≤ dist k) ∧
    (∀ j, j < b.toNat → dist b.toNat < dist j)

instance (dist : Nat → Int) (K : Nat) (b : Int) : Decidable (lowest_argmin dist K b) := by
  unfold lowest_argmin; infer_instance

/-- Number of the indices of `l` that the assignment `a` sends to cluster `k`. -/
def member_count (a : Nat → Int) (k : Nat) (l : List Nat) : Int :=
  (l.map (fun i => if a i = (k : Int) then (1 : Int) else 0)).sum

/-- Sum of coordinate `d` over the indices of `l` that the assignment `a` sends
to cluster `k`. -/
def member_sum (points : Nat → Nat → Int) (a : Nat → Int) (k d : Nat) (l : List Nat) : Int :=
  (l.map (fun i => if a i = (k : Int) then points i d else 0)).sum

/-- The assignment step common to the two programs, for an assignment `a` of
the points: `cluster_id[i] = a i`, `counts[a i]++`, and the row of point `i` is
added to row `a i` of `sums`; an `a i` outside `[0, K)` is an invalid access. -/
def assign_acc_step (pts : Nat → Nat → Int) (a : Nat → Int) (K D : Nat)
    (w : Worker) (i : Nat) : Option Worker :=
  if 0 ≤ a i ∧ a i < K then
    some { cluster_id := Function.update w.cluster_id i (a i)
           counts := Function.update w.counts (a i).toNat (wrapInt (w.counts (a i).toNat + 1))
           sums := add_row w.sums ((a i).toNat * D) D (pts i) }
  else none

/-- The assignment of the points under the centroids `c` in kmeans_pthreads.c. -/
def pthreads_assignment (points : Nat → Nat → Int) (c : Nat → Nat → Int) (K D : Nat) :
    Nat → Int :=
  fun i => Pthreads.best_cluster (points i) c K D

/-- The assignment of the points under the centroids `c` in kmeans_mpi.c. -/
def mpi_assignment (points : Nat → Nat → Int) (c : Nat → Nat → Int) (K D : Nat) :
    Nat → Int :=
  fun i => Mpi.best_cluster (points i) c K D

/-- The centroid coordinate `(k, d)` after an update from the exact count and
coordinate sum of cluster `k` under the assignment `a` of the `M` points, as
the machine computes it: count and sum wrapped to `int` and `long long`, the
quotient truncated toward zero and narrowed to `int`; coordinates outside
`K × D` and centroids with a non-positive count keep their value. -/
def mean_update (points : Nat → Nat → Int) (a : Nat → Int) (M K D : Nat)
    (centroids : Nat → Nat → Int) (k d : Nat) : Int :=
  if k < K ∧ d < D ∧ wrapInt (member_count a k (List.range' 0 M)) > 0 then
    wrapInt (Int.tdiv (wrapLL (member_sum points a k d (List.range' 0 M)))
      (wrapInt (member_count a k (List.range' 0 M))))
  else centroids k d

/-- The centroid coordinate `(k, d)` after an update in exact integer
arithmetic: the sum of the members' coordinates divided by their number with
truncation toward zero, or the old value for an empty cluster. -/
def exact_mean_update (points : Nat → Nat → Int) (a : Nat → Int) (M K D : Nat)
    (centroids : Nat → Nat → Int) (k d : Nat) : Int :=
  if k < K ∧ d < D ∧ member_count a k (List.range' 0 M) > 0 then
    Int.tdiv (member_sum points a k d (List.range' 0 M)) (member_count a k (List.range' 0 M))
  else centroids k d

/-- The `n`-fold application of one iteration step that may perform an
invalid access: the specification of a loop that runs exactly `n` cycles. -/
def iterate_step {σ : Type} (step : σ → Option σ) : Nat → σ → Option σ
  | 0, s => some s
  | n + 1, s => (step s).bind (iterate_step step n)

/-- The update of one centroid coordinate from a count `n` and a sum `S` is
correct: with `n > 0` the new value is `S / n` truncated toward zero, with
`n = 0` the old value is kept. -/
def update_correct (n S old new : Int) : Prop :=
  (0 < n → new = Int.tdiv S n) ∧ (n = 0 → new = old)

instance (n S old new : Int) : Decidable (update_correct n S old new) := by
  unfold update_correct; infer_instance

namespace Pthreads

/-- Closed form of the range boundaries: boundary `i` is `i * (M / P) + min i (M % P)`. -/
def boundary (M P i : Nat) : Nat := i * (M / P) + min i (M % P)

end Pthreads

/-! ## Start-up of `main` -/

/-- The constant `EXIT_FAILURE` of `stdlib.h`. -/
def EXIT_FAILURE : Int := 1

/-- The invocation as `main` sees it: `argc` and the values that `atoi`
returns for `argv[2]` .. `argv[5]`. -/
structure Args where
  argc : Int
  M : Int
  D : Int
  K : Int
  I : Int

/-- Outcome of the argument handling of `main`, before the input file is
opened: the program aborts with an exit status, or goes on to read the
points. -/
inductive Startup where
  | abort (status : Int)
  | proceed
  deriving DecidableEq

namespace Mpi

/-- The argument handling of `main` in kmeans_mpi.c (lines 181-192), run by
rank 0 with `size` processes: `if (argc != 6) MPI_Abort(MPI_COMM_WORLD, 1)`,
then `if (M % size != 0) MPI_Abort(MPI_COMM_WORLD, 1)`; `%` is the remainder
of C, which truncates toward zero. -/
def startup (a : Args) (size : Int) : Startup :=
  if a.argc ≠ 6 then Startup.abort 1
  else if Int.tmod a.M size ≠ 0 then Startup.abort 1
  else Startup.proceed

end Mpi

namespace Pthreads

/-- The argument handling of `main` in kmeans_pthreads.c (line 185):
`if (argc < 6) return EXIT_FAILURE`. -/
def startup (a : Args) : Startup :=
  if a.argc < 6 then Startup.abort EXIT_FAILURE else Startup.proceed

end Pthreads

/-! # Theorems -/

/-! ## Machine integers -/

theorem wrapLL_isLL (x : Int) : isLL (wrapLL x) := by
  unfold isLL wrapLL; omega

theorem wrapLL_of_isLL {x : Int} (h : isLL x) : wrapLL x = x := by
  unfold isLL at h; unfold wrapLL; omega

theorem wrapLL_add_left (x y : Int) : wrapLL (wrapLL x + y) = wrapLL (x + y) := by
  unfold wrapLL; omega

theorem wrapLL_add_right (x y : Int) : wrapLL (x + wrapLL y) = wrapLL (x + y) := by
  unfold wrapLL; omega

theorem wrapLL_idem (x : Int) : wrapLL (wrapLL x) = wrapLL x := by
  unfold wrapLL; omega

theorem wrapInt_isInt (x : Int) : isInt (wrapInt x) := by
  unfold isInt wrapInt; omega

theorem wrapInt_of_isInt {x : Int} (h : isInt x) : wrapInt x = x := by
  unfold isInt at h; unfold wrapInt; omega

theorem wrapInt_add_left (x y : Int) : wrapInt (wrapInt x + y) = wrapInt (x + y) := by
  unfold wrapInt; omega

theorem wrapInt_idem (x : Int) : wrapInt (wrapInt x) = wrapInt x := by
  unfold wrapInt; omega

theorem range'_split (s m n : Nat) :
    List.range' s (m + n) = List.range' s m ++ List.range' (s + m) n := by
  have := List.range'_append s m n 1
  simp only [Nat.one_mul] at this
  rw [this, Nat.add_comm]

/-! ## Squared distance -/

theorem unroll_arith (dist a b c d : Int) :
    wrapLL (dist + wrapLL (wrapLL (wrapLL (wrapLL a + wrapLL b) + wrapLL c) + wrapLL d)) =
      wrapLL (wrapLL (wrapLL (wrapLL (dist + wrapLL a) + wrapLL b) + wrapLL c) + wrapLL d) := by
  unfold wrapLL; omega

theorem unrolled_loop_spec (p1 p2 : Nat → Int) (D : Nat) :
    ∀ (fuel i : Nat) (dist : Int), i ≤ D →
      i ≤ (Pthreads.unrolled_loop p1 p2 D fuel i dist).1 ∧
      (Pthreads.unrolled_loop p1 p2 D fuel i dist).1 ≤ D ∧
      (Pthreads.unrolled_loop p1 p2 D fuel i dist).2 =
        (List.range' i ((Pthreads.unrolled_loop p1 p2 D fuel i dist).1 - i)).foldl
          (dist_step p1 p2) dist := by
  intro fuel
  induction fuel with
  | zero =>
    intro i dist hi
    simp [Pthreads.unrolled_loop, hi]
  | succ fuel ih =>
    intro i dist hi
    unfold Pthreads.unrolled_loop
    by_cases h : i + 4 ≤ D
    · rw [if_pos h]
      simp only
      obtain ⟨h1, h2, h3⟩ := ih (i + 4)
        (wrapLL (dist + wrapLL (wrapLL (wrapLL
          (wrapLL (wrapLL (p1 i - p2 i) * wrapLL (p1 i - p2 i)) +
            wrapLL (wrapLL (p1 (i + 1) - p2 (i + 1)) * wrapLL (p1 (i + 1) - p2 (i + 1)))) +
            wrapLL (wrapLL (p1 (i + 2) - p2 (i + 2)) * wrapLL (p1 (i + 2) - p2 (i + 2)))) +
            wrapLL (wrapLL (p1 (i + 3) - p2 (i + 3)) * wrapLL (p1 (i + 3) - p2 (i + 3)))))) h
      refine ⟨by omega, h2, ?_⟩
      rw [h3]
      generalize (Pthreads.unrolled_loop p1 p2 D fuel (i + 4) _).1 = e at h1 h2 ⊢
      have he : e - i = 4 + (e - (i + 4)) := by omega
      rw [he, range'_split, List.foldl_append, unroll_arith]
      simp [List.range', dist_step]
    · rw [if_neg h]
      simp [hi]

/-- The loop `for (; i <= D - 4; i += 4)` run with `D` steps allowed stops
because its condition fails: fewer than four dimensions are left. -/
theorem unrolled_loop_exit (p1 p2 : Nat → Int) (D : Nat) :
    ∀ (fuel i : Nat) (dist : Int), D ≤ i + 4 * fuel →
      ¬ ((Pthreads.unrolled_loop p1 p2 D fuel i dist).1 + 4 ≤ D) := by
  intro fuel
  induction fuel with
  | zero =>
    intro i dist h
    simp only [Pthreads.unrolled_loop]
    omega
  | succ fuel ih =>
    intro i dist h
    unfold Pthreads.unrolled_loop
    by_cases hc : i + 4 ≤ D
    · rw [if_pos hc]
      exact ih _ _ (by omega)
    · rw [if_neg hc]
      exact hc

/-- The unrolled distance of kmeans_pthreads.c computes the same value as the
plain distance of kmeans_mpi.c. -/
theorem dist_unrolled_eq (p1 p2 : Nat → Int) (D : Nat) :
    Pthreads.euclidean_dist_sq p1 p2 D = Mpi.euclidean_dist_sq p1 p2 D := by
  obtain ⟨_, h2, h3⟩ := unrolled_loop_spec p1 p2 D D 0 0 (Nat.zero_le D)
  unfold Pthreads.euclidean_dist_sq Mpi.euclidean_dist_sq
  simp only
  rw [h3, List.range_eq_range', ← List.foldl_append]
  generalize (Pthreads.unrolled_loop p1 p2 D D 0 0).1 = e at h2 ⊢
  have := range'_split 0 e (D - e)
  simp only [Nat.sub_zero, Nat.zero_add] at this ⊢
  rw [← this]
  congr 2
  omega

theorem mpi_dist_succ (p1 p2 : Nat → Int) (D : Nat) :
    Mpi.euclidean_dist_sq p1 p2 (D + 1) =
      dist_step p1 p2 (Mpi.euclidean_dist_sq p1 p2 D) D := by
  simp [Mpi.euclidean_dist_sq, List.range_succ, List.foldl_append]

theorem mpi_dist_isLL (p1 p2 : Nat → Int) (D : Nat) : isLL (Mpi.euclidean_dist_sq p1 p2 D) := by
  cases D with
  | zero => unfold isLL; simp [Mpi.euclidean_dist_sq]
  | succ D =>
    rw [mpi_dist_succ]
    exact wrapLL_isLL _

theorem mpi_dist_le (p1 p2 : Nat → Int) (D : Nat) : Mpi.euclidean_dist_sq p1 p2 D ≤ LLONG_MAX :=
  (mpi_dist_isLL p1 p2 D).2

theorem sq_dist_succ (p1 p2 : Nat → Int) (D : Nat) :
    sq_dist p1 p2 (D + 1) = sq_dist p1 p2 D + (p1 D - p2 D) ^ 2 := by
  simp [sq_dist, List.range_succ]

theorem sq_dist_nonneg (p1 p2 : Nat → Int) (D : Nat) : 0 ≤ sq_dist p1 p2 D := by
  induction D with
  | zero => simp [sq_dist]
  | succ D ih =>
    rw [sq_dist_succ]
    have := sq_nonneg (p1 D - p2 D)
    omega

/-- When the coordinates are `int`s and the mathematical squared distance
does not exceed `LLONG_MAX`, `euclidean_dist_sq` of kmeans_mpi.c returns it
exactly. -/
theorem mpi_dist_exact (p1 p2 : Nat → Int) (D : Nat)
    (hp : ∀ i, i < D → isInt (p1 i) ∧ isInt (p2 i))
    (hfit : sq_dist p1 p2 D ≤ LLONG_MAX) :
    Mpi.euclidean_dist_sq p1 p2 D = sq_dist p1 p2 D := by
  induction D with
  | zero => simp [Mpi.euclidean_dist_sq, sq_dist]
  | succ D ih =>
    have hsq := sq_nonneg (p1 D - p2 D)
    have hnn := sq_dist_nonneg p1 p2 D
    rw [sq_dist_succ] at hfit
    have hD := hp D (Nat.lt_succ_self D)
    unfold isInt at hD
    unfold LLONG_MAX at hfit
    have ih2 := ih (fun i hi => hp i (by omega)) (by unfold LLONG_MAX; omega)
    have h1 : wrapLL (p1 D - p2 D) = p1 D - p2 D := wrapLL_of_isLL (by unfold isLL; omega)
    have e : (p1 D - p2 D) * (p1 D - p2 D) = (p1 D - p2 D) ^ 2 := by ring
    have h2 : wrapLL ((p1 D - p2 D) ^ 2) = (p1 D - p2 D) ^ 2 :=
      wrapLL_of_isLL (by unfold isLL; omega)
    rw [mpi_dist_succ, sq_dist_succ, ih2]
    unfold dist_step
    simp only
    rw [h1, e, h2]
    exact wrapLL_of_isLL (by unfold isLL; omega)

/-! ## Nearest centroid -/
theorem search_loop_succ (dist : Nat → Int) (K : Nat) (init : Int) :
    search_loop dist (K + 1) init = search_step dist (search_loop dist K init) K := by
  simp [search_loop, List.range_succ, List.foldl_append]

/-- Invariant of the search loop after `K` steps: the running minimum bounds
every distance seen, and either nothing was below `LLONG_MAX` and the initial
`best_cluster` is still there, or `best_cluster` is the first index that
reaches the running minimum. -/
theorem search_loop_inv (dist : Nat → Int) (K : Nat) (init : Int) :
    (∀ k, k < K → (search_loop dist K init).1 ≤ dist k) ∧
    (((search_loop dist K init).2 = init ∧ (search_loop dist K init).1 = LLONG_MAX) ∨
     (∃ b, b < K ∧ (search_loop dist K init).2 = (b : Int) ∧
        (search_loop dist K init).1 = dist b ∧ dist b < LLONG_MAX ∧
        ∀ j, j < b → dist b < dist j)) := by
  induction K with
  | zero =>
    refine ⟨fun k hk => absurd hk (Nat.not_lt_zero k), Or.inl ⟨rfl, rfl⟩⟩
  | succ K ih =>
    obtain ⟨hmin, hcase⟩ := ih
    rw [search_loop_succ]
    unfold search_step
    by_cases hlt : dist K < (search_loop dist K init).1
    · rw [if_pos hlt]
      refine ⟨?_, Or.inr ⟨K, Nat.lt_succ_self K, rfl, rfl, ?_, ?_⟩⟩
      · intro k hk
        by_cases hkK : k = K
        · subst hkK; exact le_refl _
        · have := hmin k (by omega)
          show dist K ≤ dist k
          omega
      · rcases hcase with ⟨_, h2⟩ | ⟨b, _, _, h3, h4, _⟩
        · omega
        · omega
      · intro j hj
        have := hmin j hj
        omega
    · rw [if_neg hlt]
      refine ⟨?_, ?_⟩
      · intro k hk
        by_cases hkK : k = K
        · subst hkK; omega
        · exact hmin k (by omega)
      · rcases hcase with h | ⟨b, hb, h2, h3, h4, h5⟩
        · exact Or.inl h
        · exact Or.inr ⟨b, by omega, h2, h3, h4, h5⟩

/-! ## Accumulation of a row -/

theorem add_row_succ (s : Nat → Int) (off D : Nat) (coords : Nat → Int) :
    add_row s off (D + 1) coords =
      Function.update (add_row s off D coords) (off + D)
        (wrapLL (add_row s off D coords (off + D) + coords D)) := by
  simp [add_row, List.range_succ, List.foldl_append]

theorem add_row_apply (s : Nat → Int) (off D : Nat) (coords : Nat → Int) :
    ∀ j, add_row s off D coords j =
      if off ≤ j ∧ j < off + D then wrapLL (s j + coords (j - off)) else s j := by
  induction D with
  | zero =>
    intro j
    have : ¬ (off ≤ j ∧ j < off + 0) := by omega
    rw [if_neg this]
    rfl
  | succ D ih =>
    intro j
    rw [add_row_succ]
    by_cases hj : j = off + D
    · subst hj
      rw [Function.update_same, if_pos (by omega), ih (off + D), if_neg (by omega)]
      congr 3
      omega
    · rw [Function.update_noteq hj, ih]
      by_cases h : off ≤ j ∧ j < off + D
      · rw [if_pos h, if_pos (by omega)]
      · rw [if_neg h, if_neg (by omega)]


/-- The plain accumulation loop is the left fold of `add_cell` over `0..D-1`. -/
theorem add_row_eq_foldl (s : Nat → Int) (off D : Nat) (coords : Nat → Int) :
    add_row s off D coords = (List.range' 0 D).foldl (Pthreads.add_cell off coords) s := by
  rw [← List.range_eq_range']
  rfl

theorem add_row_unrolled_loop_spec (off D : Nat) (coords : Nat → Int) :
    ∀ (fuel d : Nat) (s : Nat → Int), d ≤ D →
      d ≤ (Pthreads.add_row_unrolled_loop off D coords fuel d s).1 ∧
      (Pthreads.add_row_unrolled_loop off D coords fuel d s).1 ≤ D ∧
      (Pthreads.add_row_unrolled_loop off D coords fuel d s).2 =
        (List.range' d ((Pthreads.add_row_unrolled_loop off D coords fuel d s).1 - d)).foldl
          (Pthreads.add_cell off coords) s := by
  intro fuel
  induction fuel with
  | zero =>
    intro d s hd
    simp [Pthreads.add_row_unrolled_loop, hd]
  | succ fuel ih =>
    intro d s hd
    unfold Pthreads.add_row_unrolled_loop
    by_cases h : d + 4 ≤ D
    · rw [if_pos h]
      obtain ⟨h1, h2, h3⟩ := ih (d + 4)
        (Pthreads.add_cell off coords (Pthreads.add_cell off coords (Pthreads.add_cell off coords
          (Pthreads.add_cell off coords s d) (d + 1)) (d + 2)) (d + 3)) h
      refine ⟨by omega, h2, ?_⟩
      rw [h3]
      generalize (Pthreads.add_row_unrolled_loop off D coords fuel (d + 4) _).1 = e at h1 h2 ⊢
      have he : e - d = 4 + (e - (d + 4)) := by omega
      rw [he, range'_split, List.foldl_append]
      simp [List.range']
    · rw [if_neg h]
      simp [hd]

/-- The unrolled accumulation of kmeans_pthreads.c writes the same array as
the plain accumulation loop of kmeans_mpi.c. -/
theorem add_row_unrolled_eq (s : Nat → Int) (off D : Nat) (coords : Nat → Int) :
    Pthreads.add_row_unrolled s off D coords = add_row s off D coords := by
  obtain ⟨_, h2, h3⟩ := add_row_unrolled_loop_spec off D coords D 0 s (Nat.zero_le D)
  unfold Pthreads.add_row_unrolled
  simp only
  rw [h3, add_row_eq_foldl, ← List.foldl_append]
  generalize (Pthreads.add_row_unrolled_loop off D coords D 0 s).1 = e at h2 ⊢
  have := range'_split 0 e (D - e)
  simp only [Nat.sub_zero, Nat.zero_add] at this ⊢
  rw [← this]
  congr 2
  omega

/-- The loop `for (; d <= D - 4; d += 4)` of the accumulation run with `D`
steps allowed stops because its condition fails. -/
theorem add_row_unrolled_loop_exit (off D : Nat) (coords : Nat → Int) :
    ∀ (fuel d : Nat) (s : Nat → Int), D ≤ d + 4 * fuel →
      ¬ ((Pthreads.add_row_unrolled_loop off D coords fuel d s).1 + 4 ≤ D) := by
  intro fuel
  induction fuel with
  | zero =>
    intro d s h
    simp only [Pthreads.add_row_unrolled_loop]
    omega
  | succ fuel ih =>
    intro d s h
    unfold Pthreads.add_row_unrolled_loop
    by_cases hc : d + 4 ≤ D
    · rw [if_pos hc]
      exact ih _ _ (by omega)
    · rw [if_neg hc]
      exact hc

/-! ## Assignment -/

/-- When some distance is below `LLONG_MAX`, the search loop returns the lowest
index of a minimal distance, whatever the initial `best_cluster`. -/
theorem search_loop_argmin (dist : Nat → Int) (K : Nat) (init : Int)
    (h : ∃ k, k < K ∧ dist k < LLONG_MAX) :
    lowest_argmin dist K (search_loop dist K init).2 := by
  obtain ⟨hmin, hcase⟩ := search_loop_inv dist K init
  rcases hcase with ⟨_, h2⟩ | ⟨b, hb, h2, h3, _, h5⟩
  · obtain ⟨k, hk, hlt⟩ := h
    have := hmin k hk
    omega
  · rw [h2]
    refine ⟨by omega, by omega, ?_, ?_⟩
    · intro k hk
      rw [Int.toNat_ofNat, ← h3]
      exact hmin k hk
    · intro j hj
      rw [Int.toNat_ofNat] at hj ⊢
      exact h5 j hj

/-- When no distance is below `LLONG_MAX`, the initial `best_cluster` is
returned. -/
theorem search_loop_init (dist : Nat → Int) (K : Nat) (init : Int)
    (h : ∀ k, k < K → LLONG_MAX ≤ dist k) : (search_loop dist K init).2 = init := by
  obtain ⟨_, hcase⟩ := search_loop_inv dist K init
  rcases hcase with ⟨h1, _⟩ | ⟨b, hb, _, _, h4, _⟩
  · exact h1
  · have := h b hb
    omega

/-- The shared-memory assignment loop picks the lowest-index argmin for every
point, every `K ≥ 1` and every centroid array. -/
theorem pthreads_best_cluster_argmin (p : Nat → Int) (centroids : Nat → Nat → Int) (K D : Nat)
    (hK : 1 ≤ K) :
    lowest_argmin (fun k => Pthreads.euclidean_dist_sq p (centroids k) D) K
      (Pthreads.best_cluster p centroids K D) := by
  by_cases h : ∃ k, k < K ∧ Pthreads.euclidean_dist_sq p (centroids k) D < LLONG_MAX
  · exact search_loop_argmin _ K 0 h
  · have hall : ∀ k, k < K → Pthreads.euclidean_dist_sq p (centroids k) D = LLONG_MAX := by
      intro k hk
      have h1 : ¬ Pthreads.euclidean_dist_sq p (centroids k) D < LLONG_MAX := fun hlt => h ⟨k, hk, hlt⟩
      have h2 := mpi_dist_le p (centroids k) D
      rw [← dist_unrolled_eq] at h2
      omega
    have hb : Pthreads.best_cluster p centroids K D = 0 :=
      search_loop_init _ K 0 (fun k hk => by rw [hall k hk])
    rw [hb]
    refine ⟨le_refl _, by omega, ?_, ?_⟩
    · intro k hk
      show Pthreads.euclidean_dist_sq p (centroids 0) D ≤ Pthreads.euclidean_dist_sq p (centroids k) D
      rw [hall k hk, hall 0 (by omega)]
    · intro j hj
      simp at hj

/-- The message-passing and the sequential assignment loops pick the
lowest-index argmin whenever some centroid is at a computed distance below
`LLONG_MAX`. -/
theorem mpi_best_cluster_argmin (p : Nat → Int) (centroids : Nat → Nat → Int) (K D : Nat)
    (h : ∃ k, k < K ∧ Mpi.euclidean_dist_sq p (centroids k) D < LLONG_MAX) :
    lowest_argmin (fun k => Mpi.euclidean_dist_sq p (centroids k) D) K
      (Mpi.best_cluster p centroids K D) :=
  search_loop_argmin _ K (-1) h

/-- When every centroid is at computed distance `LLONG_MAX`, the
message-passing and the sequential loops leave `best_cluster` at `-1`. -/
theorem mpi_best_cluster_sentinel (p : Nat → Int) (centroids : Nat → Nat → Int) (K D : Nat)
    (h : ∀ k, k < K → Mpi.euclidean_dist_sq p (centroids k) D = LLONG_MAX) :
    Mpi.best_cluster p centroids K D = -1 :=
  search_loop_init _ K (-1) (fun k hk => by rw [h k hk])

/-- C4 (the code at the failing input). The point
`(2147483647, 2147483647, 91810, 12683)` is at squared distance exactly
`LLONG_MAX` from the centroid `(0, 0, 0, 0)`, computed without overflow. With
`K = 1` the message-passing loop and the sequential
`assign_points_to_clusters` never find `dist < min_dist` and leave the
`cluster_id` at `-1`, outside `[0, K)`; the shared-memory loop, which starts
`best_cluster` at 0, returns 0. -/
theorem assignment_at_llong_max :
    sq_dist (ofList [2147483647, 2147483647, 91810, 12683]) (ofList [0, 0, 0, 0]) 4
      = LLONG_MAX ∧
    Mpi.euclidean_dist_sq (ofList [2147483647, 2147483647, 91810, 12683])
      (ofList [0, 0, 0, 0]) 4 = LLONG_MAX ∧
    Mpi.best_cluster (ofList [2147483647, 2147483647, 91810, 12683])
      (ofRows [[0, 0, 0, 0]]) 1 4 = -1 ∧
    Mpi.assign_points_to_clusters (ofRows [[2147483647, 2147483647, 91810, 12683]])
      (ofRows [[0, 0, 0, 0]]) 1 1 4 (fun _ => 0) 0 = -1 ∧
    ¬ lowest_argmin
        (fun k => Mpi.euclidean_dist_sq (ofList [2147483647, 2147483647, 91810, 12683])
          (ofRows [[0, 0, 0, 0]] k) 4) 1
        (Mpi.best_cluster (ofList [2147483647, 2147483647, 91810, 12683])
          (ofRows [[0, 0, 0, 0]]) 1 4) ∧
    Pthreads.best_cluster (ofList [2147483647, 2147483647, 91810, 12683])
      (ofRows [[0, 0, 0, 0]]) 1 4 = 0 := by
  refine ⟨by decide, by decide, by decide, by decide, ?_, by decide⟩
  intro h
  have h0 := h.1
  have : Mpi.best_cluster (ofList [2147483647, 2147483647, 91810, 12683])
      (ofRows [[0, 0, 0, 0]]) 1 4 = -1 := by decide
  rw [this] at h0
  exact absurd h0 (by decide)

/-- C5 (the code at the failing input). With `D = 1`, `p = (2147483647)` and
`c = (-2147483648)` the difference `4294967295` fits in a `long long` but its
square `18446744065119617025` exceeds `LLONG_MAX`; both `euclidean_dist_sq`
return the wrapped value `-8589934591` instead of the mathematical sum. -/
theorem euclidean_dist_sq_overflow :
    isInt 2147483647 ∧ isInt (-2147483648) ∧
    sq_dist (ofList [2147483647]) (ofList [-2147483648]) 1 = 18446744065119617025 ∧
    ¬ isLL (sq_dist (ofList [2147483647]) (ofList [-2147483648]) 1) ∧
    Mpi.euclidean_dist_sq (ofList [2147483647]) (ofList [-2147483648]) 1 = -8589934591 ∧
    Pthreads.euclidean_dist_sq (ofList [2147483647]) (ofList [-2147483648]) 1
      = -8589934591 := by
  refine ⟨by decide, by decide, by decide, by decide, by decide, by decide⟩

/-! ## Partition -/

namespace Pthreads

theorem setup_upto_succ (M P n : Nat) :
    setup_upto M P (n + 1) = setup_step (M / P) (M % P) (setup_upto M P n) n := by
  simp [setup_upto, List.range_succ, List.foldl_append]

theorem setup_upto_spec (M P n : Nat) :
    (setup_upto M P n).current_idx = n * (M / P) + min n (M % P) ∧
    ∀ i, i < n →
      (setup_upto M P n).start_idx i = i * (M / P) + min i (M % P) ∧
      (setup_upto M P n).end_idx i = (i + 1) * (M / P) + min (i + 1) (M % P) := by
  induction n with
  | zero => simp [setup_upto]
  | succ n ih =>
    obtain ⟨hc, hi⟩ := ih
    rw [setup_upto_succ]
    have hmul : (n + 1) * (M / P) = n * (M / P) + M / P := Nat.succ_mul n (M / P)
    refine ⟨?_, ?_⟩
    · simp only [setup_step, hc]
      split <;> omega
    · intro i hlt
      by_cases h : i = n
      · subst h
        constructor
        · simp only [setup_step, Function.update_same, hc]
        · simp only [setup_step, Function.update_same, hc]
          split <;> omega
      · have hlt2 : i < n := by omega
        simp only [setup_step, Function.update_noteq h]
        exact hi i hlt2

theorem setup_start (M P i : Nat) (h : i < P) : (setup M P).start_idx i = boundary M P i :=
  ((setup_upto_spec M P P).2 i h).1

theorem setup_end (M P i : Nat) (h : i < P) : (setup M P).end_idx i = boundary M P (i + 1) :=
  ((setup_upto_spec M P P).2 i h).2

theorem boundary_zero (M P : Nat) : boundary M P 0 = 0 := by simp [boundary]

theorem boundary_last (M P : Nat) (hP : 1 ≤ P) : boundary M P P = M := by
  have h1 : M % P < P := Nat.mod_lt _ (by omega)
  have h2 : P * (M / P) + M % P = M := Nat.div_add_mod M P
  unfold boundary
  rw [Nat.min_eq_right (by omega)]
  exact h2

theorem boundary_succ (M P i : Nat) :
    boundary M P (i + 1) = boundary M P i + (if i < M % P then M / P + 1 else M / P) := by
  have hmul : (i + 1) * (M / P) = i * (M / P) + M / P := Nat.succ_mul i (M / P)
  unfold boundary
  split <;> omega

theorem boundary_mono (M P : Nat) {i j : Nat} (h : i ≤ j) : boundary M P i ≤ boundary M P j := by
  induction j with
  | zero =>
    have : i = 0 := by omega
    subst this
    exact Nat.le_refl _
  | succ j ih =>
    by_cases hij : i = j + 1
    · subst hij
      exact Nat.le_refl _
    · have := ih (by omega)
      rw [boundary_succ]
      omega

theorem boundary_cover (M P x : Nat) (n : Nat) (hx : x < boundary M P n) :
    ∃ i, i < n ∧ boundary M P i ≤ x ∧ x < boundary M P (i + 1) := by
  induction n with
  | zero => simp [boundary] at hx
  | succ n ih =>
    by_cases h : x < boundary M P n
    · obtain ⟨i, hi, h1, h2⟩ := ih h
      exact ⟨i, by omega, h1, h2⟩
    · exact ⟨n, by omega, by omega, hx⟩

/-- An index lies in the range of some thread exactly when it is below `M`. -/
theorem setup_cover (M P : Nat) (hP : 1 ≤ P) (x : Nat) :
    (∃ i, i < P ∧ (setup M P).start_idx i ≤ x ∧ x < (setup M P).end_idx i) ↔ x < M := by
  constructor
  · rintro ⟨i, hi, _, h2⟩
    rw [setup_end M P i hi] at h2
    have := boundary_mono M P (show i + 1 ≤ P by omega)
    rw [boundary_last M P hP] at this
    omega
  · intro hx
    rw [← boundary_last M P hP] at hx
    obtain ⟨i, hi, h1, h2⟩ := boundary_cover M P x P hx
    exact ⟨i, hi, by rw [setup_start M P i hi]; exact h1, by rw [setup_end M P i hi]; exact h2⟩

/-- C3. For every `M ≥ 0` and `P ≥ 1`, the set-up loop gives worker 0 the start
index 0, gives worker `i` exactly `M / P + 1` points when `i < M % P` and
exactly `M / P` points otherwise, starts every worker at the end index of the
previous one, and any two range sizes differ by at most 1. -/
theorem partition_sizes (M P : Nat) (hP : 1 ≤ P) :
    (setup M P).start_idx 0 = 0 ∧
    (∀ i, i < P → (setup M P).end_idx i =
      (setup M P).start_idx i + (if i < M % P then M / P + 1 else M / P)) ∧
    (∀ i, i + 1 < P → (setup M P).start_idx (i + 1) = (setup M P).end_idx i) ∧
    (∀ i j, i < P → j < P →
      (setup M P).end_idx i - (setup M P).start_idx i ≤
        (setup M P).end_idx j - (setup M P).start_idx j + 1) := by
  refine ⟨?_, ?_, ?_, ?_⟩
  · rw [setup_start M P 0 (by omega), boundary_zero]
  · intro i hi
    rw [setup_end M P i hi, setup_start M P i hi, boundary_succ]
  · intro i hi
    rw [setup_start M P (i + 1) hi, setup_end M P i (by omega)]
  · intro i j hi hj
    rw [setup_end M P i hi, setup_start M P i hi, setup_end M P j hj, setup_start M P j hj,
      boundary_succ M P i, boundary_succ M P j]
    split <;> split <;> omega

theorem partition_sizes_witness :
    (setup 10 4).start_idx 0 = 0 ∧
    (∀ i, i < 4 → (setup 10 4).end_idx i =
      (setup 10 4).start_idx i + (if i < 10 % 4 then 10 / 4 + 1 else 10 / 4)) ∧
    (∀ i, i + 1 < 4 → (setup 10 4).start_idx (i + 1) = (setup 10 4).end_idx i) ∧
    (∀ i j, i < 4 → j < 4 →
      (setup 10 4).end_idx i - (setup 10 4).start_idx i ≤
        (setup 10 4).end_idx j - (setup 10 4).start_idx j + 1) :=
  partition_sizes 10 4 (by decide)

/-- C2. For every `M` (in particular every `M ≥ 1`) and every `P ≥ 1`, the `P`
ranges `[start_idx, end_idx)` of the set-up loop are pairwise disjoint and an
index belongs to one of them exactly when it is below `M`: their union is
`[0, M)`, also when `P > M` and some ranges are empty. -/
theorem partition_coverage (M P : Nat) (hP : 1 ≤ P) :
    (∀ i j x, i < P → j < P → i ≠ j →
      ¬ ((setup M P).start_idx i ≤ x ∧ x < (setup M P).end_idx i ∧
         (setup M P).start_idx j ≤ x ∧ x < (setup M P).end_idx j)) ∧
    (∀ x, (∃ i, i < P ∧ (setup M P).start_idx i ≤ x ∧ x < (setup M P).end_idx i) ↔ x < M) := by
  constructor
  · intro i j x hi hj hne
    rw [setup_start M P i hi, setup_end M P i hi, setup_start M P j hj, setup_end M P j hj]
    rintro ⟨h1, h2, h3, h4⟩
    rcases Nat.lt_or_gt_of_ne hne with h | h
    · have := boundary_mono M P (show i + 1 ≤ j by omega)
      omega
    · have := boundary_mono M P (show j + 1 ≤ i by omega)
      omega
  · intro x
    constructor
    · rintro ⟨i, hi, _, h2⟩
      rw [setup_end M P i hi] at h2
      have := boundary_mono M P (show i + 1 ≤ P by omega)
      rw [boundary_last M P hP] at this
      omega
    · intro hx
      rw [← boundary_last M P hP] at hx
      obtain ⟨i, hi, h1, h2⟩ := boundary_cover M P x P hx
      exact ⟨i, hi, by rw [setup_start M P i hi]; exact h1, by rw [setup_end M P i hi]; exact h2⟩

theorem partition_coverage_witness :
    (∀ i j x, i < 4 → j < 4 → i ≠ j →
      ¬ ((setup 3 4).start_idx i ≤ x ∧ x < (setup 3 4).end_idx i ∧
         (setup 3 4).start_idx j ≤ x ∧ x < (setup 3 4).end_idx j)) ∧
    (∀ x, (∃ i, i < 4 ∧ (setup 3 4).start_idx i ≤ x ∧ x < (setup 3 4).end_idx i) ↔ x < 3) :=
  partition_coverage 3 4 (by decide)

end Pthreads

/-! ## Local accumulation -/

theorem member_count_nil (a : Nat → Int) (k : Nat) : member_count a k [] = 0 := rfl

theorem member_count_cons (a : Nat → Int) (k i : Nat) (l : List Nat) :
    member_count a k (i :: l) = (if a i = (k : Int) then 1 else 0) + member_count a k l := by
  simp [member_count]

theorem member_count_append (a : Nat → Int) (k : Nat) (l1 l2 : List Nat) :
    member_count a k (l1 ++ l2) = member_count a k l1 + member_count a k l2 := by
  simp [member_count]

theorem member_sum_nil (pts : Nat → Nat → Int) (a : Nat → Int) (k d : Nat) :
    member_sum pts a k d [] = 0 := rfl

theorem member_sum_cons (pts : Nat → Nat → Int) (a : Nat → Int) (k d i : Nat) (l : List Nat) :
    member_sum pts a k d (i :: l) =
      (if a i = (k : Int) then pts i d else 0) + member_sum pts a k d l := by
  simp [member_sum]

theorem member_sum_append (pts : Nat → Nat → Int) (a : Nat → Int) (k d : Nat)
    (l1 l2 : List Nat) :
    member_sum pts a k d (l1 ++ l2) = member_sum pts a k d l1 + member_sum pts a k d l2 := by
  simp [member_sum]

/-- Row `b` of a `K × D` array occupies the cells `b * D .. b * D + D - 1`:
cell `k * D + d` with `d < D` lies in it exactly when `k = b`. -/
theorem row_index (b k d D : Nat) (hd : d < D) :
    (b * D ≤ k * D + d ∧ k * D + d < b * D + D) ↔ b = k := by
  constructor
  · rintro ⟨h1, h2⟩
    rcases Nat.lt_trichotomy b k with h | h | h
    · have : (b + 1) * D ≤ k * D := Nat.mul_le_mul_right D h
      rw [Nat.succ_mul] at this
      omega
    · exact h
    · have : (k + 1) * D ≤ b * D := Nat.mul_le_mul_right D h
      rw [Nat.succ_mul] at this
      omega
  · intro h
    subst h
    omega

theorem add_row_cell (s : Nat → Int) (b D : Nat) (coords : Nat → Int) (k d : Nat)
    (hd : d < D) :
    add_row s (b * D) D coords (k * D + d) =
      if b = k then wrapLL (s (k * D + d) + coords d) else s (k * D + d) := by
  rw [add_row_apply]
  by_cases h : b = k
  · subst h
    rw [if_pos ((row_index b b d D hd).2 rfl), if_pos rfl]
    congr 3
    omega
  · rw [if_neg (fun hc => h ((row_index b k d D hd).1 hc)), if_neg h]

/-- Closed form of the assignment loop over a list `l` of point indices when
every assignment lies in `[0, K)`: every listed point gets its `cluster_id`,
and every accumulator cell grows, modulo the width of its type, by the count
or the coordinate sum of the listed members of its cluster. -/
theorem assign_acc_fold (pts : Nat → Nat → Int) (a : Nat → Int) (K D : Nat) :
    ∀ (l : List Nat) (w : Worker), (∀ i, i ∈ l → 0 ≤ a i ∧ a i < K) →
      ∃ w2, l.foldlM (assign_acc_step pts a K D) w = some w2 ∧
        (∀ j, w2.cluster_id j = if j ∈ l then a j else w.cluster_id j) ∧
        (∀ k, wrapInt (w.counts k) = w.counts k →
          w2.counts k = wrapInt (w.counts k + member_count a k l)) ∧
        (∀ k d, d < D → wrapLL (w.sums (k * D + d)) = w.sums (k * D + d) →
          w2.sums (k * D + d) = wrapLL (w.sums (k * D + d) + member_sum pts a k d l)) := by
  intro l
  induction l with
  | nil =>
    intro w _
    refine ⟨w, rfl, ?_, ?_, ?_⟩
    · intro j; simp
    · intro k hk; rw [member_count_nil, Int.add_zero, hk]
    · intro k d _ hk; rw [member_sum_nil, Int.add_zero, hk]
  | cons i l ih =>
    intro w hall
    have hi := hall i (List.mem_cons_self i l)
    obtain ⟨w2, hfold, hcid, hcnt, hsum⟩ :=
      ih { cluster_id := Function.update w.cluster_id i (a i)
           counts := Function.update w.counts (a i).toNat (wrapInt (w.counts (a i).toNat + 1))
           sums := add_row w.sums ((a i).toNat * D) D (pts i) }
        (fun j hj => hall j (List.mem_cons_of_mem i hj))
    refine ⟨w2, ?_, ?_, ?_, ?_⟩
    · rw [List.foldlM_cons]
      unfold assign_acc_step
      rw [if_pos hi]
      exact hfold
    · intro j
      rw [hcid j]
      by_cases hjl : j ∈ l
      · rw [if_pos hjl, if_pos (List.mem_cons_of_mem i hjl)]
      · rw [if_neg hjl]
        by_cases hji : j = i
        · subst hji
          rw [if_pos (List.mem_cons_self j l)]
          simp
        · rw [if_neg (by simp [hji, hjl])]
          simp [Function.update_noteq hji]
    · intro k hk
      have hiff : k = (a i).toNat ↔ a i = (k : Int) := by omega
      have hcell : Function.update w.counts (a i).toNat (wrapInt (w.counts (a i).toNat + 1)) k =
          if a i = (k : Int) then wrapInt (w.counts k + 1) else w.counts k := by
        rw [Function.update_apply]
        by_cases hak : a i = (k : Int)
        · rw [if_pos (hiff.2 hak), if_pos hak, ← hiff.2 hak]
        · rw [if_neg (fun h => hak (hiff.1 h)), if_neg hak]
      by_cases hak : a i = (k : Int)
      · rw [if_pos hak] at hcell
        have := hcnt k (by simp only [hcell]; exact wrapInt_idem _)
        rw [this, member_count_cons, if_pos hak]
        simp only [hcell]
        rw [wrapInt_add_left, Int.add_assoc]
      · rw [if_neg hak] at hcell
        have := hcnt k (by simp only [hcell]; exact hk)
        rw [this, member_count_cons, if_neg hak]
        simp only [hcell]
        rw [Int.zero_add]
    · intro k d hd hk
      have hiff : (a i).toNat = k ↔ a i = (k : Int) := by omega
      have hcell := add_row_cell w.sums (a i).toNat D (pts i) k d hd
      by_cases hak : a i = (k : Int)
      · have hk2 : (a i).toNat = k := hiff.2 hak
        rw [if_pos hk2] at hcell
        have := hsum k d hd (by simp only [hcell]; exact wrapLL_idem _)
        rw [this, member_sum_cons, if_pos hak]
        simp only [hcell]
        rw [wrapLL_add_left, Int.add_assoc]
      · have hk2 : ¬ (a i).toNat = k := fun h => hak (hiff.1 h)
        rw [if_neg hk2] at hcell
        have := hsum k d hd (by simp only [hcell]; exact hk)
        rw [this, member_sum_cons, if_neg hak]
        simp only [hcell]
        rw [Int.zero_add]

/-- The assignment loop performs an invalid access as soon as one listed point
has an assignment outside `[0, K)`. -/
theorem assign_acc_fold_none (pts : Nat → Nat → Int) (a : Nat → Int) (K D : Nat) :
    ∀ (l : List Nat) (w : Worker), (∃ i, i ∈ l ∧ ¬ (0 ≤ a i ∧ a i < K)) →
      l.foldlM (assign_acc_step pts a K D) w = none := by
  intro l
  induction l with
  | nil =>
    rintro w ⟨i, hi, _⟩
    simp at hi
  | cons i l ih =>
    rintro w ⟨j, hj, hbad⟩
    rw [List.foldlM_cons]
    unfold assign_acc_step
    by_cases hi : 0 ≤ a i ∧ a i < K
    · rw [if_pos hi]
      rcases List.mem_cons.1 hj with h | h
      · subst h
        exact absurd hi hbad
      · exact ih _ ⟨j, h, hbad⟩
    · rw [if_neg hi]
      rfl

theorem mpi_local_step_eq (lp : Nat → Nat → Int) (c : Nat → Nat → Int) (K D : Nat) :
    Mpi.local_step lp c K D =
      assign_acc_step lp (fun i => Mpi.best_cluster (lp i) c K D) K D := rfl

theorem pthreads_worker_step_eq (pts : Nat → Nat → Int) (c : Nat → Nat → Int) (K D : Nat) :
    Pthreads.worker_step pts c K D =
      assign_acc_step pts (fun i => Pthreads.best_cluster (pts i) c K D) K D := by
  funext w i
  unfold Pthreads.worker_step assign_acc_step
  simp only [add_row_unrolled_eq]

theorem row_cell_lt (k d K D : Nat) (hk : k < K) (hd : d < D) : k * D + d < K * D := by
  have : (k + 1) * D ≤ K * D := Nat.mul_le_mul_right D hk
  rw [Nat.succ_mul] at this
  omega

theorem wrapInt_zero : wrapInt 0 = 0 := by decide

theorem wrapLL_zero : wrapLL 0 = 0 := by decide

/-- Closed form of the zeroing and the assignment loop over the points
`start .. start + n - 1` for an assignment `a` with values in `[0, K)`. -/
theorem assign_phase_spec (pts : Nat → Nat → Int) (a : Nat → Int) (K D start n : Nat)
    (w : Worker) (h : ∀ i, start ≤ i → i < start + n → 0 ≤ a i ∧ a i < K) :
    ∃ w2, for_loop (assign_acc_step pts a K D) start n
        { cluster_id := w.cluster_id
          sums := memset0 w.sums (K * D)
          counts := memset0 w.counts K } = some w2 ∧
      (∀ j, w2.cluster_id j = if start ≤ j ∧ j < start + n then a j else w.cluster_id j) ∧
      (∀ k, k < K → w2.counts k = wrapInt (member_count a k (List.range' start n))) ∧
      (∀ k d, k < K → d < D →
        w2.sums (k * D + d) = wrapLL (member_sum pts a k d (List.range' start n))) := by
  have hmem : ∀ i, i ∈ List.range' start n ↔ start ≤ i ∧ i < start + n := by
    intro i
    rw [List.mem_range'_1]
  obtain ⟨w2, hfold, hcid, hcnt, hsum⟩ := assign_acc_fold pts a K D (List.range' start n)
    { cluster_id := w.cluster_id
      sums := memset0 w.sums (K * D)
      counts := memset0 w.counts K }
    (fun i hi => h i ((hmem i).1 hi).1 ((hmem i).1 hi).2)
  refine ⟨w2, hfold, ?_, ?_, ?_⟩
  · intro j
    rw [hcid j]
    by_cases hj : start ≤ j ∧ j < start + n
    · rw [if_pos hj, if_pos ((hmem j).2 hj)]
    · rw [if_neg hj, if_neg (fun hc => hj ((hmem j).1 hc))]
  · intro k hk
    have h0 : memset0 w.counts K k = 0 := by simp [memset0, hk]
    have := hcnt k (by simp only [h0]; exact wrapInt_zero)
    rw [this]
    simp only [h0, Int.zero_add]
  · intro k d hk hd
    have h0 : memset0 w.sums (K * D) (k * D + d) = 0 := by
      simp [memset0, row_cell_lt k d K D hk hd]
    have := hsum k d hd (by simp only [h0]; exact wrapLL_zero)
    rw [this]
    simp only [h0, Int.zero_add]

/-- The zeroing and assignment loop performs an invalid access when some point
of the range has an assignment outside `[0, K)`. -/
theorem assign_phase_none (pts : Nat → Nat → Int) (a : Nat → Int) (K D start n : Nat)
    (w : Worker) (h : ∃ i, start ≤ i ∧ i < start + n ∧ ¬ (0 ≤ a i ∧ a i < K)) :
    for_loop (assign_acc_step pts a K D) start n w = none := by
  obtain ⟨i, h1, h2, h3⟩ := h
  exact assign_acc_fold_none pts a K D _ w ⟨i, List.mem_range'_1.2 ⟨h1, h2⟩, h3⟩

/-! ## Reduction -/

/-- A left fold that adds `f r` to a wrapped running total computes the
wrapped sum, for the 64-bit wrap. -/
theorem foldl_wrapLL_sum (f : Nat → Int) (l : List Nat) (g : Int) :
    l.foldl (fun g r => wrapLL (g + f r)) (wrapLL g) = wrapLL (g + (l.map f).sum) := by
  induction l generalizing g with
  | nil => simp
  | cons r l ih =>
    rw [List.foldl_cons, wrapLL_add_left, ih, List.map_cons, List.sum_cons, Int.add_assoc]

/-- A left fold that adds `f r` to a wrapped running total computes the
wrapped sum, for the 32-bit wrap. -/
theorem foldl_wrapInt_sum (f : Nat → Int) (l : List Nat) (g : Int) :
    l.foldl (fun g r => wrapInt (g + f r)) (wrapInt g) = wrapInt (g + (l.map f).sum) := by
  induction l generalizing g with
  | nil => simp
  | cons r l ih =>
    rw [List.foldl_cons, wrapInt_add_left, ih, List.map_cons, List.sum_cons, Int.add_assoc]

theorem mpi_reduce_sums_spec (local_sums : Nat → Nat → Int) (size j : Nat) :
    Mpi.reduce_sums local_sums size j =
      wrapLL (((List.range size).map (fun r => local_sums r j)).sum) := by
  have := foldl_wrapLL_sum (fun r => local_sums r j) (List.range size) 0
  rw [wrapLL_zero, Int.zero_add] at this
  exact this

theorem mpi_reduce_counts_spec (local_counts : Nat → Nat → Int) (size j : Nat) :
    Mpi.reduce_counts local_counts size j =
      wrapInt (((List.range size).map (fun r => local_counts r j)).sum) := by
  have := foldl_wrapInt_sum (fun r => local_counts r j) (List.range size) 0
  rw [wrapInt_zero, Int.zero_add] at this
  exact this

theorem leader_reduce_succ (sums counts : Nat → Nat → Int) (n D k : Nat) :
    Pthreads.leader_reduce sums counts (n + 1) D k =
      (add_row (Pthreads.leader_reduce sums counts n D k).1 0 D (fun d => sums n (k * D + d)),
       wrapInt ((Pthreads.leader_reduce sums counts n D k).2 + counts n k)) := by
  simp [Pthreads.leader_reduce, List.range_succ, List.foldl_append]

/-- Closed form of the leader's reduction loop: `total_count` and every cell
`d < D` of `total_sum` are the sums over the threads, wrapped to the width of
their type. -/
theorem leader_reduce_spec (sums counts : Nat → Nat → Int) (P D k : Nat) :
    (Pthreads.leader_reduce sums counts P D k).2 =
      wrapInt (((List.range P).map (fun t => counts t k)).sum) ∧
    ∀ d, d < D → (Pthreads.leader_reduce sums counts P D k).1 d =
      wrapLL (((List.range P).map (fun t => sums t (k * D + d))).sum) := by
  induction P with
  | zero =>
    refine ⟨?_, fun d _ => ?_⟩
    · simp [Pthreads.leader_reduce, wrapInt_zero]
    · simp [Pthreads.leader_reduce, wrapLL_zero]
  | succ P ih =>
    obtain ⟨h1, h2⟩ := ih
    rw [leader_reduce_succ]
    refine ⟨?_, fun d hd => ?_⟩
    · simp only [h1, List.range_succ, List.map_append, List.sum_append, List.map_cons,
        List.map_nil, List.sum_cons, List.sum_nil, Int.add_zero]
      rw [wrapInt_add_left]
    · simp only [add_row_apply, Nat.zero_le, Nat.zero_add, true_and, if_pos hd, Nat.sub_zero,
        h2 d hd, List.range_succ, List.map_append, List.sum_append, List.map_cons,
        List.map_nil, List.sum_cons, List.sum_nil, Int.add_zero]
      rw [wrapLL_add_left]

/-! ## Centroid update -/

theorem store_means_succ (sums : Nat → Int) (off : Nat) (count : Int) (D : Nat)
    (coords : Nat → Int) :
    store_means sums off count (D + 1) coords =
      Function.update (store_means sums off count D coords) D
        (wrapInt (Int.tdiv (sums (off + D)) count)) := by
  simp [store_means, List.range_succ, List.foldl_append]

/-- Closed form of the store loop: the cells `d < D` hold the truncated
quotients narrowed to `int`, the others are untouched. -/
theorem store_means_apply (sums : Nat → Int) (off : Nat) (count : Int) (D : Nat)
    (coords : Nat → Int) :
    ∀ d, store_means sums off count D coords d =
      if d < D then wrapInt (Int.tdiv (sums (off + d)) count) else coords d := by
  induction D with
  | zero => intro d; simp [store_means]
  | succ D ih =>
    intro d
    rw [store_means_succ, Function.update_apply]
    by_cases h : d = D
    · subst h
      rw [if_pos rfl, if_pos (Nat.lt_succ_self d)]
    · rw [if_neg h, ih d]
      by_cases h2 : d < D
      · rw [if_pos h2, if_pos (by omega)]
      · rw [if_neg h2, if_neg (by omega)]

theorem write_centroids_succ (sums counts : Nat → Int) (K D : Nat)
    (centroids : Nat → Nat → Int) :
    write_centroids sums counts (K + 1) D centroids =
      if counts K > 0 then
        Function.update (write_centroids sums counts K D centroids) K
          (store_means sums (K * D) (counts K) D (write_centroids sums counts K D centroids K))
      else write_centroids sums counts K D centroids := by
  simp [write_centroids, List.range_succ, List.foldl_append]

/-- Closed form of the update loop of kmeans_mpi.c: coordinate `d < D` of a
centroid `k < K` with a positive count becomes the truncated quotient narrowed
to `int`; every other coordinate keeps its value. -/
theorem write_centroids_apply (sums counts : Nat → Int) (K D : Nat)
    (centroids : Nat → Nat → Int) :
    ∀ k d, write_centroids sums counts K D centroids k d =
      if k < K ∧ d < D ∧ counts k > 0 then
        wrapInt (Int.tdiv (sums (k * D + d)) (counts k))
      else centroids k d := by
  induction K with
  | zero => intro k d; simp [write_centroids]
  | succ K ih =>
    intro k d
    rw [write_centroids_succ]
    by_cases hc : counts K > 0
    · rw [if_pos hc, Function.update_apply]
      by_cases hk : k = K
      · subst hk
        rw [if_pos rfl, store_means_apply, ih k d]
        by_cases hd : d < D
        · rw [if_pos hd, if_pos ⟨Nat.lt_succ_self k, hd, hc⟩]
        · rw [if_neg hd, if_neg (by omega), if_neg (fun h => hd h.2.1)]
      · rw [if_neg hk, ih k d]
        by_cases h : k < K ∧ d < D ∧ counts k > 0
        · rw [if_pos h, if_pos ⟨by omega, h.2⟩]
        · rw [if_neg h, if_neg (fun h2 => h ⟨by omega, h2.2⟩)]
    · rw [if_neg hc, ih k d]
      by_cases h : k < K ∧ d < D ∧ counts k > 0
      · rw [if_pos h, if_pos ⟨by omega, h.2⟩]
      · rw [if_neg h]
        by_cases hk : k = K
        · subst hk
          rw [if_neg (fun h2 => hc h2.2.2)]
        · rw [if_neg (fun h2 => h ⟨by omega, h2.2⟩)]

theorem leader_succ (sums counts : Nat → Nat → Int) (P K D : Nat)
    (centroids : Nat → Nat → Int) :
    Pthreads.leader sums counts P (K + 1) D centroids =
      Pthreads.leader_step sums counts P D (Pthreads.leader sums counts P K D centroids) K := by
  simp [Pthreads.leader, List.range_succ, List.foldl_append]

/-- Closed form of the leader phase of kmeans_pthreads.c in terms of the
totals computed by its reduction loop. -/
theorem leader_apply (sums counts : Nat → Nat → Int) (P K D : Nat)
    (centroids : Nat → Nat → Int) :
    ∀ k d, Pthreads.leader sums counts P K D centroids k d =
      if k < K ∧ d < D ∧ (Pthreads.leader_reduce sums counts P D k).2 > 0 then
        wrapInt (Int.tdiv ((Pthreads.leader_reduce sums counts P D k).1 d)
          (Pthreads.leader_reduce sums counts P D k).2)
      else centroids k d := by
  induction K with
  | zero => intro k d; simp [Pthreads.leader]
  | succ K ih =>
    intro k d
    rw [leader_succ]
    unfold Pthreads.leader_step
    by_cases hc : (Pthreads.leader_reduce sums counts P D K).2 > 0
    · rw [if_pos hc, Function.update_apply]
      by_cases hk : k = K
      · subst hk
        rw [if_pos rfl, store_means_apply, ih k d, Nat.zero_add]
        by_cases hd : d < D
        · rw [if_pos hd, if_pos ⟨Nat.lt_succ_self k, hd, hc⟩]
        · rw [if_neg hd, if_neg (by omega), if_neg (fun h => hd h.2.1)]
      · rw [if_neg hk, ih k d]
        by_cases h : k < K ∧ d < D ∧ (Pthreads.leader_reduce sums counts P D k).2 > 0
        · rw [if_pos h, if_pos ⟨by omega, h.2⟩]
        · rw [if_neg h, if_neg (fun h2 => h ⟨by omega, h2.2⟩)]
    · rw [if_neg hc, ih k d]
      by_cases h : k < K ∧ d < D ∧ (Pthreads.leader_reduce sums counts P D k).2 > 0
      · rw [if_pos h, if_pos ⟨by omega, h.2⟩]
      · rw [if_neg h]
        by_cases hk : k = K
        · subst hk
          rw [if_neg (fun h2 => hc h2.2.2)]
        · rw [if_neg (fun h2 => h ⟨by omega, h2.2⟩)]

/-! ## Sums over contiguous ranges -/

theorem wrapLL_add_both (x y : Int) : wrapLL (wrapLL x + wrapLL y) = wrapLL (x + y) := by
  unfold wrapLL; omega

theorem wrapInt_add_both (x y : Int) : wrapInt (wrapInt x + wrapInt y) = wrapInt (x + y) := by
  unfold wrapInt; omega

theorem wrapLL_sum_map (x : Nat → Int) (l : List Nat) :
    wrapLL ((l.map (fun t => wrapLL (x t))).sum) = wrapLL ((l.map x).sum) := by
  induction l with
  | nil => rfl
  | cons t l ih =>
    rw [List.map_cons, List.sum_cons, List.map_cons, List.sum_cons,
      ← wrapLL_add_both, wrapLL_idem, ih, wrapLL_add_both]

theorem wrapInt_sum_map (x : Nat → Int) (l : List Nat) :
    wrapInt ((l.map (fun t => wrapInt (x t))).sum) = wrapInt ((l.map x).sum) := by
  induction l with
  | nil => rfl
  | cons t l ih =>
    rw [List.map_cons, List.sum_cons, List.map_cons, List.sum_cons,
      ← wrapInt_add_both, wrapInt_idem, ih, wrapInt_add_both]

/-- Summing a function over consecutive blocks `[f t, f (t+1))`, `t < n`, is
summing it over `[0, f n)`. -/
theorem chain_sum (h : Nat → Int) (f : Nat → Nat) (hf0 : f 0 = 0)
    (hmono : ∀ t, f t ≤ f (t + 1)) (n : Nat) :
    ((List.range n).map (fun t => ((List.range' (f t) (f (t + 1) - f t)).map h).sum)).sum =
      ((List.range' 0 (f n)).map h).sum := by
  induction n with
  | zero => simp [hf0]
  | succ n ih =>
    have hsplit : f (n + 1) = f n + (f (n + 1) - f n) := by
      have := hmono n
      omega
    rw [List.range_succ, List.map_append, List.sum_append, ih]
    conv_rhs => rw [hsplit, range'_split, List.map_append, List.sum_append]
    simp

theorem member_count_chain (a : Nat → Int) (k : Nat) (f : Nat → Nat) (hf0 : f 0 = 0)
    (hmono : ∀ t, f t ≤ f (t + 1)) (n : Nat) :
    ((List.range n).map
        (fun t => member_count a k (List.range' (f t) (f (t + 1) - f t)))).sum =
      member_count a k (List.range' 0 (f n)) :=
  chain_sum _ f hf0 hmono n

theorem member_sum_chain (pts : Nat → Nat → Int) (a : Nat → Int) (k d : Nat) (f : Nat → Nat)
    (hf0 : f 0 = 0) (hmono : ∀ t, f t ≤ f (t + 1)) (n : Nat) :
    ((List.range n).map
        (fun t => member_sum pts a k d (List.range' (f t) (f (t + 1) - f t)))).sum =
      member_sum pts a k d (List.range' 0 (f n)) :=
  chain_sum _ f hf0 hmono n

theorem member_count_shift (a : Nat → Int) (k s n : Nat) :
    member_count (fun i => a (s + i)) k (List.range' 0 n) =
      member_count a k (List.range' s n) := by
  unfold member_count
  rw [← List.range_eq_range', List.range'_eq_map_range, List.map_map]
  rfl

theorem member_sum_shift (pts : Nat → Nat → Int) (a : Nat → Int) (k d s n : Nat) :
    member_sum (fun i => pts (s + i)) (fun i => a (s + i)) k d (List.range' 0 n) =
      member_sum pts a k d (List.range' s n) := by
  unfold member_sum
  rw [← List.range_eq_range', List.range'_eq_map_range, List.map_map]
  rfl

/-! ## Bounds on counts, sums and means -/

theorem member_count_bounds (a : Nat → Int) (k : Nat) (l : List Nat) :
    0 ≤ member_count a k l ∧ member_count a k l ≤ l.length := by
  induction l with
  | nil => simp [member_count]
  | cons i l ih =>
    rw [member_count_cons, List.length_cons]
    push_cast
    split <;> omega

theorem member_sum_bounds (pts : Nat → Nat → Int) (a : Nat → Int) (k d : Nat) (lo hi : Int)
    (l : List Nat) (h : ∀ i, i ∈ l → lo ≤ pts i d ∧ pts i d ≤ hi) :
    member_count a k l * lo ≤ member_sum pts a k d l ∧
      member_sum pts a k d l ≤ member_count a k l * hi := by
  induction l with
  | nil => simp [member_count, member_sum]
  | cons i l ih =>
    have hi2 := h i (List.mem_cons_self i l)
    have ih2 := ih (fun j hj => h j (List.mem_cons_of_mem i hj))
    rw [member_count_cons, member_sum_cons]
    by_cases hc : a i = (k : Int)
    · rw [if_pos hc, if_pos hc, Int.add_mul, Int.add_mul, Int.one_mul, Int.one_mul]
      omega
    · rw [if_neg hc, if_neg hc, Int.zero_add, Int.zero_add]
      exact ih2

/-- A truncated quotient of a sum of `n` values lies between any bounds of
the values. -/
theorem tdiv_bounds (S n lo hi : Int) (hn : 0 < n) (h1 : n * lo ≤ S) (h2 : S ≤ n * hi) :
    lo ≤ Int.tdiv S n ∧ Int.tdiv S n ≤ hi := by
  have hmod := Int.tmod_add_tdiv S n
  by_cases hS : 0 ≤ S
  · have hq : Int.tdiv S n = S / n := Int.tdiv_eq_ediv hS (Int.le_of_lt hn)
    rw [hq]
    constructor
    · exact Int.le_ediv_of_mul_le hn (by rw [Int.mul_comm]; exact h1)
    · exact Int.ediv_le_of_le_mul hn (by rw [Int.mul_comm]; exact h2)
  · have hS2 : 0 ≤ -S := by omega
    have hq : Int.tdiv (-S) n = (-S) / n := Int.tdiv_eq_ediv hS2 (Int.le_of_lt hn)
    rw [Int.neg_tdiv] at hq
    have e : Int.tdiv S n = -((-S) / n) := by omega
    rw [e]
    constructor
    · have : (-S) / n ≤ -lo := Int.ediv_le_of_le_mul hn (by
        have : (-lo) * n = -(n * lo) := by rw [Int.neg_mul, Int.mul_comm]
        omega)
      omega
    · have : -hi ≤ (-S) / n := Int.le_ediv_of_mul_le hn (by
        have : (-hi) * n = -(n * hi) := by rw [Int.neg_mul, Int.mul_comm]
        omega)
      omega

/-! ## All workers -/

theorem for_loop_succ {σ : Type} (body : σ → Nat → Option σ) (n : Nat) (s : σ) :
    for_loop body 0 (n + 1) s = (for_loop body 0 n s).bind (fun s2 => body s2 n) := by
  unfold for_loop
  rw [range'_split 0 n 1, List.foldlM_append]
  simp [List.range']

theorem pthreads_assignment_range (points : Nat → Nat → Int) (c : Nat → Nat → Int) (K D : Nat)
    (hK : 1 ≤ K) (i : Nat) :
    0 ≤ pthreads_assignment points c K D i ∧ pthreads_assignment points c K D i < K := by
  have := pthreads_best_cluster_argmin (points i) c K D hK
  exact ⟨this.1, this.2.1⟩

/-- Closed form of the assignment phases of all threads, for arbitrary range
boundaries: with `K ≥ 1` no thread makes an invalid access, the centroids are
not written, every point of some range gets its `cluster_id`, and the
accumulators of thread `t` hold the wrapped counts and sums of its own range. -/
theorem all_worker_phases_spec (points : Nat → Nat → Int) (K D : Nat)
    (start_idx end_idx : Nat → Nat) (st : Pthreads.State) (hK : 1 ≤ K) (P : Nat) :
    ∃ s2, Pthreads.all_worker_phases points K D P start_idx end_idx st = some s2 ∧
      s2.centroids = st.centroids ∧
      (∀ j, s2.cluster_id j =
        if ∃ t, t < P ∧ start_idx t ≤ j ∧ j < end_idx t then
          pthreads_assignment points st.centroids K D j
        else st.cluster_id j) ∧
      (∀ t k, t < P → k < K → s2.counts t k =
        wrapInt (member_count (pthreads_assignment points st.centroids K D) k
          (List.range' (start_idx t) (end_idx t - start_idx t)))) ∧
      (∀ t k d, t < P → k < K → d < D → s2.sums t (k * D + d) =
        wrapLL (member_sum points (pthreads_assignment points st.centroids K D) k d
          (List.range' (start_idx t) (end_idx t - start_idx t)))) := by
  induction P with
  | zero =>
    refine ⟨st, rfl, rfl, ?_, ?_, ?_⟩
    · intro j
      rw [if_neg]
      rintro ⟨t, ht, _⟩
      omega
    · intro t k ht; omega
    · intro t k d ht; omega
  | succ P ih =>
    obtain ⟨s1, hrun, hc, hcid, hcnt, hsum⟩ := ih
    obtain ⟨w2, hw, wcid, wcnt, wsum⟩ :=
      assign_phase_spec points (pthreads_assignment points st.centroids K D) K D
        (start_idx P) (end_idx P - start_idx P)
        { cluster_id := s1.cluster_id, sums := s1.sums P, counts := s1.counts P }
        (fun i _ _ => pthreads_assignment_range points st.centroids K D hK i)
    refine ⟨{ centroids := s1.centroids
              cluster_id := w2.cluster_id
              sums := Function.update s1.sums P w2.sums
              counts := Function.update s1.counts P w2.counts }, ?_, hc, ?_, ?_, ?_⟩
    · unfold Pthreads.all_worker_phases
      rw [for_loop_succ]
      unfold Pthreads.all_worker_phases at hrun
      rw [hrun, Option.some_bind]
      unfold Pthreads.worker_phase
      rw [pthreads_worker_step_eq, hc]
      unfold pthreads_assignment at hw
      simp only at hw ⊢
      rw [hw]
    · intro j
      simp only
      rw [wcid j]
      simp only
      by_cases hj : start_idx P ≤ j ∧ j < start_idx P + (end_idx P - start_idx P)
      · rw [if_pos hj, if_pos ⟨P, Nat.lt_succ_self P, hj.1, by omega⟩]
      · rw [if_neg hj, hcid j]
        by_cases hex : ∃ t, t < P ∧ start_idx t ≤ j ∧ j < end_idx t
        · obtain ⟨t, ht, h1, h2⟩ := hex
          rw [if_pos ⟨t, ht, h1, h2⟩, if_pos ⟨t, by omega, h1, h2⟩]
        · rw [if_neg hex, if_neg]
          rintro ⟨t, ht, h1, h2⟩
          by_cases htP : t = P
          · subst htP
            exact hj ⟨h1, by omega⟩
          · exact hex ⟨t, by omega, h1, h2⟩
    · intro t k ht hk
      simp only
      rw [Function.update_apply]
      by_cases htP : t = P
      · subst htP
        rw [if_pos rfl]
        exact wcnt k hk
      · rw [if_neg htP]
        exact hcnt t k (by omega) hk
    · intro t k d ht hk hd
      simp only
      rw [Function.update_apply]
      by_cases htP : t = P
      · subst htP
        rw [if_pos rfl]
        exact wsum k d hk hd
      · rw [if_neg htP]
        exact hsum t k d (by omega) hk hd

/-! ## One iteration of kmeans_pthreads.c -/

/-- The totals of the leader for cluster `k` after the assignment phases on
the ranges of the set-up loop: the wrapped count and sums of the members of the
cluster among all `M` points. -/
theorem pthreads_totals (points : Nat → Nat → Int) (M K D P : Nat) (a : Nat → Int)
    (sums counts : Nat → Nat → Int) (hP : 1 ≤ P)
    (hcnt : ∀ t k, t < P → k < K → counts t k =
      wrapInt (member_count a k
        (List.range' ((Pthreads.setup M P).start_idx t)
          ((Pthreads.setup M P).end_idx t - (Pthreads.setup M P).start_idx t))))
    (hsum : ∀ t k d, t < P → k < K → d < D → sums t (k * D + d) =
      wrapLL (member_sum points a k d
        (List.range' ((Pthreads.setup M P).start_idx t)
          ((Pthreads.setup M P).end_idx t - (Pthreads.setup M P).start_idx t))))
    (k : Nat) (hk : k < K) :
    (Pthreads.leader_reduce sums counts P D k).2 =
      wrapInt (member_count a k (List.range' 0 M)) ∧
    ∀ d, d < D → (Pthreads.leader_reduce sums counts P D k).1 d =
      wrapLL (member_sum points a k d (List.range' 0 M)) := by
  obtain ⟨h1, h2⟩ := leader_reduce_spec sums counts P D k
  have hmono : ∀ t, Pthreads.boundary M P t ≤ Pthreads.boundary M P (t + 1) :=
    fun t => Pthreads.boundary_mono M P (Nat.le_succ t)
  constructor
  · rw [h1]
    have e : (List.range P).map (fun t => counts t k) =
        (List.range P).map (fun t => wrapInt (member_count a k
          (List.range' (Pthreads.boundary M P t)
            (Pthreads.boundary M P (t + 1) - Pthreads.boundary M P t)))) := by
      apply List.map_congr_left
      intro t ht
      have htP := List.mem_range.1 ht
      rw [hcnt t k htP hk, Pthreads.setup_start M P t htP, Pthreads.setup_end M P t htP]
    rw [e, wrapInt_sum_map, member_count_chain a k _ (Pthreads.boundary_zero M P) hmono,
      Pthreads.boundary_last M P hP]
  · intro d hd
    rw [h2 d hd]
    have e : (List.range P).map (fun t => sums t (k * D + d)) =
        (List.range P).map (fun t => wrapLL (member_sum points a k d
          (List.range' (Pthreads.boundary M P t)
            (Pthreads.boundary M P (t + 1) - Pthreads.boundary M P t)))) := by
      apply List.map_congr_left
      intro t ht
      have htP := List.mem_range.1 ht
      rw [hsum t k d htP hk hd, Pthreads.setup_start M P t htP, Pthreads.setup_end M P t htP]
    rw [e, wrapLL_sum_map, member_sum_chain points a k d _ (Pthreads.boundary_zero M P) hmono,
      Pthreads.boundary_last M P hP]

/-- Closed form of one iteration of kmeans_pthreads.c on the ranges of the
set-up loop, for `K ≥ 1` clusters and `P ≥ 1` threads: the iteration makes no
invalid access, every point `j < M` gets the `cluster_id` of its nearest
centroid, the leader's totals are the wrapped counts and sums over all `M`
points, and every centroid coordinate is updated from them. -/
theorem pthreads_iteration_spec (points : Nat → Nat → Int) (M K D P : Nat)
    (st : Pthreads.State) (hK : 1 ≤ K) (hP : 1 ≤ P) :
    ∃ s2, Pthreads.iteration points K D P (Pthreads.setup M P).start_idx
        (Pthreads.setup M P).end_idx st = some s2 ∧
      (∀ j, s2.cluster_id j =
        if j < M then pthreads_assignment points st.centroids K D j else st.cluster_id j) ∧
      (∀ k, k < K → (Pthreads.leader_reduce s2.sums s2.counts P D k).2 =
        wrapInt (member_count (pthreads_assignment points st.centroids K D) k
          (List.range' 0 M))) ∧
      (∀ k d, k < K → d < D → (Pthreads.leader_reduce s2.sums s2.counts P D k).1 d =
        wrapLL (member_sum points (pthreads_assignment points st.centroids K D) k d
          (List.range' 0 M))) ∧
      (∀ k d, s2.centroids k d =
        mean_update points (pthreads_assignment points st.centroids K D) M K D
          st.centroids k d) := by
  obtain ⟨s1, hrun, hc, hcid, hcnt, hsum⟩ :=
    all_worker_phases_spec points K D (Pthreads.setup M P).start_idx
      (Pthreads.setup M P).end_idx st hK P
  have htot := pthreads_totals points M K D P (pthreads_assignment points st.centroids K D)
    s1.sums s1.counts hP hcnt hsum
  refine ⟨{ centroids := Pthreads.leader s1.sums s1.counts P K D s1.centroids
            cluster_id := s1.cluster_id
            sums := s1.sums
            counts := s1.counts }, ?_, ?_, ?_, ?_, ?_⟩
  · unfold Pthreads.iteration
    rw [hrun]
  · intro j
    simp only
    rw [hcid j]
    have hiff : (∃ t, t < P ∧ (Pthreads.setup M P).start_idx t ≤ j ∧
        j < (Pthreads.setup M P).end_idx t) ↔ j < M :=
      Pthreads.setup_cover M P hP j
    by_cases hj : j < M
    · rw [if_pos hj, if_pos (hiff.2 hj)]
    · rw [if_neg hj, if_neg (fun h => hj (hiff.1 h))]
  · intro k hk
    exact (htot k hk).1
  · intro k d hk hd
    exact (htot k hk).2 d hd
  · intro k d
    simp only
    rw [leader_apply, hc]
    unfold mean_update
    by_cases hk : k < K
    · by_cases hd : d < D
      · rw [(htot k hk).1, (htot k hk).2 d hd]
      · rw [if_neg (fun h => hd h.2.1), if_neg (fun h => hd h.2.1)]
    · rw [if_neg (fun h => hk h.1), if_neg (fun h => hk h.1)]

/-! ## Exactness on `int` data -/

/-- On at most `INT_MAX` points whose coordinate `d` is an `int`, the count
of a cluster fits in an `int`, the coordinate sum fits in a `long long` and
the truncated mean fits in an `int`. -/
theorem cluster_bounds (points : Nat → Nat → Int) (a : Nat → Int) (M k d : Nat)
    (hM : (M : Int) ≤ INT_MAX) (hpts : ∀ i, i < M → isInt (points i d)) :
    isInt (member_count a k (List.range' 0 M)) ∧
    isLL (member_sum points a k d (List.range' 0 M)) ∧
    (0 < member_count a k (List.range' 0 M) →
      isInt (Int.tdiv (member_sum points a k d (List.range' 0 M))
        (member_count a k (List.range' 0 M)))) := by
  obtain ⟨hn0, hn1⟩ := member_count_bounds a k (List.range' 0 M)
  rw [List.length_range'] at hn1
  obtain ⟨hs0, hs1⟩ := member_sum_bounds points a k d (-2147483648) 2147483647
    (List.range' 0 M) (fun i hi => hpts i (by
      have := List.mem_range'_1.1 hi
      omega))
  unfold INT_MAX at hM
  generalize member_count a k (List.range' 0 M) = n at *
  generalize member_sum points a k d (List.range' 0 M) = S at *
  refine ⟨?_, ?_, ?_⟩
  · unfold isInt; omega
  · unfold isLL
    constructor
    · nlinarith
    · nlinarith
  · intro hpos
    have := tdiv_bounds S n (-2147483648) 2147483647 hpos
      hs0 hs1
    exact this

/-- On at most `INT_MAX` points with `int` coordinates the machine update of
a centroid coordinate is the exact truncated mean. -/
theorem mean_update_exact (points : Nat → Nat → Int) (a : Nat → Int) (M K D : Nat)
    (centroids : Nat → Nat → Int) (k d : Nat)
    (hM : (M : Int) ≤ INT_MAX) (hpts : ∀ i, i < M → isInt (points i d)) :
    mean_update points a M K D centroids k d =
      exact_mean_update points a M K D centroids k d := by
  obtain ⟨h1, h2, h3⟩ := cluster_bounds points a M k d hM hpts
  unfold mean_update exact_mean_update
  rw [wrapInt_of_isInt h1, wrapLL_of_isLL h2]
  by_cases h : k < K ∧ d < D ∧ member_count a k (List.range' 0 M) > 0
  · rw [if_pos h, if_pos h, wrapInt_of_isInt (h3 h.2.2)]
  · rw [if_neg h, if_neg h]

/-! ## One iteration of kmeans_mpi.c -/

/-- Closed form of the local phases of all ranks when every local point has
an assignment in `[0, K)`: rank `r` holds the cluster ids and the wrapped
counts and sums of the rows `r * M_local .. r * M_local + M_local - 1`. -/
theorem all_local_phases_spec (points : Nat → Nat → Int) (c : Nat → Nat → Int)
    (M_local K D : Nat) (ranks : Nat → Worker) (size : Nat)
    (hok : ∀ r i, r < size → i < M_local →
      0 ≤ mpi_assignment points c K D (r * M_local + i) ∧
        mpi_assignment points c K D (r * M_local + i) < K) :
    ∃ rs, Mpi.all_local_phases points c M_local K D size ranks = some rs ∧
      (∀ r j, r < size → (rs r).cluster_id j =
        if j < M_local then mpi_assignment points c K D (r * M_local + j)
        else (ranks r).cluster_id j) ∧
      (∀ r k, r < size → k < K → (rs r).counts k =
        wrapInt (member_count (mpi_assignment points c K D) k
          (List.range' (r * M_local) M_local))) ∧
      (∀ r k d, r < size → k < K → d < D → (rs r).sums (k * D + d) =
        wrapLL (member_sum points (mpi_assignment points c K D) k d
          (List.range' (r * M_local) M_local))) ∧
      (∀ r, size ≤ r → rs r = ranks r) := by
  induction size with
  | zero =>
    refine ⟨ranks, rfl, ?_, ?_, ?_, fun r _ => rfl⟩
    · intro r j hr; omega
    · intro r k hr; omega
    · intro r k d hr; omega
  | succ size ih =>
    obtain ⟨rs1, hrun, hcid, hcnt, hsum, hrest⟩ :=
      ih (fun r i hr hi => hok r i (by omega) hi)
    obtain ⟨w2, hw, wcid, wcnt, wsum⟩ :=
      assign_phase_spec (Mpi.scatter points M_local size)
        (fun i => mpi_assignment points c K D (size * M_local + i)) K D 0 M_local (rs1 size)
        (fun i _ hi => hok size i (Nat.lt_succ_self size) (by omega))
    refine ⟨Function.update rs1 size w2, ?_, ?_, ?_, ?_, ?_⟩
    · unfold Mpi.all_local_phases
      rw [for_loop_succ]
      unfold Mpi.all_local_phases at hrun
      rw [hrun, Option.some_bind]
      unfold Mpi.local_phase
      rw [mpi_local_step_eq]
      have e : (fun i => Mpi.best_cluster (Mpi.scatter points M_local size i) c K D) =
          (fun i => mpi_assignment points c K D (size * M_local + i)) := rfl
      rw [e, hw]
    · intro r j hr
      rw [Function.update_apply]
      by_cases hrs : r = size
      · subst hrs
        rw [if_pos rfl, wcid j, hrest r (Nat.le_refl r)]
        by_cases hj : j < M_local
        · rw [if_pos ⟨Nat.zero_le j, by omega⟩, if_pos hj]
        · rw [if_neg (by omega), if_neg hj]
      · rw [if_neg hrs]
        exact hcid r j (by omega)
    · intro r k hr hk
      rw [Function.update_apply]
      by_cases hrs : r = size
      · subst hrs
        rw [if_pos rfl, wcnt k hk, member_count_shift]
      · rw [if_neg hrs]
        exact hcnt r k (by omega) hk
    · intro r k d hr hk hd
      rw [Function.update_apply]
      by_cases hrs : r = size
      · subst hrs
        rw [if_pos rfl, wsum k d hk hd]
        have := member_sum_shift points (mpi_assignment points c K D) k d (r * M_local) M_local
        exact congrArg wrapLL this
      · rw [if_neg hrs]
        exact hsum r k d (by omega) hk hd
    · intro r hr
      rw [Function.update_apply, if_neg (by omega)]
      exact hrest r (by omega)

/-- The local phases perform an invalid access when some local point of some
rank has an assignment outside `[0, K)`. -/
theorem all_local_phases_none (points : Nat → Nat → Int) (c : Nat → Nat → Int)
    (M_local K D : Nat) (ranks : Nat → Worker) (size : Nat)
    (hbad : ∃ r i, r < size ∧ i < M_local ∧
      ¬ (0 ≤ mpi_assignment points c K D (r * M_local + i) ∧
        mpi_assignment points c K D (r * M_local + i) < K)) :
    Mpi.all_local_phases points c M_local K D size ranks = none := by
  induction size with
  | zero =>
    obtain ⟨r, i, hr, _⟩ := hbad
    omega
  | succ size ih =>
    obtain ⟨r, i, hr, hi, hb⟩ := hbad
    unfold Mpi.all_local_phases
    rw [for_loop_succ]
    by_cases hrs : r = size
    · subst hrs
      generalize for_loop _ 0 r ranks = first
      cases first with
      | none => rfl
      | some rs1 =>
        rw [Option.some_bind]
        unfold Mpi.local_phase
        rw [mpi_local_step_eq]
        have e : (fun i => Mpi.best_cluster (Mpi.scatter points M_local r i) c K D) =
            (fun i => mpi_assignment points c K D (r * M_local + i)) := rfl
        rw [e, assign_phase_none _ _ K D 0 M_local _ ⟨i, Nat.zero_le i, by omega, hb⟩]
    · have := ih ⟨r, i, by omega, hi, hb⟩
      unfold Mpi.all_local_phases at this
      rw [this]
      rfl

/-- The global totals of `MPI_Reduce` for cluster `k` after the local phases
of `size` ranks holding `M_local` rows each: the wrapped count and sums of the
members of the cluster among all `size * M_local` points. -/
theorem mpi_totals (points : Nat → Nat → Int) (M_local K D size : Nat) (a : Nat → Int)
    (rs : Nat → Worker)
    (hcnt : ∀ r k, r < size → k < K → (rs r).counts k =
      wrapInt (member_count a k (List.range' (r * M_local) M_local)))
    (hsum : ∀ r k d, r < size → k < K → d < D → (rs r).sums (k * D + d) =
      wrapLL (member_sum points a k d (List.range' (r * M_local) M_local)))
    (k : Nat) (hk : k < K) :
    Mpi.reduce_counts (fun r => (rs r).counts) size k =
      wrapInt (member_count a k (List.range' 0 (size * M_local))) ∧
    ∀ d, d < D → Mpi.reduce_sums (fun r => (rs r).sums) size (k * D + d) =
      wrapLL (member_sum points a k d (List.range' 0 (size * M_local))) := by
  have hstep : ∀ r, (r + 1) * M_local - r * M_local = M_local := by
    intro r
    rw [Nat.succ_mul]
    omega
  have hmono : ∀ r, r * M_local ≤ (r + 1) * M_local := by
    intro r
    rw [Nat.succ_mul]
    omega
  constructor
  · rw [mpi_reduce_counts_spec]
    have e : (List.range size).map (fun r => (rs r).counts k) =
        (List.range size).map (fun r => wrapInt (member_count a k
          (List.range' (r * M_local) ((r + 1) * M_local - r * M_local)))) := by
      apply List.map_congr_left
      intro r hr
      rw [hcnt r k (List.mem_range.1 hr) hk, hstep r]
    rw [e, wrapInt_sum_map,
      member_count_chain a k (fun r => r * M_local) (Nat.zero_mul M_local) hmono]
  · intro d hd
    rw [mpi_reduce_sums_spec]
    have e : (List.range size).map (fun r => (rs r).sums (k * D + d)) =
        (List.range size).map (fun r => wrapLL (member_sum points a k d
          (List.range' (r * M_local) ((r + 1) * M_local - r * M_local)))) := by
      apply List.map_congr_left
      intro r hr
      rw [hsum r k d (List.mem_range.1 hr) hk hd, hstep r]
    rw [e, wrapLL_sum_map,
      member_sum_chain points a k d (fun r => r * M_local) (Nat.zero_mul M_local) hmono]

theorem local_index (M_local size j : Nat) (hj : j < size * M_local) :
    j / M_local < size ∧ j % M_local < M_local ∧ j / M_local * M_local + j % M_local = j := by
  have hpos : 0 < M_local := by
    rcases Nat.eq_zero_or_pos M_local with h | h
    · subst h; simp at hj
    · exact h
  refine ⟨?_, Nat.mod_lt j hpos, ?_⟩
  · exact (Nat.div_lt_iff_lt_mul hpos).2 hj
  · rw [Nat.mul_comm]
    exact Nat.div_add_mod j M_local

/-- Closed form of one iteration of kmeans_mpi.c with `size` processes when
`size` divides `M` and every point has an assignment in `[0, K)`: every point
gets the `cluster_id` of its nearest centroid on the rank that owns it, the
reduced totals are the wrapped counts and sums over all `M` points, and every
centroid coordinate is updated from them. -/
theorem mpi_iteration_spec (points : Nat → Nat → Int) (M K D size : Nat) (st : Mpi.State)
    (hdiv : M % size = 0)
    (hok : ∀ i, i < M → 0 ≤ mpi_assignment points st.centroids K D i ∧
      mpi_assignment points st.centroids K D i < K) :
    ∃ s2, Mpi.iteration points M K D size st = some s2 ∧
      (∀ j, j < M → Mpi.global_cluster_id (M / size) s2.ranks j =
        mpi_assignment points st.centroids K D j) ∧
      (∀ k, k < K → Mpi.reduce_counts (fun r => (s2.ranks r).counts) size k =
        wrapInt (member_count (mpi_assignment points st.centroids K D) k
          (List.range' 0 M))) ∧
      (∀ k d, k < K → d < D → Mpi.reduce_sums (fun r => (s2.ranks r).sums) size (k * D + d) =
        wrapLL (member_sum points (mpi_assignment points st.centroids K D) k d
          (List.range' 0 M))) ∧
      (∀ k d, s2.centroids k d =
        mean_update points (mpi_assignment points st.centroids K D) M K D
          st.centroids k d) := by
  have hM : size * (M / size) = M := by
    have := Nat.div_add_mod M size
    omega
  obtain ⟨rs, hrun, hcid, hcnt, hsum, _⟩ :=
    all_local_phases_spec points st.centroids (M / size) K D st.ranks size
      (fun r i hr hi => hok (r * (M / size) + i) (by
        have := row_cell_lt r i size (M / size) hr hi
        omega))
  have htot := mpi_totals points (M / size) K D size
    (mpi_assignment points st.centroids K D) rs hcnt hsum
  rw [hM] at htot
  refine ⟨{ centroids := write_centroids (Mpi.reduce_sums (fun r => (rs r).sums) size)
              (Mpi.reduce_counts (fun r => (rs r).counts) size) K D st.centroids
            ranks := rs }, ?_, ?_, ?_, ?_, ?_⟩
  · unfold Mpi.iteration
    simp only
    rw [hrun]
  · intro j hj
    obtain ⟨h1, h2, h3⟩ := local_index (M / size) size j (by omega)
    unfold Mpi.global_cluster_id
    simp only
    rw [hcid _ _ h1, if_pos h2, h3]
  · intro k hk
    exact (htot k hk).1
  · intro k d hk hd
    exact (htot k hk).2 d hd
  · intro k d
    simp only
    rw [write_centroids_apply]
    unfold mean_update
    by_cases hk : k < K
    · by_cases hd : d < D
      · rw [(htot k hk).1, (htot k hk).2 d hd]
      · rw [if_neg (fun h => hd h.2.1), if_neg (fun h => hd h.2.1)]
    · rw [if_neg (fun h => hk h.1), if_neg (fun h => hk h.1)]

/-- One iteration of kmeans_mpi.c performs an invalid access when `size`
divides `M` and some point has an assignment outside `[0, K)`. -/
theorem mpi_iteration_none (points : Nat → Nat → Int) (M K D size : Nat) (st : Mpi.State)
    (hdiv : M % size = 0)
    (hbad : ∃ i, i < M ∧ ¬ (0 ≤ mpi_assignment points st.centroids K D i ∧
      mpi_assignment points st.centroids K D i < K)) :
    Mpi.iteration points M K D size st = none := by
  have hM : size * (M / size) = M := by
    have := Nat.div_add_mod M size
    omega
  obtain ⟨i, hi, hb⟩ := hbad
  obtain ⟨h1, h2, h3⟩ := local_index (M / size) size i (by omega)
  unfold Mpi.iteration
  simp only
  rw [all_local_phases_none points st.centroids (M / size) K D st.ranks size
    ⟨i / (M / size), i % (M / size), h1, h2, by rw [h3]; exact hb⟩]

/-! ## The sequential iteration of kmeans_mpi.c -/

theorem assign_points_succ (points c : Nat → Nat → Int) (M K D : Nat) (cid : Nat → Int) :
    Mpi.assign_points_to_clusters points c (M + 1) K D cid =
      Function.update (Mpi.assign_points_to_clusters points c M K D cid) M
        (Mpi.best_cluster (points M) c K D) := by
  simp [Mpi.assign_points_to_clusters, List.range_succ, List.foldl_append]

/-- Closed form of `assign_points_to_clusters`: the first `M` cluster ids are
the assignments, the others are untouched. -/
theorem assign_points_apply (points c : Nat → Nat → Int) (M K D : Nat) (cid : Nat → Int) :
    ∀ j, Mpi.assign_points_to_clusters points c M K D cid j =
      if j < M then mpi_assignment points c K D j else cid j := by
  induction M with
  | zero => intro j; simp [Mpi.assign_points_to_clusters]
  | succ M ih =>
    intro j
    rw [assign_points_succ, Function.update_apply]
    by_cases h : j = M
    · subst h
      rw [if_pos rfl, if_pos (Nat.lt_succ_self j)]
      rfl
    · rw [if_neg h, ih j]
      by_cases h2 : j < M
      · rw [if_pos h2, if_pos (by omega)]
      · rw [if_neg h2, if_neg (by omega)]

/-- The accumulation loop of `update_centroids` is the assignment loop without
the `cluster_id` writes. -/
theorem count_loop_eq (points : Nat → Nat → Int) (cid : Nat → Int) (K D : Nat) :
    ∀ (l : List Nat) (acc : (Nat → Int) × (Nat → Int)) (x : Nat → Int),
      l.foldlM (Mpi.count_step points cid K D) acc =
        (l.foldlM (assign_acc_step points cid K D)
          { cluster_id := x, sums := acc.1, counts := acc.2 }).map
          (fun w => (w.sums, w.counts)) := by
  intro l
  induction l with
  | nil => intro acc x; rfl
  | cons i l ih =>
    intro acc x
    rw [List.foldlM_cons, List.foldlM_cons]
    unfold Mpi.count_step assign_acc_step
    by_cases h : 0 ≤ cid i ∧ cid i < K
    · simp only [if_pos h]
      exact ih _ (Function.update x i (cid i))
    · simp only [if_neg h]
      rfl

theorem member_count_congr (a b : Nat → Int) (k : Nat) (l : List Nat)
    (h : ∀ i, i ∈ l → a i = b i) : member_count a k l = member_count b k l := by
  unfold member_count
  congr 1
  apply List.map_congr_left
  intro i hi
  rw [h i hi]

theorem member_sum_congr (pts : Nat → Nat → Int) (a b : Nat → Int) (k d : Nat) (l : List Nat)
    (h : ∀ i, i ∈ l → a i = b i) : member_sum pts a k d l = member_sum pts b k d l := by
  unfold member_sum
  congr 1
  apply List.map_congr_left
  intro i hi
  rw [h i hi]

theorem mean_update_congr (points : Nat → Nat → Int) (a b : Nat → Int) (M K D : Nat)
    (c : Nat → Nat → Int) (k d : Nat) (h : ∀ i, i < M → a i = b i) :
    mean_update points a M K D c k d = mean_update points b M K D c k d := by
  have h2 : ∀ i, i ∈ List.range' 0 M → a i = b i := by
    intro i hi
    have := List.mem_range'_1.1 hi
    exact h i (by omega)
  unfold mean_update
  rw [member_count_congr a b k _ h2, member_sum_congr points a b k d _ h2]

/-- Closed form of `update_centroids` for cluster ids in `[0, K)`. -/
theorem update_centroids_spec (points : Nat → Nat → Int) (cid : Nat → Int)
    (c : Nat → Nat → Int) (M K D : Nat)
    (hok : ∀ i, i < M → 0 ≤ cid i ∧ cid i < K) :
    ∃ c2, Mpi.update_centroids points cid c M K D = some c2 ∧
      ∀ k d, c2 k d = mean_update points cid M K D c k d := by
  obtain ⟨w2, hw, _, wcnt, wsum⟩ :=
    assign_phase_spec points cid K D 0 M
      { cluster_id := cid, sums := fun _ => 0, counts := fun _ => 0 }
      (fun i _ hi => hok i (by omega))
  have hz1 : memset0 (fun _ => (0 : Int)) (K * D) = fun _ => 0 := by
    funext j; simp [memset0]
  have hz2 : memset0 (fun _ => (0 : Int)) K = fun _ => 0 := by
    funext j; simp [memset0]
  simp only [hz1, hz2] at hw
  refine ⟨write_centroids w2.sums w2.counts K D c, ?_, ?_⟩
  · unfold Mpi.update_centroids for_loop
    rw [count_loop_eq points cid K D _ _ cid]
    unfold for_loop at hw
    simp only [hw, Option.map_some']
  · intro k d
    rw [write_centroids_apply]
    unfold mean_update
    by_cases hk : k < K
    · by_cases hd : d < D
      · rw [wcnt k hk, wsum k d hk hd]
      · rw [if_neg (fun h => hd h.2.1), if_neg (fun h => hd h.2.1)]
    · rw [if_neg (fun h => hk h.1), if_neg (fun h => hk h.1)]

/-- The function `update_centroids` performs an invalid access when some
`cluster_id` lies outside `[0, K)`. -/
theorem update_centroids_none (points : Nat → Nat → Int) (cid : Nat → Int)
    (c : Nat → Nat → Int) (M K D : Nat)
    (hbad : ∃ i, i < M ∧ ¬ (0 ≤ cid i ∧ cid i < K)) :
    Mpi.update_centroids points cid c M K D = none := by
  obtain ⟨i, hi, hb⟩ := hbad
  unfold Mpi.update_centroids for_loop
  rw [count_loop_eq points cid K D _ _ cid]
  have := assign_phase_none points cid K D 0 M
    { cluster_id := cid, sums := fun _ => 0, counts := fun _ => 0 }
    ⟨i, Nat.zero_le i, by omega, hb⟩
  unfold for_loop at this
  simp only [this, Option.map_none']

/-- Closed form of the sequential iteration when every point has an
assignment in `[0, K)`. -/
theorem sequential_iteration_spec (points : Nat → Nat → Int) (M K D : Nat)
    (st : (Nat → Int) × (Nat → Nat → Int))
    (hok : ∀ i, i < M → 0 ≤ mpi_assignment points st.2 K D i ∧
      mpi_assignment points st.2 K D i < K) :
    ∃ s2, Mpi.sequential_iteration points M K D st = some s2 ∧
      (∀ j, s2.1 j = if j < M then mpi_assignment points st.2 K D j else st.1 j) ∧
      (∀ k d, s2.2 k d =
        mean_update points (mpi_assignment points st.2 K D) M K D st.2 k d) := by
  have hcid := assign_points_apply points st.2 M K D st.1
  obtain ⟨c2, hc2, hmean⟩ := update_centroids_spec points
    (Mpi.assign_points_to_clusters points st.2 M K D st.1) st.2 M K D
    (fun i hi => by rw [hcid i, if_pos hi]; exact hok i hi)
  refine ⟨(Mpi.assign_points_to_clusters points st.2 M K D st.1, c2), ?_, hcid, ?_⟩
  · unfold Mpi.sequential_iteration
    simp only [hc2]
  · intro k d
    show c2 k d = _
    rw [hmean k d]
    exact mean_update_congr points _ _ M K D st.2 k d
      (fun i hi => by rw [hcid i, if_pos hi])

/-- The sequential iteration performs an invalid access when some point has an
assignment outside `[0, K)`. -/
theorem sequential_iteration_none (points : Nat → Nat → Int) (M K D : Nat)
    (st : (Nat → Int) × (Nat → Nat → Int))
    (hbad : ∃ i, i < M ∧ ¬ (0 ≤ mpi_assignment points st.2 K D i ∧
      mpi_assignment points st.2 K D i < K)) :
    Mpi.sequential_iteration points M K D st = none := by
  obtain ⟨i, hi, hb⟩ := hbad
  have hcid := assign_points_apply points st.2 M K D st.1
  unfold Mpi.sequential_iteration
  simp only
  rw [update_centroids_none points _ st.2 M K D
    ⟨i, hi, by rw [hcid i, if_pos hi]; exact hb⟩]

/-! ## The iteration loop -/

/-- The counting loop `for (iter = ...; iter < I; iter++)` started at `iter`
with at least `I - iter` steps allowed runs its body exactly `I - iter` times. -/
theorem iter_loop_eq {σ : Type} (body : σ → Option σ) (I : Nat) :
    ∀ (fuel iter : Nat) (s : σ), I - iter ≤ fuel →
      iter_loop body I fuel iter s = iterate_step body (I - iter) s := by
  intro fuel
  induction fuel with
  | zero =>
    intro iter s h
    have : I - iter = 0 := by omega
    rw [this]
    rfl
  | succ fuel ih =>
    intro iter s h
    unfold iter_loop
    by_cases hlt : iter < I
    · rw [if_pos hlt]
      have e : I - iter = (I - (iter + 1)) + 1 := by omega
      rw [e]
      unfold iterate_step
      cases hb : body s with
      | none => rfl
      | some s2 =>
        simp only [Option.some_bind]
        exact ih (iter + 1) s2 (by omega)
    · rw [if_neg hlt]
      have : I - iter = 0 := by omega
      rw [this]
      rfl

theorem iterate_step_succ {σ : Type} (step : σ → Option σ) (n : Nat) (s : σ) :
    iterate_step step (n + 1) s = (iterate_step step n s).bind step := by
  induction n generalizing s with
  | zero =>
    show (step s).bind (iterate_step step 0) = (some s).bind step
    rw [Option.some_bind]
    cases step s with
    | none => rfl
    | some s2 => rfl
  | succ n ih =>
    show (step s).bind (iterate_step step (n + 1)) = ((step s).bind (iterate_step step n)).bind step
    cases step s with
    | none => rfl
    | some s2 =>
      simp only [Option.some_bind]
      exact ih s2

/-- C8. For every `I ≥ 0` the iteration loops of both programs run exactly `I`
assign/reduce/update cycles: the final state is the `I`-fold application of
the single iteration to the initial state, with `I = 0` the initial state is
returned unchanged, and a run with `I + 1` iterations is the run with `I`
iterations followed by one more full cycle, whatever state was reached (no
early exit when the assignments have stabilised). -/
theorem fixed_iterations (points : Nat → Nat → Int) (M K D size I : Nat)
    (sm : Mpi.State) (sp : Pthreads.State) :
    Mpi.main_loop points M K D I size sm =
      iterate_step (Mpi.iteration points M K D size) I sm ∧
    Pthreads.main_loop points M K D I size sp =
      iterate_step (Pthreads.iteration points K D size (Pthreads.setup M size).start_idx
        (Pthreads.setup M size).end_idx) I sp ∧
    Mpi.main_loop points M K D 0 size sm = some sm ∧
    Pthreads.main_loop points M K D 0 size sp = some sp ∧
    Mpi.main_loop points M K D (I + 1) size sm =
      (Mpi.main_loop points M K D I size sm).bind (Mpi.iteration points M K D size) ∧
    Pthreads.main_loop points M K D (I + 1) size sp =
      (Pthreads.main_loop points M K D I size sp).bind
        (Pthreads.iteration points K D size (Pthreads.setup M size).start_idx
          (Pthreads.setup M size).end_idx) := by
  have hm : ∀ n, Mpi.main_loop points M K D n size sm =
      iterate_step (Mpi.iteration points M K D size) n sm := by
    intro n
    unfold Mpi.main_loop
    exact iter_loop_eq _ n n 0 sm (by omega)
  have hp : ∀ n, Pthreads.main_loop points M K D n size sp =
      iterate_step (Pthreads.iteration points K D size (Pthreads.setup M size).start_idx
        (Pthreads.setup M size).end_idx) n sp := by
    intro n
    unfold Pthreads.main_loop
    exact iter_loop_eq _ n n 0 sp (by omega)
  refine ⟨hm I, hp I, ?_, ?_, ?_, ?_⟩
  · rw [hm 0]; rfl
  · rw [hp 0]; rfl
  · rw [hm (I + 1), hm I, iterate_step_succ]
  · rw [hp (I + 1), hp I, iterate_step_succ]

/-! ## Update correctness -/

/-- On at most `INT_MAX` points whose coordinate `j` is an `int`, the machine
update of coordinate `(k, j)` from the wrapped count and sum of cluster `k` is
a correct update. -/
theorem update_correct_of_mean (points : Nat → Nat → Int) (a : Nat → Int) (M K D : Nat)
    (c : Nat → Nat → Int) (k j : Nat) (hM : (M : Int) ≤ INT_MAX)
    (hpts : ∀ i, i < M → isInt (points i j)) (hk : k < K) (hj : j < D) :
    update_correct (wrapInt (member_count a k (List.range' 0 M)))
      (wrapLL (member_sum points a k j (List.range' 0 M))) (c k j)
      (mean_update points a M K D c k j) := by
  obtain ⟨h1, h2, _⟩ := cluster_bounds points a M k j hM hpts
  rw [mean_update_exact points a M K D c k j hM hpts, wrapInt_of_isInt h1, wrapLL_of_isLL h2]
  unfold update_correct exact_mean_update
  constructor
  · intro hpos
    rw [if_pos ⟨hk, hj, hpos⟩]
  · intro hzero
    rw [if_neg (fun h => by have := h.2.2; omega)]

/-- C6. On a dataset of at most `INT_MAX` points with `int` coordinates, with
`K ≥ 1` clusters and `P ≥ 1` workers, every update path computes, for every
cluster `k < K` and coordinate `j < D`, a correct update from the global count
`n` and the global sum `S[j]` of the cluster: the new coordinate is `S[j] / n`
truncated toward zero when `n > 0` and the old coordinate when `n = 0`. For
the leader of kmeans_pthreads.c `n` and `S` are its `total_count` and
`total_sum`; for the main loop of kmeans_mpi.c they are the results of the two
`MPI_Reduce` calls (when `P` divides `M` and no point is left at the sentinel
`-1`); for `update_centroids` they are the number and the coordinate sum of
the points whose `cluster_id` is `k`. -/
theorem update_correctness (points : Nat → Nat → Int) (M K D P : Nat)
    (hM : (M : Int) ≤ INT_MAX) (hpts : ∀ i, i < M → ∀ d, d < D → isInt (points i d))
    (hK : 1 ≤ K) (hP : 1 ≤ P) :
    (∀ st : Pthreads.State,
      ∃ s2, Pthreads.iteration points K D P (Pthreads.setup M P).start_idx
          (Pthreads.setup M P).end_idx st = some s2 ∧
        ∀ k j, k < K → j < D →
          update_correct (Pthreads.leader_reduce s2.sums s2.counts P D k).2
            ((Pthreads.leader_reduce s2.sums s2.counts P D k).1 j)
            (st.centroids k j) (s2.centroids k j)) ∧
    (∀ st : Mpi.State, M % P = 0 →
      (∀ i, i < M → 0 ≤ mpi_assignment points st.centroids K D i ∧
        mpi_assignment points st.centroids K D i < K) →
      ∃ s2, Mpi.iteration points M K D P st = some s2 ∧
        ∀ k j, k < K → j < D →
          update_correct (Mpi.reduce_counts (fun r => (s2.ranks r).counts) P k)
            (Mpi.reduce_sums (fun r => (s2.ranks r).sums) P (k * D + j))
            (st.centroids k j) (s2.centroids k j)) ∧
    (∀ (cid : Nat → Int) (c : Nat → Nat → Int),
      (∀ i, i < M → 0 ≤ cid i ∧ cid i < K) →
      ∃ c2, Mpi.update_centroids points cid c M K D = some c2 ∧
        ∀ k j, k < K → j < D →
          update_correct (member_count cid k (List.range' 0 M))
            (member_sum points cid k j (List.range' 0 M)) (c k j) (c2 k j)) := by
  refine ⟨?_, ?_, ?_⟩
  · intro st
    obtain ⟨s2, hrun, _, hcnt, hsum, hmean⟩ := pthreads_iteration_spec points M K D P st hK hP
    refine ⟨s2, hrun, ?_⟩
    intro k j hk hj
    rw [hcnt k hk, hsum k j hk hj, hmean k j]
    exact update_correct_of_mean points _ M K D st.centroids k j hM
      (fun i hi => hpts i hi j hj) hk hj
  · intro st hdiv hok
    obtain ⟨s2, hrun, _, hcnt, hsum, hmean⟩ := mpi_iteration_spec points M K D P st hdiv hok
    refine ⟨s2, hrun, ?_⟩
    intro k j hk hj
    rw [hcnt k hk, hsum k j hk hj, hmean k j]
    exact update_correct_of_mean points _ M K D st.centroids k j hM
      (fun i hi => hpts i hi j hj) hk hj
  · intro cid c hok
    obtain ⟨c2, hrun, hmean⟩ := update_centroids_spec points cid c M K D hok
    refine ⟨c2, hrun, ?_⟩
    intro k j hk hj
    obtain ⟨h1, h2, _⟩ := cluster_bounds points cid M k j hM (fun i hi => hpts i hi j hj)
    have := update_correct_of_mean points cid M K D c k j hM
      (fun i hi => hpts i hi j hj) hk hj
    rw [wrapInt_of_isInt h1, wrapLL_of_isLL h2] at this
    rw [hmean k j]
    exact this

/-- Two points `-3` and `-4` in one cluster: the count is 2, the sum is `-7`
and the updated centroid is `-3`, in the threaded program with two threads and
in `update_centroids`. -/
theorem update_correctness_witness :
    (∃ s2, Pthreads.iteration (ofRows [[-3], [-4]]) 1 1 2 (Pthreads.setup 2 2).start_idx
        (Pthreads.setup 2 2).end_idx
        { centroids := ofRows [[0]], cluster_id := fun _ => -1,
          sums := fun _ _ => 0, counts := fun _ _ => 0 } = some s2 ∧
      (Pthreads.leader_reduce s2.sums s2.counts 2 1 0).2 = 2 ∧
      (Pthreads.leader_reduce s2.sums s2.counts 2 1 0).1 0 = -7 ∧
      s2.centroids 0 0 = -3) ∧
    (∃ c2, Mpi.update_centroids (ofRows [[-3], [-4]]) (fun _ => 0) (ofRows [[0]]) 2 1 1
        = some c2 ∧ c2 0 0 = -3) := by
  have h := update_correctness (ofRows [[-3], [-4]]) 2 1 1 2 (by decide)
    (by intro i hi d hd; interval_cases i <;> interval_cases d <;> decide)
    (by decide) (by decide)
  constructor
  · obtain ⟨s2, hrun, hcorr⟩ := h.1
      { centroids := ofRows [[0]], cluster_id := fun _ => -1,
        sums := fun _ _ => 0, counts := fun _ _ => 0 }
    have e1 : (Pthreads.iteration (ofRows [[-3], [-4]]) 1 1 2 (Pthreads.setup 2 2).start_idx
        (Pthreads.setup 2 2).end_idx
        { centroids := ofRows [[0]], cluster_id := fun _ => -1,
          sums := fun _ _ => 0, counts := fun _ _ => 0 }).map
        (fun s => ((Pthreads.leader_reduce s.sums s.counts 2 1 0).2,
          (Pthreads.leader_reduce s.sums s.counts 2 1 0).1 0)) = some (2, -7) := by decide
    rw [hrun, Option.map_some', Option.some.injEq, Prod.mk.injEq] at e1
    have hc := (hcorr 0 0 (by decide) (by decide)).1
    rw [e1.1, e1.2] at hc
    exact ⟨s2, hrun, e1.1, e1.2, hc (by decide)⟩
  · obtain ⟨c2, hrun, hcorr⟩ := h.2.2 (fun _ => 0) (ofRows [[0]])
      (fun _ _ => ⟨le_refl _, show (0 : Int) < ((1 : Nat) : Int) by decide⟩)
    exact ⟨c2, hrun, (hcorr 0 0 (by decide) (by decide)).1 (by decide)⟩

/-! ## Scenarios -/

theorem iterate_step_one {σ : Type} (step : σ → Option σ) (s : σ) :
    iterate_step step 1 s = step s := by
  show (step s).bind (iterate_step step 0) = step s
  cases step s with
  | none => rfl
  | some s2 => rfl

theorem pthreads_main_loop_one (points : Nat → Nat → Int) (M K D P : Nat)
    (st : Pthreads.State) :
    Pthreads.main_loop points M K D 1 P st =
      Pthreads.iteration points K D P (Pthreads.setup M P).start_idx
        (Pthreads.setup M P).end_idx st := by
  unfold Pthreads.main_loop
  simp only
  rw [iter_loop_eq _ 1 1 0 st (by omega)]
  exact iterate_step_one _ st

theorem mpi_main_loop_one (points : Nat → Nat → Int) (M K D size : Nat) (st : Mpi.State) :
    Mpi.main_loop points M K D 1 size st = Mpi.iteration points M K D size st := by
  unfold Mpi.main_loop
  rw [iter_loop_eq _ 1 1 0 st (by omega)]
  exact iterate_step_one _ st

theorem checksum_two_by_one (c : Nat → Nat → Int) :
    checksum c 2 1 = wrapLL (wrapLL (0 + c 0 0) + c 1 0) := rfl

theorem checksum_one_by_one (c : Nat → Nat → Int) :
    checksum c 1 1 = wrapLL (0 + c 0 0) := rfl

/-- C9. Scenario C: `M = 3`, `D = 1`, `K = 2`, `I = 1`, points `5, 5, 5`,
initial centroids `5, 999`. For every number `P ≥ 1` of threads, and for every
number `P` of processes that divides 3, whatever the previous contents of the
cluster ids and accumulators: all three points get `cluster_id` 0, the global
count of cluster 1 is 0, the final centroids are `5, 999` and the checksum is
1004. -/
theorem scenario_C (P : Nat) (hP : 1 ≤ P) (cid0 : Nat → Int) (sums0 counts0 : Nat → Nat → Int)
    (ranks0 : Nat → Worker) :
    (∃ s2, Pthreads.main_loop (ofRows [[5], [5], [5]]) 3 2 1 1 P
        { centroids := ofRows [[5], [999]], cluster_id := cid0,
          sums := sums0, counts := counts0 } = some s2 ∧
      (∀ j, j < 3 → s2.cluster_id j = 0) ∧
      (Pthreads.leader_reduce s2.sums s2.counts P 1 1).2 = 0 ∧
      s2.centroids 0 0 = 5 ∧ s2.centroids 1 0 = 999 ∧
      checksum s2.centroids 2 1 = 1004) ∧
    (3 % P = 0 →
      ∃ s2, Mpi.main_loop (ofRows [[5], [5], [5]]) 3 2 1 1 P
          { centroids := ofRows [[5], [999]], ranks := ranks0 } = some s2 ∧
        (∀ j, j < 3 → Mpi.global_cluster_id (3 / P) s2.ranks j = 0) ∧
        Mpi.reduce_counts (fun r => (s2.ranks r).counts) P 1 = 0 ∧
        s2.centroids 0 0 = 5 ∧ s2.centroids 1 0 = 999 ∧
        checksum s2.centroids 2 1 = 1004) := by
  constructor
  · obtain ⟨s2, hrun, hcid, hcnt, _, hmean⟩ :=
      pthreads_iteration_spec (ofRows [[5], [5], [5]]) 3 2 1 P
        { centroids := ofRows [[5], [999]], cluster_id := cid0,
          sums := sums0, counts := counts0 } (by decide) hP
    dsimp only at hcid hcnt hmean
    have ha : ∀ j, j < 3 →
        pthreads_assignment (ofRows [[5], [5], [5]]) (ofRows [[5], [999]]) 2 1 j = 0 := by
      decide
    have h0 : s2.centroids 0 0 = 5 := by rw [hmean 0 0]; decide
    have h1 : s2.centroids 1 0 = 999 := by rw [hmean 1 0]; decide
    refine ⟨s2, ?_, ?_, ?_, h0, h1, ?_⟩
    · rw [pthreads_main_loop_one]; exact hrun
    · intro j hj
      rw [hcid j, if_pos hj]
      exact ha j hj
    · rw [hcnt 1 (by decide)]; decide
    · rw [checksum_two_by_one, h0, h1]; decide
  · intro hdiv
    obtain ⟨s2, hrun, hcid, hcnt, _, hmean⟩ :=
      mpi_iteration_spec (ofRows [[5], [5], [5]]) 3 2 1 P
        { centroids := ofRows [[5], [999]], ranks := ranks0 } hdiv
        (show ∀ i, i < 3 →
          0 ≤ mpi_assignment (ofRows [[5], [5], [5]]) (ofRows [[5], [999]]) 2 1 i ∧
          mpi_assignment (ofRows [[5], [5], [5]]) (ofRows [[5], [999]]) 2 1 i < ((2 : Nat) : Int)
          by decide)
    dsimp only at hcid hcnt hmean
    have ha : ∀ j, j < 3 →
        mpi_assignment (ofRows [[5], [5], [5]]) (ofRows [[5], [999]]) 2 1 j = 0 := by
      decide
    have h0 : s2.centroids 0 0 = 5 := by rw [hmean 0 0]; decide
    have h1 : s2.centroids 1 0 = 999 := by rw [hmean 1 0]; decide
    refine ⟨s2, ?_, ?_, ?_, h0, h1, ?_⟩
    · rw [mpi_main_loop_one]; exact hrun
    · intro j hj
      rw [hcid j hj]
      exact ha j hj
    · rw [hcnt 1 (by decide)]; decide
    · rw [checksum_two_by_one, h0, h1]; decide

/-- Scenario C with four threads (one of them with an empty range) and with
three processes. -/
theorem scenario_C_witness :
    (∃ s2, Pthreads.main_loop (ofRows [[5], [5], [5]]) 3 2 1 1 4
        { centroids := ofRows [[5], [999]], cluster_id := fun _ => -1,
          sums := fun _ _ => 7, counts := fun _ _ => 7 } = some s2 ∧
      (∀ j, j < 3 → s2.cluster_id j = 0) ∧
      (Pthreads.leader_reduce s2.sums s2.counts 4 1 1).2 = 0 ∧
      s2.centroids 0 0 = 5 ∧ s2.centroids 1 0 = 999 ∧
      checksum s2.centroids 2 1 = 1004) ∧
    (∃ s2, Mpi.main_loop (ofRows [[5], [5], [5]]) 3 2 1 1 3
        { centroids := ofRows [[5], [999]],
          ranks := fun _ => { cluster_id := fun _ => -1, sums := fun _ => 7,
                              counts := fun _ => 7 } } = some s2 ∧
      (∀ j, j < 3 → Mpi.global_cluster_id (3 / 3) s2.ranks j = 0) ∧
      Mpi.reduce_counts (fun r => (s2.ranks r).counts) 3 1 = 0 ∧
      s2.centroids 0 0 = 5 ∧ s2.centroids 1 0 = 999 ∧
      checksum s2.centroids 2 1 = 1004) :=
  ⟨(scenario_C 4 (by decide) (fun _ => -1) (fun _ _ => 7) (fun _ _ => 7)
      (fun _ => { cluster_id := fun _ => -1, sums := fun _ => 7, counts := fun _ => 7 })).1,
   (scenario_C 3 (by decide) (fun _ => -1) (fun _ _ => 7) (fun _ _ => 7)
      (fun _ => { cluster_id := fun _ => -1, sums := fun _ => 7, counts := fun _ => 7 })).2
      (by decide)⟩

theorem mpi_dist_one (p q : Nat → Int) :
    Mpi.euclidean_dist_sq p q 1 =
      wrapLL (0 + wrapLL (wrapLL (p 0 - q 0) * wrapLL (p 0 - q 0))) := rfl

/-- In one dimension a point in `[1, 4]` is at a computed distance below
`LLONG_MAX` from every `int` centroid. -/
theorem scenario_A_dist (x c : Int) (hx : 1 ≤ x ∧ x ≤ 4) (hc : isInt c) :
    wrapLL (0 + wrapLL (wrapLL (x - c) * wrapLL (x - c))) < LLONG_MAX := by
  unfold isInt at hc
  have h1 : wrapLL (x - c) = x - c := wrapLL_of_isLL (by unfold isLL; omega)
  have hsq : 0 ≤ (x - c) * (x - c) ∧ (x - c) * (x - c) ≤ 4611686052787257361 := by
    constructor
    · nlinarith
    · nlinarith
  have h2 : wrapLL ((x - c) * (x - c)) = (x - c) * (x - c) :=
    wrapLL_of_isLL (by unfold isLL; omega)
  rw [h1, h2, Int.zero_add, h2]
  unfold LLONG_MAX
  omega

theorem scenario_A_points (j : Nat) (hj : j < 4) :
    1 ≤ ofRows [[1], [2], [3], [4]] j 0 ∧ ofRows [[1], [2], [3], [4]] j 0 ≤ 4 := by
  interval_cases j <;> decide

/-- With the single constant assignment 0 of the four points of scenario A the
count is 4, the sum is 10 and the updated centroid is 2. -/
theorem scenario_A_mean (a : Nat → Int) (c : Nat → Nat → Int) (ha : ∀ j, j < 4 → a j = 0) :
    wrapInt (member_count a 0 (List.range' 0 4)) = 4 ∧
    wrapLL (member_sum (ofRows [[1], [2], [3], [4]]) a 0 0 (List.range' 0 4)) = 10 ∧
    mean_update (ofRows [[1], [2], [3], [4]]) a 4 1 1 c 0 0 = 2 := by
  have hmem : ∀ i, i ∈ List.range' 0 4 → a i = (fun _ => (0 : Int)) i := by
    intro i hi
    have := List.mem_range'_1.1 hi
    exact ha i (by omega)
  have e1 : member_count a 0 (List.range' 0 4) = 4 := by
    rw [member_count_congr a (fun _ => 0) 0 _ hmem]; decide
  have e2 : member_sum (ofRows [[1], [2], [3], [4]]) a 0 0 (List.range' 0 4) = 10 := by
    rw [member_sum_congr _ a (fun _ => 0) 0 0 _ hmem]; decide
  refine ⟨by rw [e1]; decide, by rw [e2]; decide, ?_⟩
  unfold mean_update
  rw [e1, e2, if_pos (by decide)]
  decide

/-- C10. Scenario A: `M = 4`, `D = 1`, `K = 1`, `I = 1`, points `1, 2, 3, 4`.
For every `int` value `c` of the initial centroid, for every number `P ≥ 1` of
threads and for every number `P` of processes that divides 4, whatever the
previous contents of the cluster ids and accumulators: every point gets
`cluster_id` 0, the global sum is 10, the global count is 4, the final
centroid is 2 and the checksum is 2. -/
theorem scenario_A (c : Int) (hc : isInt c) (P : Nat) (hP : 1 ≤ P) (cid0 : Nat → Int)
    (sums0 counts0 : Nat → Nat → Int) (ranks0 : Nat → Worker) :
    (∃ s2, Pthreads.main_loop (ofRows [[1], [2], [3], [4]]) 4 1 1 1 P
        { centroids := ofRows [[c]], cluster_id := cid0,
          sums := sums0, counts := counts0 } = some s2 ∧
      (∀ j, j < 4 → s2.cluster_id j = 0) ∧
      (Pthreads.leader_reduce s2.sums s2.counts P 1 0).1 0 = 10 ∧
      (Pthreads.leader_reduce s2.sums s2.counts P 1 0).2 = 4 ∧
      s2.centroids 0 0 = 2 ∧ checksum s2.centroids 1 1 = 2) ∧
    (4 % P = 0 →
      ∃ s2, Mpi.main_loop (ofRows [[1], [2], [3], [4]]) 4 1 1 1 P
          { centroids := ofRows [[c]], ranks := ranks0 } = some s2 ∧
        (∀ j, j < 4 → Mpi.global_cluster_id (4 / P) s2.ranks j = 0) ∧
        Mpi.reduce_sums (fun r => (s2.ranks r).sums) P (0 * 1 + 0) = 10 ∧
        Mpi.reduce_counts (fun r => (s2.ranks r).counts) P 0 = 4 ∧
        s2.centroids 0 0 = 2 ∧ checksum s2.centroids 1 1 = 2) := by
  constructor
  · obtain ⟨s2, hrun, hcid, hcnt, hsum, hmean⟩ :=
      pthreads_iteration_spec (ofRows [[1], [2], [3], [4]]) 4 1 1 P
        { centroids := ofRows [[c]], cluster_id := cid0,
          sums := sums0, counts := counts0 } (by decide) hP
    dsimp only at hcid hcnt hsum hmean
    have ha : ∀ j, j < 4 →
        pthreads_assignment (ofRows [[1], [2], [3], [4]]) (ofRows [[c]]) 1 1 j = 0 := by
      intro j _
      have := pthreads_assignment_range (ofRows [[1], [2], [3], [4]]) (ofRows [[c]]) 1 1
        (by decide) j
      omega
    obtain ⟨m1, m2, m3⟩ := scenario_A_mean _ (ofRows [[c]]) ha
    have h0 : s2.centroids 0 0 = 2 := by rw [hmean 0 0]; exact m3
    refine ⟨s2, ?_, ?_, ?_, ?_, h0, ?_⟩
    · rw [pthreads_main_loop_one]; exact hrun
    · intro j hj
      rw [hcid j, if_pos hj]
      exact ha j hj
    · rw [hsum 0 0 (by decide) (by decide)]; exact m2
    · rw [hcnt 0 (by decide)]; exact m1
    · rw [checksum_one_by_one, h0]; decide
  · intro hdiv
    have hok : ∀ i, i < 4 →
        0 ≤ mpi_assignment (ofRows [[1], [2], [3], [4]]) (ofRows [[c]]) 1 1 i ∧
        mpi_assignment (ofRows [[1], [2], [3], [4]]) (ofRows [[c]]) 1 1 i < ((1 : Nat) : Int) := by
      intro i hi
      have := mpi_best_cluster_argmin (ofRows [[1], [2], [3], [4]] i) (ofRows [[c]]) 1 1
        ⟨0, by decide, by
          rw [mpi_dist_one]
          exact scenario_A_dist _ c (scenario_A_points i hi) hc⟩
      exact ⟨this.1, this.2.1⟩
    obtain ⟨s2, hrun, hcid, hcnt, hsum, hmean⟩ :=
      mpi_iteration_spec (ofRows [[1], [2], [3], [4]]) 4 1 1 P
        { centroids := ofRows [[c]], ranks := ranks0 } hdiv hok
    dsimp only at hcid hcnt hsum hmean
    have ha : ∀ j, j < 4 →
        mpi_assignment (ofRows [[1], [2], [3], [4]]) (ofRows [[c]]) 1 1 j = 0 := by
      intro j hj
      have := hok j hj
      omega
    obtain ⟨m1, m2, m3⟩ := scenario_A_mean _ (ofRows [[c]]) ha
    have h0 : s2.centroids 0 0 = 2 := by rw [hmean 0 0]; exact m3
    refine ⟨s2, ?_, ?_, ?_, ?_, h0, ?_⟩
    · rw [mpi_main_loop_one]; exact hrun
    · intro j hj
      rw [hcid j hj]
      exact ha j hj
    · rw [hsum 0 0 (by decide) (by decide)]; exact m2
    · rw [hcnt 0 (by decide)]; exact m1
    · rw [checksum_one_by_one, h0]; decide

/-- Scenario A with initial centroid 3, with three threads and with two
processes. -/
theorem scenario_A_witness :
    (∃ s2, Pthreads.main_loop (ofRows [[1], [2], [3], [4]]) 4 1 1 1 3
        { centroids := ofRows [[3]], cluster_id := fun _ => -1,
          sums := fun _ _ => 7, counts := fun _ _ => 7 } = some s2 ∧
      (∀ j, j < 4 → s2.cluster_id j = 0) ∧
      (Pthreads.leader_reduce s2.sums s2.counts 3 1 0).1 0 = 10 ∧
      (Pthreads.leader_reduce s2.sums s2.counts 3 1 0).2 = 4 ∧
      s2.centroids 0 0 = 2 ∧ checksum s2.centroids 1 1 = 2) ∧
    (∃ s2, Mpi.main_loop (ofRows [[1], [2], [3], [4]]) 4 1 1 1 2
        { centroids := ofRows [[3]],
          ranks := fun _ => { cluster_id := fun _ => -1, sums := fun _ => 7,
                              counts := fun _ => 7 } } = some s2 ∧
      (∀ j, j < 4 → Mpi.global_cluster_id (4 / 2) s2.ranks j = 0) ∧
      Mpi.reduce_sums (fun r => (s2.ranks r).sums) 2 (0 * 1 + 0) = 10 ∧
      Mpi.reduce_counts (fun r => (s2.ranks r).counts) 2 0 = 4 ∧
      s2.centroids 0 0 = 2 ∧ checksum s2.centroids 1 1 = 2) :=
  ⟨(scenario_A 3 (by decide) 3 (by decide) (fun _ => -1) (fun _ _ => 7) (fun _ _ => 7)
      (fun _ => { cluster_id := fun _ => -1, sums := fun _ => 7, counts := fun _ => 7 })).1,
   (scenario_A 3 (by decide) 2 (by decide) (fun _ => -1) (fun _ _ => 7) (fun _ _ => 7)
      (fun _ => { cluster_id := fun _ => -1, sums := fun _ => 7, counts := fun _ => 7 })).2
      (by decide)⟩

/-! ## Partitioned and sequential iteration -/

theorem lowest_argmin_unique (dist : Nat → Int) (K : Nat) (b1 b2 : Int)
    (h1 : lowest_argmin dist K b1) (h2 : lowest_argmin dist K b2) : b1 = b2 := by
  obtain ⟨p1, q1, m1, f1⟩ := h1
  obtain ⟨p2, q2, m2, f2⟩ := h2
  rcases Nat.lt_trichotomy b1.toNat b2.toNat with h | h | h
  · have := f2 b1.toNat h
    have := m1 b2.toNat (by omega)
    omega
  · omega
  · have := f1 b2.toNat h
    have := m2 b1.toNat (by omega)
    omega

/-- A point that the message-passing search does not leave at the sentinel
gets the same cluster in both programs. -/
theorem assignments_agree (points c : Nat → Nat → Int) (K D i : Nat)
    (h : 0 ≤ mpi_assignment points c K D i) :
    pthreads_assignment points c K D i = mpi_assignment points c K D i := by
  have hd : (fun k => Pthreads.euclidean_dist_sq (points i) (c k) D) =
      (fun k => Mpi.euclidean_dist_sq (points i) (c k) D) := by
    funext k
    exact dist_unrolled_eq _ _ D
  have hex : ∃ k, k < K ∧ Mpi.euclidean_dist_sq (points i) (c k) D < LLONG_MAX := by
    obtain ⟨_, hcase⟩ :=
      search_loop_inv (fun k => Mpi.euclidean_dist_sq (points i) (c k) D) K (-1)
    rcases hcase with ⟨h1, _⟩ | ⟨b, hb, _, _, h4, _⟩
    · unfold mpi_assignment Mpi.best_cluster at h
      rw [h1] at h
      omega
    · exact ⟨b, hb, h4⟩
  have a1 := search_loop_argmin (fun k => Mpi.euclidean_dist_sq (points i) (c k) D) K 0 hex
  have a2 := search_loop_argmin (fun k => Mpi.euclidean_dist_sq (points i) (c k) D) K (-1) hex
  unfold pthreads_assignment mpi_assignment Pthreads.best_cluster Mpi.best_cluster
  rw [hd]
  exact lowest_argmin_unique _ K _ _ a1 a2

/-- One iteration of kmeans_pthreads.c on the ranges of the set-up loop gives
every point the cluster id and every centroid the coordinates that the
sequential `assign_points_to_clusters` and `update_centroids` give, provided
the sequential search leaves no point at the sentinel `-1`. -/
theorem pthreads_refines_sequential (points : Nat → Nat → Int) (M K D P : Nat)
    (st : Pthreads.State) (hK : 1 ≤ K) (hP : 1 ≤ P)
    (hok : ∀ i, i < M → 0 ≤ mpi_assignment points st.centroids K D i ∧
      mpi_assignment points st.centroids K D i < K) :
    ∃ s2 q2, Pthreads.iteration points K D P (Pthreads.setup M P).start_idx
        (Pthreads.setup M P).end_idx st = some s2 ∧
      Mpi.sequential_iteration points M K D (st.cluster_id, st.centroids) = some q2 ∧
      (∀ j, s2.cluster_id j = q2.1 j) ∧ (∀ k d, s2.centroids k d = q2.2 k d) := by
  obtain ⟨s2, hrun, hcid, _, _, hmean⟩ := pthreads_iteration_spec points M K D P st hK hP
  obtain ⟨q2, hseq, qcid, qmean⟩ :=
    sequential_iteration_spec points M K D (st.cluster_id, st.centroids) hok
  refine ⟨s2, q2, hrun, hseq, ?_, ?_⟩
  · intro j
    rw [hcid j, qcid j]
    by_cases hj : j < M
    · rw [if_pos hj, if_pos hj]
      exact assignments_agree points st.centroids K D j (hok j hj).1
    · rw [if_neg hj, if_neg hj]
  · intro k d
    rw [hmean k d, qmean k d]
    exact mean_update_congr points _ _ M K D st.centroids k d
      (fun i hi => assignments_agree points st.centroids K D i (hok i hi).1)

/-- One iteration of kmeans_mpi.c with `size` processes, `size` dividing `M`,
agrees with the sequential `assign_points_to_clusters` and `update_centroids`:
both perform an invalid access, or both succeed with the same cluster ids and
the same centroids. -/
theorem mpi_refines_sequential (points : Nat → Nat → Int) (M K D size : Nat)
    (st : Mpi.State) (cid : Nat → Int) (hdiv : M % size = 0) :
    (Mpi.iteration points M K D size st = none ∧
      Mpi.sequential_iteration points M K D (cid, st.centroids) = none) ∨
    (∃ s2 q2, Mpi.iteration points M K D size st = some s2 ∧
      Mpi.sequential_iteration points M K D (cid, st.centroids) = some q2 ∧
      (∀ j, j < M → Mpi.global_cluster_id (M / size) s2.ranks j = q2.1 j) ∧
      (∀ k d, s2.centroids k d = q2.2 k d)) := by
  by_cases hok : ∀ i, i < M → 0 ≤ mpi_assignment points st.centroids K D i ∧
      mpi_assignment points st.centroids K D i < K
  · right
    obtain ⟨s2, hrun, hcid, _, _, hmean⟩ := mpi_iteration_spec points M K D size st hdiv hok
    obtain ⟨q2, hseq, qcid, qmean⟩ :=
      sequential_iteration_spec points M K D (cid, st.centroids) hok
    refine ⟨s2, q2, hrun, hseq, ?_, ?_⟩
    · intro j hj
      rw [hcid j hj, qcid j, if_pos hj]
    · intro k d
      rw [hmean k d, qmean k d]
  · left
    have hbad : ∃ i, i < M ∧ ¬ (0 ≤ mpi_assignment points st.centroids K D i ∧
        mpi_assignment points st.centroids K D i < K) := by
      by_contra hne
      apply hok
      intro i hi
      by_contra hc
      exact hne ⟨i, hi, hc⟩
    exact ⟨mpi_iteration_none points M K D size st hdiv hbad,
      sequential_iteration_none points M K D (cid, st.centroids) hbad⟩

/-- C1 (the code at the failing input). Dataset of the two points
`(0, 0, 0, 0)` and `(2147483647, 2147483647, 91810, 12683)` with `K = 1` and
the first point as initial centroid. The second point is at squared distance
`LLONG_MAX` from the centroid. The sequential `assign_points_to_clusters`
gives it `cluster_id = -1` and `update_centroids` then indexes its arrays at
`-1`; the message-passing loop does the same with one and with two processes.
The threaded program, here with two threads, gives both points
`cluster_id` 0 and moves the centroid to `(1073741823, 1073741823, 45905,
6341)`. -/
theorem refinement_at_llong_max :
    Mpi.assign_points_to_clusters
      (ofRows [[0, 0, 0, 0], [2147483647, 2147483647, 91810, 12683]])
      (ofRows [[0, 0, 0, 0]]) 2 1 4 (fun _ => 0) 1 = -1 ∧
    Mpi.sequential_iteration (ofRows [[0, 0, 0, 0], [2147483647, 2147483647, 91810, 12683]])
      2 1 4 (fun _ => 0, ofRows [[0, 0, 0, 0]]) = none ∧
    Mpi.iteration (ofRows [[0, 0, 0, 0], [2147483647, 2147483647, 91810, 12683]]) 2 1 4 1
      { centroids := ofRows [[0, 0, 0, 0]],
        ranks := fun _ => { cluster_id := fun _ => 0, sums := fun _ => 0,
                            counts := fun _ => 0 } } = none ∧
    Mpi.iteration (ofRows [[0, 0, 0, 0], [2147483647, 2147483647, 91810, 12683]]) 2 1 4 2
      { centroids := ofRows [[0, 0, 0, 0]],
        ranks := fun _ => { cluster_id := fun _ => 0, sums := fun _ => 0,
                            counts := fun _ => 0 } } = none ∧
    (∃ s2, Pthreads.iteration
        (ofRows [[0, 0, 0, 0], [2147483647, 2147483647, 91810, 12683]]) 1 4 2
        (Pthreads.setup 2 2).start_idx (Pthreads.setup 2 2).end_idx
        { centroids := ofRows [[0, 0, 0, 0]], cluster_id := fun _ => 0,
          sums := fun _ _ => 0, counts := fun _ _ => 0 } = some s2 ∧
      s2.cluster_id 0 = 0 ∧ s2.cluster_id 1 = 0 ∧
      s2.centroids 0 0 = 1073741823 ∧ s2.centroids 0 1 = 1073741823 ∧
      s2.centroids 0 2 = 45905 ∧ s2.centroids 0 3 = 6341) := by
  refine ⟨by decide, ?_, ?_, ?_, ?_⟩
  · exact sequential_iteration_none _ 2 1 4 _ ⟨1, by decide, by decide⟩
  · exact mpi_iteration_none _ 2 1 4 1 _ (by decide) ⟨1, by decide, by decide⟩
  · exact mpi_iteration_none _ 2 1 4 2 _ (by decide) ⟨1, by decide, by decide⟩
  · obtain ⟨s2, hrun, hcid, _, _, hmean⟩ :=
      pthreads_iteration_spec (ofRows [[0, 0, 0, 0], [2147483647, 2147483647, 91810, 12683]])
        2 1 4 2
        { centroids := ofRows [[0, 0, 0, 0]], cluster_id := fun _ => 0,
          sums := fun _ _ => 0, counts := fun _ _ => 0 } (by decide) (by decide)
    dsimp only at hcid hmean
    refine ⟨s2, hrun, ?_, ?_, ?_, ?_, ?_, ?_⟩
    · rw [hcid 0]; decide
    · rw [hcid 1]; decide
    · rw [hmean 0 0]; decide
    · rw [hmean 0 1]; decide
    · rw [hmean 0 2]; decide
    · rw [hmean 0 3]; decide

/-- C11. Scenario B: `M = 2`, `D = 1`, `K = 2`, `I = 1`, points `0, 100`,
initial centroids `0, 100`. The squared distances of point 0 to the two
centroids are 0 and 10000 and those of point 1 are 10000 and 0. For every
number `P ≥ 1` of threads, and for every number `P` of processes that divides
2, whatever the previous contents of the cluster ids and accumulators: point 0
gets `cluster_id` 0 and point 1 gets `cluster_id` 1, the global count of each
cluster is 1, the final centroids are `0, 100` and the checksum is 100. -/
theorem scenario_B (P : Nat) (hP : 1 ≤ P) (cid0 : Nat → Int) (sums0 counts0 : Nat → Nat → Int)
    (ranks0 : Nat → Worker) :
    (Mpi.euclidean_dist_sq (ofRows [[0], [100]] 0) (ofRows [[0], [100]] 0) 1 = 0 ∧
      Mpi.euclidean_dist_sq (ofRows [[0], [100]] 0) (ofRows [[0], [100]] 1) 1 = 10000 ∧
      Pthreads.euclidean_dist_sq (ofRows [[0], [100]] 1) (ofRows [[0], [100]] 0) 1 = 10000 ∧
      Pthreads.euclidean_dist_sq (ofRows [[0], [100]] 1) (ofRows [[0], [100]] 1) 1 = 0) ∧
    (∃ s2, Pthreads.main_loop (ofRows [[0], [100]]) 2 2 1 1 P
        { centroids := ofRows [[0], [100]], cluster_id := cid0,
          sums := sums0, counts := counts0 } = some s2 ∧
      s2.cluster_id 0 = 0 ∧ s2.cluster_id 1 = 1 ∧
      (Pthreads.leader_reduce s2.sums s2.counts P 1 0).2 = 1 ∧
      (Pthreads.leader_reduce s2.sums s2.counts P 1 1).2 = 1 ∧
      s2.centroids 0 0 = 0 ∧ s2.centroids 1 0 = 100 ∧
      checksum s2.centroids 2 1 = 100) ∧
    (2 % P = 0 →
      ∃ s2, Mpi.main_loop (ofRows [[0], [100]]) 2 2 1 1 P
          { centroids := ofRows [[0], [100]], ranks := ranks0 } = some s2 ∧
        Mpi.global_cluster_id (2 / P) s2.ranks 0 = 0 ∧
        Mpi.global_cluster_id (2 / P) s2.ranks 1 = 1 ∧
        Mpi.reduce_counts (fun r => (s2.ranks r).counts) P 0 = 1 ∧
        Mpi.reduce_counts (fun r => (s2.ranks r).counts) P 1 = 1 ∧
        s2.centroids 0 0 = 0 ∧ s2.centroids 1 0 = 100 ∧
        checksum s2.centroids 2 1 = 100) := by
  refine ⟨⟨by decide, by decide, by decide, by decide⟩, ?_, ?_⟩
  · obtain ⟨s2, hrun, hcid, hcnt, _, hmean⟩ :=
      pthreads_iteration_spec (ofRows [[0], [100]]) 2 2 1 P
        { centroids := ofRows [[0], [100]], cluster_id := cid0,
          sums := sums0, counts := counts0 } (by decide) hP
    dsimp only at hcid hcnt hmean
    have h0 : s2.centroids 0 0 = 0 := by rw [hmean 0 0]; decide
    have h1 : s2.centroids 1 0 = 100 := by rw [hmean 1 0]; decide
    refine ⟨s2, ?_, ?_, ?_, ?_, ?_, h0, h1, ?_⟩
    · rw [pthreads_main_loop_one]; exact hrun
    · rw [hcid 0, if_pos (by decide)]; decide
    · rw [hcid 1, if_pos (by decide)]; decide
    · rw [hcnt 0 (by decide)]; decide
    · rw [hcnt 1 (by decide)]; decide
    · rw [checksum_two_by_one, h0, h1]; decide
  · intro hdiv
    obtain ⟨s2, hrun, hcid, hcnt, _, hmean⟩ :=
      mpi_iteration_spec (ofRows [[0], [100]]) 2 2 1 P
        { centroids := ofRows [[0], [100]], ranks := ranks0 } hdiv
        (show ∀ i, i < 2 →
          0 ≤ mpi_assignment (ofRows [[0], [100]]) (ofRows [[0], [100]]) 2 1 i ∧
          mpi_assignment (ofRows [[0], [100]]) (ofRows [[0], [100]]) 2 1 i < ((2 : Nat) : Int)
          by decide)
    dsimp only at hcid hcnt hmean
    have h0 : s2.centroids 0 0 = 0 := by rw [hmean 0 0]; decide
    have h1 : s2.centroids 1 0 = 100 := by rw [hmean 1 0]; decide
    refine ⟨s2, ?_, ?_, ?_, ?_, ?_, h0, h1, ?_⟩
    · rw [mpi_main_loop_one]; exact hrun
    · rw [hcid 0 (by decide)]; decide
    · rw [hcid 1 (by decide)]; decide
    · rw [hcnt 0 (by decide)]; decide
    · rw [hcnt 1 (by decide)]; decide
    · rw [checksum_two_by_one, h0, h1]; decide

/-- Scenario B with three threads (one of them with an empty range) and with
two processes. -/
theorem scenario_B_witness :
    (∃ s2, Pthreads.main_loop (ofRows [[0], [100]]) 2 2 1 1 3
        { centroids := ofRows [[0], [100]], cluster_id := fun _ => -1,
          sums := fun _ _ => 7, counts := fun _ _ => 7 } = some s2 ∧
      s2.cluster_id 0 = 0 ∧ s2.cluster_id 1 = 1 ∧
      (Pthreads.leader_reduce s2.sums s2.counts 3 1 0).2 = 1 ∧
      (Pthreads.leader_reduce s2.sums s2.counts 3 1 1).2 = 1 ∧
      s2.centroids 0 0 = 0 ∧ s2.centroids 1 0 = 100 ∧
      checksum s2.centroids 2 1 = 100) ∧
    (∃ s2, Mpi.main_loop (ofRows [[0], [100]]) 2 2 1 1 2
        { centroids := ofRows [[0], [100]],
          ranks := fun _ => { cluster_id := fun _ => -1, sums := fun _ => 7,
                              counts := fun _ => 7 } } = some s2 ∧
      Mpi.global_cluster_id (2 / 2) s2.ranks 0 = 0 ∧
      Mpi.global_cluster_id (2 / 2) s2.ranks 1 = 1 ∧
      Mpi.reduce_counts (fun r => (s2.ranks r).counts) 2 0 = 1 ∧
      Mpi.reduce_counts (fun r => (s2.ranks r).counts) 2 1 = 1 ∧
      s2.centroids 0 0 = 0 ∧ s2.centroids 1 0 = 100 ∧
      checksum s2.centroids 2 1 = 100) :=
  ⟨(scenario_B 3 (by decide) (fun _ => -1) (fun _ _ => 7) (fun _ _ => 7)
      (fun _ => { cluster_id := fun _ => -1, sums := fun _ => 7, counts := fun _ => 7 })).2.1,
   (scenario_B 2 (by decide) (fun _ => -1) (fun _ _ => 7) (fun _ _ => 7)
      (fun _ => { cluster_id := fun _ => -1, sums := fun _ => 7, counts := fun _ => 7 })).2.2
      (by decide)⟩

/-! ## Argument validation -/

/-- C12 (counterexample). With the correct argument count and the parameters
`M = 4`, `D = 1`, `K = 1`, `I = -1`, where `M`, `D` and `K` are in range and
only the iteration count is out of range (`I < 0`), the argument handling of
both programs goes on instead of aborting. -/
theorem startup_accepts_negative_iterations :
    ((-1 : Int) < 0) ∧
    Mpi.startup { argc := 6, M := 4, D := 1, K := 1, I := -1 } 2 = Startup.proceed ∧
    Pthreads.startup { argc := 6, M := 4, D := 1, K := 1, I := -1 } = Startup.proceed := by
  refine ⟨by decide, by decide, by decide⟩

/-- C12 (amended). In both programs the argument handling aborts with the
non-zero status 1, before any point is read, whenever fewer than the five
parameters are given (`argc < 6`); in kmeans_mpi.c it also aborts with status 1
whenever more are given (`argc != 6`). The iteration count is not checked: with
exactly five parameters and `M`, `D`, `K` in range (`1 ≤ M`, `1 ≤ D`,
`1 ≤ K ≤ M`) the threaded program goes on whatever `I` is, an `I < 0`
included, and so does the message-passing program when `M % size` is 0. -/
theorem argument_validation (a : Args) (size : Int) :
    (a.argc < 6 →
      Mpi.startup a size = Startup.abort 1 ∧ Pthreads.startup a = Startup.abort 1 ∧
        (1 : Int) ≠ 0) ∧
    (a.argc ≠ 6 → Mpi.startup a size = Startup.abort 1) ∧
    (a.argc = 6 → 1 ≤ a.M → 1 ≤ a.D → 1 ≤ a.K → a.K ≤ a.M →
      Pthreads.startup a = Startup.proceed ∧
      (Int.tmod a.M size = 0 → Mpi.startup a size = Startup.proceed)) := by
  refine ⟨?_, ?_, ?_⟩
  · intro h
    refine ⟨?_, ?_, by decide⟩
    · unfold Mpi.startup
      rw [if_pos (by omega)]
    · unfold Pthreads.startup EXIT_FAILURE
      rw [if_pos h]
  · intro h
    unfold Mpi.startup
    rw [if_pos h]
  · intro h _ _ _ _
    constructor
    · unfold Pthreads.startup
      rw [if_neg (by omega)]
    · intro hm
      unfold Mpi.startup
      rw [if_neg (by omega), if_neg (by rw [hm]; decide)]

/-- Three parameters instead of five: both programs abort with status 1. Five
parameters with `M = 4`, `D = 1`, `K = 1` and the iteration count `-1`: both
programs go on. -/
theorem argument_validation_witness :
    (Mpi.startup { argc := 4, M := 4, D := 1, K := 1, I := 1 } 2 = Startup.abort 1 ∧
      Pthreads.startup { argc := 4, M := 4, D := 1, K := 1, I := 1 } = Startup.abort 1 ∧
      (1 : Int) ≠ 0) ∧
    (Pthreads.startup { argc := 6, M := 4, D := 1, K := 1, I := -1 } = Startup.proceed ∧
      Mpi.startup { argc := 6, M := 4, D := 1, K := 1, I := -1 } 2 = Startup.proceed) := by
  have h := (argument_validation { argc := 6, M := 4, D := 1, K := 1, I := -1 } 2).2.2
    (by decide) (by decide) (by decide) (by decide) (by decide)
  exact ⟨(argument_validation { argc := 4, M := 4, D := 1, K := 1, I := 1 } 2).1 (by decide),
    h.1, h.2 (by decide)⟩

/-! ## Invalid partition -/

theorem rank_rows (M P r : Nat) (hdiv : M % P = 0) (hr : r < P) :
    (r + 1) * (M / P) ≤ M := by
  have hM : P * (M / P) = M := by
    have := Nat.div_add_mod M P
    omega
  have : (r + 1) * (M / P) ≤ P * (M / P) := Nat.mul_le_mul_right _ hr
  omega

/-- C13. Given the correct argument count and `size ≥ 1` processes, the
argument handling of kmeans_mpi.c aborts with the non-zero status 1 if and only
if `M % size != 0`, that is, if and only if `size` does not divide `M`;
otherwise it goes on. When `P ≥ 1` processes divide `M`, rank `r < P` owns
exactly the `M / P` contiguous rows `[r * (M / P), (r + 1) * (M / P))`: its
local row `i` is global row `r * (M / P) + i`, every global row of that
interval is one of its local rows, the interval lies below `M`, and the
interval of the last rank ends at `M`. The argument handling of
kmeans_pthreads.c goes on whatever `M` is. -/
theorem invalid_partition (a : Args) (size : Int) (hargc : a.argc = 6) (hsize : 1 ≤ size) :
    (Mpi.startup a size = Startup.abort 1 ↔ Int.tmod a.M size ≠ 0) ∧
    (Int.tmod a.M size ≠ 0 ↔ ¬ size ∣ a.M) ∧
    (0 ≤ a.M → (Int.tmod a.M size ≠ 0 ↔ a.M % size ≠ 0)) ∧
    (Int.tmod a.M size = 0 → Mpi.startup a size = Startup.proceed) ∧
    (1 : Int) ≠ 0 ∧
    (∀ (points : Nat → Nat → Int) (M P r : Nat), M % P = 0 → r < P →
      (∀ i, i < M / P →
        Mpi.scatter points (M / P) r i = points (r * (M / P) + i) ∧
        r * (M / P) ≤ r * (M / P) + i ∧ r * (M / P) + i < (r + 1) * (M / P)) ∧
      (∀ j, r * (M / P) ≤ j → j < (r + 1) * (M / P) →
        ∃ i, i < M / P ∧ j = r * (M / P) + i ∧
          Mpi.scatter points (M / P) r i = points j) ∧
      (r + 1) * (M / P) ≤ M ∧ P * (M / P) = M) ∧
    (∀ b : Args, b.argc = 6 → Pthreads.startup b = Startup.proceed) := by
  refine ⟨?_, ?_, ?_, ?_, by decide, ?_, ?_⟩
  · unfold Mpi.startup
    rw [if_neg (by omega)]
    by_cases hm : Int.tmod a.M size = 0
    · simp [hm]
    · simp [hm]
  · rw [Int.dvd_iff_tmod_eq_zero]
  · intro hM
    rw [Int.tmod_eq_emod hM (by omega)]
  · intro hm
    unfold Mpi.startup
    rw [if_neg (by omega), if_neg (by omega)]
  · intro points M P r hdiv hr
    have hsucc : (r + 1) * (M / P) = r * (M / P) + M / P := Nat.succ_mul r (M / P)
    have hrows := rank_rows M P r hdiv hr
    have hlast : P * (M / P) = M := by
      have := Nat.div_add_mod M P
      omega
    refine ⟨?_, ?_, hrows, hlast⟩
    · intro i hi
      refine ⟨rfl, Nat.le_add_right _ _, ?_⟩
      rw [hsucc]
      exact Nat.add_lt_add_left hi _
    · intro j h1 h2
      rw [hsucc] at h2
      generalize M / P = q at h1 h2 ⊢
      refine ⟨j - r * q, by omega, by omega, ?_⟩
      have e : r * q + (j - r * q) = j := by omega
      show points (r * q + (j - r * q)) = points j
      rw [e]
  · intro b hb
    unfold Pthreads.startup
    rw [if_neg (by omega)]

/-- Ten points: with four processes the message-passing program aborts, with
five it goes on; the threaded program goes on. -/
theorem invalid_partition_witness :
    Mpi.startup { argc := 6, M := 10, D := 2, K := 3, I := 5 } 4 = Startup.abort 1 ∧
    Mpi.startup { argc := 6, M := 10, D := 2, K := 3, I := 5 } 5 = Startup.proceed ∧
    Pthreads.startup { argc := 6, M := 10, D := 2, K := 3, I := 5 } = Startup.proceed := by
  have h4 := invalid_partition { argc := 6, M := 10, D := 2, K := 3, I := 5 } 4 rfl (by decide)
  have h5 := invalid_partition { argc := 6, M := 10, D := 2, K := 3, I := 5 } 5 rfl (by decide)
  exact ⟨h4.1.2 (by decide), h5.2.2.2.1 (by decide), h4.2.2.2.2.2.2 _ rfl⟩

/-! ## Accumulators without overflow -/

/-- Over a list of at most `INT_MAX` point indices whose coordinate `d` is an
`int`, the count of a cluster is representable as an `int` and its coordinate
sum as a `long long`. -/
theorem list_bounds (points : Nat → Nat → Int) (a : Nat → Int) (k d : Nat) (l : List Nat)
    (hlen : (l.length : Int) ≤ INT_MAX) (hpts : ∀ i, i ∈ l → isInt (points i d)) :
    isInt (member_count a k l) ∧ isLL (member_sum points a k d l) := by
  obtain ⟨hn0, hn1⟩ := member_count_bounds a k l
  obtain ⟨hs0, hs1⟩ := member_sum_bounds points a k d (-2147483648) 2147483647 l
    (fun i hi => hpts i hi)
  unfold INT_MAX at hlen
  generalize member_count a k l = n at *
  generalize member_sum points a k d l = S at *
  constructor
  · unfold isInt; omega
  · unfold isLL
    constructor
    · nlinarith
    · nlinarith

/-- A prefix of a block of point indices below `M ≤ INT_MAX` with `int`
coordinates: its counts and sums are representable. -/
theorem range_bounds (points : Nat → Nat → Int) (a : Nat → Int) (M k d start n : Nat)
    (hM : (M : Int) ≤ INT_MAX) (hpts : ∀ i, i < M → isInt (points i d))
    (hle : start + n ≤ M) :
    isInt (member_count a k (List.range' start n)) ∧
      isLL (member_sum points a k d (List.range' start n)) := by
  apply list_bounds
  · rw [List.length_range']
    unfold INT_MAX at hM ⊢
    omega
  · intro i hi
    have := List.mem_range'_1.1 hi
    exact hpts i (by omega)

theorem setup_range_le (M P t : Nat) (hP : 1 ≤ P) (ht : t < P) :
    (Pthreads.setup M P).start_idx t ≤ (Pthreads.setup M P).end_idx t ∧
      (Pthreads.setup M P).end_idx t ≤ M := by
  rw [Pthreads.setup_start M P t ht, Pthreads.setup_end M P t ht]
  constructor
  · exact Pthreads.boundary_mono M P (Nat.le_succ t)
  · have := Pthreads.boundary_mono M P (show t + 1 ≤ P by omega)
    rw [Pthreads.boundary_last M P hP] at this
    exact this

/-- The exact sum over the first `n` threads of the counts and sums of their
ranges is the count and sum over the points below boundary `n`. -/
theorem setup_prefix_chain (h : Nat → Int) (M P n : Nat) (hn : n ≤ P) :
    ((List.range n).map (fun t => ((List.range' ((Pthreads.setup M P).start_idx t)
        ((Pthreads.setup M P).end_idx t - (Pthreads.setup M P).start_idx t)).map h).sum)).sum =
      ((List.range' 0 (Pthreads.boundary M P n)).map h).sum := by
  have hmono : ∀ t, Pthreads.boundary M P t ≤ Pthreads.boundary M P (t + 1) :=
    fun t => Pthreads.boundary_mono M P (Nat.le_succ t)
  rw [← chain_sum h (Pthreads.boundary M P) (Pthreads.boundary_zero M P) hmono n]
  congr 1
  apply List.map_congr_left
  intro t ht
  have htP : t < P := by
    have := List.mem_range.1 ht
    omega
  rw [Pthreads.setup_start M P t htP, Pthreads.setup_end M P t htP]

/-- Every step of the accumulation loop of one thread: after the first `n`
points of a block below `M ≤ INT_MAX`, started from zeroed accumulators, every
count and every coordinate sum is the exact count and sum of the points
processed so far, which are representable. -/
theorem worker_steps_exact (points : Nat → Nat → Int) (a : Nat → Int) (M K D start n : Nat)
    (w : Worker) (hM : (M : Int) ≤ INT_MAX)
    (hpts : ∀ i, i < M → ∀ d, d < D → isInt (points i d))
    (hle : start + n ≤ M) (hok : ∀ i, start ≤ i → i < start + n → 0 ≤ a i ∧ a i < K) :
    ∃ w2, for_loop (assign_acc_step points a K D) start n
        { cluster_id := w.cluster_id
          sums := memset0 w.sums (K * D)
          counts := memset0 w.counts K } = some w2 ∧
      ∀ k, k < K →
        (w2.counts k = member_count a k (List.range' start n) ∧
          isInt (member_count a k (List.range' start n))) ∧
        ∀ d, d < D →
          (w2.sums (k * D + d) = member_sum points a k d (List.range' start n) ∧
            isLL (member_sum points a k d (List.range' start n))) := by
  obtain ⟨w2, hrun, _, hcnt, hsum⟩ := assign_phase_spec points a K D start n w hok
  refine ⟨w2, hrun, ?_⟩
  intro k hk
  constructor
  · have hb : isInt (member_count a k (List.range' start n)) := by
      have := member_count_bounds a k (List.range' start n)
      rw [List.length_range'] at this
      unfold INT_MAX at hM
      unfold isInt
      omega
    exact ⟨by rw [hcnt k hk, wrapInt_of_isInt hb], hb⟩
  · intro d hd
    have hb := (range_bounds points a M k d start n hM (fun i hi => hpts i hi d hd) hle).2
    exact ⟨by rw [hsum k d hk hd, wrapLL_of_isLL hb], hb⟩

/-- Every step of the leader's reduction in kmeans_pthreads.c: after the
accumulators of the first `n ≤ P` threads have been added, `total_count` and
`total_sum[d]` are the exact count and sum of the cluster over the points of
those threads, which are representable. -/
theorem leader_steps_exact (points : Nat → Nat → Int) (M K D P : Nat) (a : Nat → Int)
    (sums counts : Nat → Nat → Int) (hM : (M : Int) ≤ INT_MAX)
    (hpts : ∀ i, i < M → ∀ d, d < D → isInt (points i d)) (hP : 1 ≤ P)
    (hcnt : ∀ t k, t < P → k < K → counts t k =
      wrapInt (member_count a k
        (List.range' ((Pthreads.setup M P).start_idx t)
          ((Pthreads.setup M P).end_idx t - (Pthreads.setup M P).start_idx t))))
    (hsum : ∀ t k d, t < P → k < K → d < D → sums t (k * D + d) =
      wrapLL (member_sum points a k d
        (List.range' ((Pthreads.setup M P).start_idx t)
          ((Pthreads.setup M P).end_idx t - (Pthreads.setup M P).start_idx t))))
    (n k : Nat) (hn : n ≤ P) (hk : k < K) :
    ((Pthreads.leader_reduce sums counts n D k).2 =
        member_count a k (List.range' 0 (Pthreads.boundary M P n)) ∧
      isInt (member_count a k (List.range' 0 (Pthreads.boundary M P n)))) ∧
    ∀ d, d < D →
      ((Pthreads.leader_reduce sums counts n D k).1 d =
          member_sum points a k d (List.range' 0 (Pthreads.boundary M P n)) ∧
        isLL (member_sum points a k d (List.range' 0 (Pthreads.boundary M P n)))) := by
  obtain ⟨h1, h2⟩ := leader_reduce_spec sums counts n D k
  have hbn : Pthreads.boundary M P n ≤ M := by
    have := Pthreads.boundary_mono M P hn
    rw [Pthreads.boundary_last M P hP] at this
    exact this
  constructor
  · have hb : isInt (member_count a k (List.range' 0 (Pthreads.boundary M P n))) := by
      have := member_count_bounds a k (List.range' 0 (Pthreads.boundary M P n))
      rw [List.length_range'] at this
      unfold INT_MAX at hM
      unfold isInt
      omega
    refine ⟨?_, hb⟩
    rw [h1]
    have e : (List.range n).map (fun t => counts t k) =
        (List.range n).map (fun t => wrapInt (member_count a k
          (List.range' ((Pthreads.setup M P).start_idx t)
            ((Pthreads.setup M P).end_idx t - (Pthreads.setup M P).start_idx t)))) := by
      apply List.map_congr_left
      intro t ht
      have := List.mem_range.1 ht
      rw [hcnt t k (by omega) hk]
    rw [e, wrapInt_sum_map]
    have hc := setup_prefix_chain (fun i => if a i = (k : Int) then (1 : Int) else 0) M P n hn
    unfold member_count
    rw [hc]
    exact wrapInt_of_isInt hb
  · intro d hd
    have hb := (range_bounds points a M k d 0 (Pthreads.boundary M P n) hM
      (fun i hi => hpts i hi d hd) (by omega)).2
    refine ⟨?_, hb⟩
    rw [h2 d hd]
    have e : (List.range n).map (fun t => sums t (k * D + d)) =
        (List.range n).map (fun t => wrapLL (member_sum points a k d
          (List.range' ((Pthreads.setup M P).start_idx t)
            ((Pthreads.setup M P).end_idx t - (Pthreads.setup M P).start_idx t)))) := by
      apply List.map_congr_left
      intro t ht
      have := List.mem_range.1 ht
      rw [hsum t k d (by omega) hk hd]
    rw [e, wrapLL_sum_map]
    have hc := setup_prefix_chain (fun i => if a i = (k : Int) then points i d else 0) M P n hn
    unfold member_sum
    rw [hc]
    exact wrapLL_of_isLL hb

/-- Every step of `MPI_Reduce` combined in rank order: after the accumulators
of the first `n ≤ size` ranks have been added, the running totals are the exact
count and sum of the cluster over the rows of those ranks, which are
representable. -/
theorem reduce_steps_exact (points : Nat → Nat → Int) (M M_local K D size : Nat)
    (a : Nat → Int) (rs : Nat → Worker) (hM : (M : Int) ≤ INT_MAX)
    (hpts : ∀ i, i < M → ∀ d, d < D → isInt (points i d)) (hsz : size * M_local = M)
    (hcnt : ∀ r k, r < size → k < K → (rs r).counts k =
      wrapInt (member_count a k (List.range' (r * M_local) M_local)))
    (hsum : ∀ r k d, r < size → k < K → d < D → (rs r).sums (k * D + d) =
      wrapLL (member_sum points a k d (List.range' (r * M_local) M_local)))
    (n k : Nat) (hn : n ≤ size) (hk : k < K) :
    (Mpi.reduce_counts (fun r => (rs r).counts) n k =
        member_count a k (List.range' 0 (n * M_local)) ∧
      isInt (member_count a k (List.range' 0 (n * M_local)))) ∧
    ∀ d, d < D →
      (Mpi.reduce_sums (fun r => (rs r).sums) n (k * D + d) =
          member_sum points a k d (List.range' 0 (n * M_local)) ∧
        isLL (member_sum points a k d (List.range' 0 (n * M_local)))) := by
  have hle : n * M_local ≤ M := by
    have : n * M_local ≤ size * M_local := Nat.mul_le_mul_right _ hn
    omega
  have htot := mpi_totals points M_local K D n a rs
    (fun r k hr hk => hcnt r k (by omega) hk)
    (fun r k d hr hk hd => hsum r k d (by omega) hk hd) k hk
  constructor
  · have hb : isInt (member_count a k (List.range' 0 (n * M_local))) := by
      have := member_count_bounds a k (List.range' 0 (n * M_local))
      rw [List.length_range'] at this
      unfold INT_MAX at hM
      unfold isInt
      omega
    exact ⟨by rw [htot.1, wrapInt_of_isInt hb], hb⟩
  · intro d hd
    have hb := (range_bounds points a M k d 0 (n * M_local) hM
      (fun i hi => hpts i hi d hd) (by omega)).2
    exact ⟨by rw [htot.2 d hd, wrapLL_of_isLL hb], hb⟩

/-- C14. On a dataset of `M ≤ INT_MAX` points with `int` coordinates, with
`K ≥ 1` clusters and `P ≥ 1` workers, no accumulator overflows at any step.
In kmeans_pthreads.c: after any number `n` of points of its range, the counts
and sums of a thread are the exact counts and sums of the points processed so
far; after the accumulators of any number `n ≤ P` of threads have been added,
the leader's `total_count` and `total_sum` are the exact counts and sums over
the points of those threads. In kmeans_mpi.c (when `P` divides `M` and no
point is left at the sentinel `-1`) the same holds for the local accumulators
of every rank and for the running totals of the two reductions. All these
exact counts are representable as `int` and all these exact sums as
`long long`, so no addition wraps. -/
theorem accumulators_overflow_safe (points : Nat → Nat → Int) (M K D P : Nat)
    (hM : (M : Int) ≤ INT_MAX) (hpts : ∀ i, i < M → ∀ d, d < D → isInt (points i d))
    (hK : 1 ≤ K) (hP : 1 ≤ P) :
    (∀ st : Pthreads.State,
      (∀ (w : Worker) (t n : Nat), t < P →
        n ≤ (Pthreads.setup M P).end_idx t - (Pthreads.setup M P).start_idx t →
        ∃ w2, for_loop (Pthreads.worker_step points st.centroids K D)
            ((Pthreads.setup M P).start_idx t) n
            { cluster_id := w.cluster_id
              sums := memset0 w.sums (K * D)
              counts := memset0 w.counts K } = some w2 ∧
          ∀ k, k < K →
            (w2.counts k = member_count (pthreads_assignment points st.centroids K D) k
                (List.range' ((Pthreads.setup M P).start_idx t) n) ∧
              isInt (member_count (pthreads_assignment points st.centroids K D) k
                (List.range' ((Pthreads.setup M P).start_idx t) n))) ∧
            ∀ d, d < D →
              (w2.sums (k * D + d) =
                  member_sum points (pthreads_assignment points st.centroids K D) k d
                    (List.range' ((Pthreads.setup M P).start_idx t) n) ∧
                isLL (member_sum points (pthreads_assignment points st.centroids K D) k d
                  (List.range' ((Pthreads.setup M P).start_idx t) n)))) ∧
      (∃ s1, Pthreads.all_worker_phases points K D P (Pthreads.setup M P).start_idx
          (Pthreads.setup M P).end_idx st = some s1 ∧
        ∀ n k, n ≤ P → k < K →
          ((Pthreads.leader_reduce s1.sums s1.counts n D k).2 =
              member_count (pthreads_assignment points st.centroids K D) k
                (List.range' 0 (Pthreads.boundary M P n)) ∧
            isInt (member_count (pthreads_assignment points st.centroids K D) k
              (List.range' 0 (Pthreads.boundary M P n)))) ∧
          ∀ d, d < D →
            ((Pthreads.leader_reduce s1.sums s1.counts n D k).1 d =
                member_sum points (pthreads_assignment points st.centroids K D) k d
                  (List.range' 0 (Pthreads.boundary M P n)) ∧
              isLL (member_sum points (pthreads_assignment points st.centroids K D) k d
                (List.range' 0 (Pthreads.boundary M P n)))))) ∧
    (∀ st : Mpi.State, M % P = 0 →
      (∀ i, i < M → 0 ≤ mpi_assignment points st.centroids K D i ∧
        mpi_assignment points st.centroids K D i < K) →
      (∀ (w : Worker) (r n : Nat), r < P → n ≤ M / P →
        ∃ w2, for_loop (Mpi.local_step (Mpi.scatter points (M / P) r) st.centroids K D) 0 n
            { cluster_id := w.cluster_id
              sums := memset0 w.sums (K * D)
              counts := memset0 w.counts K } = some w2 ∧
          ∀ k, k < K →
            (w2.counts k = member_count (mpi_assignment points st.centroids K D) k
                (List.range' (r * (M / P)) n) ∧
              isInt (member_count (mpi_assignment points st.centroids K D) k
                (List.range' (r * (M / P)) n))) ∧
            ∀ d, d < D →
              (w2.sums (k * D + d) =
                  member_sum points (mpi_assignment points st.centroids K D) k d
                    (List.range' (r * (M / P)) n) ∧
                isLL (member_sum points (mpi_assignment points st.centroids K D) k d
                  (List.range' (r * (M / P)) n)))) ∧
      (∃ rs, Mpi.all_local_phases points st.centroids (M / P) K D P st.ranks = some rs ∧
        ∀ n k, n ≤ P → k < K →
          (Mpi.reduce_counts (fun r => (rs r).counts) n k =
              member_count (mpi_assignment points st.centroids K D) k
                (List.range' 0 (n * (M / P))) ∧
            isInt (member_count (mpi_assignment points st.centroids K D) k
              (List.range' 0 (n * (M / P))))) ∧
          ∀ d, d < D →
            (Mpi.reduce_sums (fun r => (rs r).sums) n (k * D + d) =
                member_sum points (mpi_assignment points st.centroids K D) k d
                  (List.range' 0 (n * (M / P))) ∧
              isLL (member_sum points (mpi_assignment points st.centroids K D) k d
                (List.range' 0 (n * (M / P))))))) := by
  constructor
  · intro st
    constructor
    · intro w t n ht hn
      obtain ⟨h1, h2⟩ := setup_range_le M P t hP ht
      rw [pthreads_worker_step_eq]
      exact worker_steps_exact points (pthreads_assignment points st.centroids K D) M K D
        ((Pthreads.setup M P).start_idx t) n w hM hpts (by omega)
        (fun i _ _ => pthreads_assignment_range points st.centroids K D hK i)
    · obtain ⟨s1, hrun, _, _, hcnt, hsum⟩ :=
        all_worker_phases_spec points K D (Pthreads.setup M P).start_idx
          (Pthreads.setup M P).end_idx st hK P
      refine ⟨s1, hrun, ?_⟩
      intro n k hn hk
      exact leader_steps_exact points M K D P _ s1.sums s1.counts hM hpts hP hcnt hsum n k hn hk
  · intro st hdiv hok
    have hsz : P * (M / P) = M := by
      have := Nat.div_add_mod M P
      omega
    have hlocal : ∀ r i, r < P → i < M / P → r * (M / P) + i < M := by
      intro r i hr hi
      have := row_cell_lt r i P (M / P) hr hi
      omega
    constructor
    · intro w r n hr hn
      rw [mpi_local_step_eq]
      have hMl : ((M / P : Nat) : Int) ≤ INT_MAX := by
        have : M / P ≤ M := Nat.div_le_self M P
        unfold INT_MAX at hM ⊢
        omega
      obtain ⟨w2, hrun, hall⟩ := worker_steps_exact (Mpi.scatter points (M / P) r)
        (fun i => mpi_assignment points st.centroids K D (r * (M / P) + i)) (M / P) K D 0 n w
        hMl (fun i hi d hd => hpts (r * (M / P) + i) (hlocal r i hr hi) d hd) (by omega)
        (fun i _ hi => hok (r * (M / P) + i) (hlocal r i hr (by omega)))
      refine ⟨w2, hrun, ?_⟩
      intro k hk
      obtain ⟨hc, hs⟩ := hall k hk
      rw [member_count_shift] at hc
      refine ⟨hc, ?_⟩
      intro d hd
      have e := member_sum_shift points (mpi_assignment points st.centroids K D) k d
        (r * (M / P)) n
      have := hs d hd
      unfold Mpi.scatter at this
      rw [e] at this
      exact this
    · obtain ⟨rs, hrun, _, hcnt, hsum, _⟩ :=
        all_local_phases_spec points st.centroids (M / P) K D st.ranks P
          (fun r i hr hi => hok (r * (M / P) + i) (hlocal r i hr hi))
      refine ⟨rs, hrun, ?_⟩
      intro n k hn hk
      exact reduce_steps_exact points M (M / P) K D P _ rs hM hpts hsz hcnt hsum n k hn hk

/-- Four points in one dimension, two clusters, two threads: after both
threads have been added the leader holds the exact count 2 and sum 198 of
cluster 1, and after the first thread alone the exact count 1 and sum 100. -/
theorem accumulators_overflow_safe_witness :
    ∃ s1, Pthreads.all_worker_phases (ofRows [[0], [100], [3], [98]]) 2 1 2
        (Pthreads.setup 4 2).start_idx (Pthreads.setup 4 2).end_idx
        { centroids := ofRows [[0], [100]], cluster_id := fun _ => -1,
          sums := fun _ _ => 7, counts := fun _ _ => 7 } = some s1 ∧
      (Pthreads.leader_reduce s1.sums s1.counts 2 1 1).2 = 2 ∧
      (Pthreads.leader_reduce s1.sums s1.counts 2 1 1).1 0 = 198 ∧
      (Pthreads.leader_reduce s1.sums s1.counts 1 1 1).2 = 1 ∧
      (Pthreads.leader_reduce s1.sums s1.counts 1 1 1).1 0 = 100 := by
  have h := accumulators_overflow_safe (ofRows [[0], [100], [3], [98]]) 4 2 1 2 (by decide)
    (by intro i hi d hd; interval_cases i <;> interval_cases d <;> decide)
    (by decide) (by decide)
  obtain ⟨s1, hrun, hall⟩ := (h.1
    { centroids := ofRows [[0], [100]], cluster_id := fun _ => -1,
      sums := fun _ _ => 7, counts := fun _ _ => 7 }).2
  dsimp only at hall
  have h2 := hall 2 1 (by decide) (by decide)
  have h1 := hall 1 1 (by decide) (by decide)
  refine ⟨s1, hrun, ?_, ?_, ?_, ?_⟩
  · rw [h2.1.1]; decide
  · rw [(h2.2 0 (by decide)).1]; decide
  · rw [h1.1.1]; decide
  · rw [(h1.2 0 (by decide)).1]; decide

/-! ## Local accumulation -/

/-- The count of a cluster is the number of listed indices assigned to it. -/
theorem member_count_eq_filter (a : Nat → Int) (k : Nat) (l : List Nat) :
    member_count a k l = ((l.filter (fun i => decide (a i = (k : Int)))).length : Int) := by
  induction l with
  | nil => rfl
  | cons i l ih =>
    rw [member_count_cons, ih]
    by_cases h : a i = (k : Int)
    · rw [if_pos h, List.filter_cons_of_pos (by simpa using h), List.length_cons]
      push_cast
      omega
    · rw [if_neg h, List.filter_cons_of_neg (by simpa using h)]
      omega

/-- The sum of a cluster is the sum of the coordinate over the listed indices
assigned to it. -/
theorem member_sum_eq_filter (pts : Nat → Nat → Int) (a : Nat → Int) (k d : Nat)
    (l : List Nat) :
    member_sum pts a k d l =
      ((l.filter (fun i => decide (a i = (k : Int)))).map (fun i => pts i d)).sum := by
  induction l with
  | nil => rfl
  | cons i l ih =>
    rw [member_sum_cons, ih]
    by_cases h : a i = (k : Int)
    · rw [if_pos h, List.filter_cons_of_pos (by simpa using h), List.map_cons, List.sum_cons]
    · rw [if_neg h, List.filter_cons_of_neg (by simpa using h)]
      omega

/-- Closed form of the assignment phase over a block of at most `INT_MAX`
points with `int` coordinates, in terms of the cluster ids it writes: the
accumulators hold the exact number and coordinate sums of the points of the
block with each cluster id, whatever they held before. -/
theorem assign_phase_exact (points : Nat → Nat → Int) (a : Nat → Int) (K D start n : Nat)
    (w : Worker) (hn : (n : Int) ≤ INT_MAX)
    (hpts : ∀ i, start ≤ i → i < start + n → ∀ d, d < D → isInt (points i d))
    (hok : ∀ i, start ≤ i → i < start + n → 0 ≤ a i ∧ a i < K) :
    ∃ w2, for_loop (assign_acc_step points a K D) start n
        { cluster_id := w.cluster_id
          sums := memset0 w.sums (K * D)
          counts := memset0 w.counts K } = some w2 ∧
      (∀ i, start ≤ i → i < start + n → w2.cluster_id i = a i) ∧
      ∀ k, k < K →
        w2.counts k =
          (((List.range' start n).filter
            (fun i => decide (w2.cluster_id i = (k : Int)))).length : Int) ∧
        ∀ j, j < D →
          w2.sums (k * D + j) =
            (((List.range' start n).filter
              (fun i => decide (w2.cluster_id i = (k : Int)))).map (fun i => points i j)).sum := by
  obtain ⟨w2, hrun, hcid, hcnt, hsum⟩ := assign_phase_spec points a K D start n w hok
  have hc : ∀ i, i ∈ List.range' start n → a i = w2.cluster_id i := by
    intro i hi
    have := List.mem_range'_1.1 hi
    rw [hcid i, if_pos ⟨this.1, by omega⟩]
  have hlen : ((List.range' start n).length : Int) ≤ INT_MAX := by
    rw [List.length_range']
    exact hn
  refine ⟨w2, hrun, ?_, ?_⟩
  · intro i h1 h2
    rw [hcid i, if_pos ⟨h1, h2⟩]
  · intro k hk
    constructor
    · have hb : isInt (member_count a k (List.range' start n)) := by
        have := member_count_bounds a k (List.range' start n)
        unfold INT_MAX at hlen
        unfold isInt
        omega
      rw [hcnt k hk, wrapInt_of_isInt hb, member_count_congr a w2.cluster_id k _ hc,
        member_count_eq_filter]
    · intro j hj
      have hb := (list_bounds points a k j (List.range' start n) hlen
        (fun i hi => by
          have := List.mem_range'_1.1 hi
          exact hpts i this.1 (by omega) j hj)).2
      rw [hsum k j hk hj, wrapLL_of_isLL hb, member_sum_congr points a w2.cluster_id k j _ hc,
        member_sum_eq_filter]

/-- C16. For every `K ≥ 1`, on points with `int` coordinates: after the
assignment phase of a thread of kmeans_pthreads.c over any range
`[start_idx, end_idx)` of a dataset of `M ≤ INT_MAX` points, and after the
assignment phase of a rank of kmeans_mpi.c over its `M_local ≤ INT_MAX` local
points (none of them left at the sentinel `-1`), `local_counts[k]` is the
number of points of the range whose `cluster_id` is `k` and
`local_sum_coords[k*D + j]` is the sum of coordinate `j` over exactly those
points, for every `k < K` and `j < D`, whatever the accumulators held before
the phase. -/
theorem local_accumulation_exact (points : Nat → Nat → Int) (M K D : Nat)
    (hM : (M : Int) ≤ INT_MAX) (hpts : ∀ i, i < M → ∀ d, d < D → isInt (points i d))
    (hK : 1 ≤ K) :
    (∀ (c : Nat → Nat → Int) (w : Worker) (start_idx end_idx : Nat), end_idx ≤ M →
      ∃ w2, Pthreads.worker_phase points c K D start_idx end_idx w = some w2 ∧
        ∀ k, k < K →
          w2.counts k =
            (((List.range' start_idx (end_idx - start_idx)).filter
              (fun i => decide (w2.cluster_id i = (k : Int)))).length : Int) ∧
          ∀ j, j < D →
            w2.sums (k * D + j) =
              (((List.range' start_idx (end_idx - start_idx)).filter
                (fun i => decide (w2.cluster_id i = (k : Int)))).map
                  (fun i => points i j)).sum) ∧
    (∀ (c : Nat → Nat → Int) (w : Worker),
      (∀ i, i < M → 0 ≤ mpi_assignment points c K D i ∧ mpi_assignment points c K D i < K) →
      ∃ w2, Mpi.local_phase points c M K D w = some w2 ∧
        ∀ k, k < K →
          w2.counts k =
            (((List.range' 0 M).filter
              (fun i => decide (w2.cluster_id i = (k : Int)))).length : Int) ∧
          ∀ j, j < D →
            w2.sums (k * D + j) =
              (((List.range' 0 M).filter
                (fun i => decide (w2.cluster_id i = (k : Int)))).map
                  (fun i => points i j)).sum) := by
  constructor
  · intro c w s e he
    obtain ⟨w2, hrun, _, hall⟩ := assign_phase_exact points (pthreads_assignment points c K D)
      K D s (e - s) w (by unfold INT_MAX at hM ⊢; omega)
      (fun i h1 h2 d hd => hpts i (by omega) d hd)
      (fun i _ _ => pthreads_assignment_range points c K D hK i)
    refine ⟨w2, ?_, hall⟩
    unfold Pthreads.worker_phase
    rw [pthreads_worker_step_eq]
    exact hrun
  · intro c w hok
    obtain ⟨w2, hrun, _, hall⟩ := assign_phase_exact points (mpi_assignment points c K D)
      K D 0 M w hM (fun i _ h2 d hd => hpts i (by omega) d hd)
      (fun i _ hi => hok i (by omega))
    refine ⟨w2, ?_, hall⟩
    unfold Mpi.local_phase
    rw [mpi_local_step_eq]
    exact hrun

/-- Three points of scenario C in the range of one thread, accumulators
holding 7 everywhere before the phase: afterwards cluster 0 has count 3 and
sum 15, cluster 1 has count 0 and sum 0. -/
theorem local_accumulation_exact_witness :
    ∃ w2, Pthreads.worker_phase (ofRows [[5], [5], [5]]) (ofRows [[5], [999]]) 2 1 0 3
        { cluster_id := fun _ => -1, sums := fun _ => 7, counts := fun _ => 7 } = some w2 ∧
      w2.counts 0 = 3 ∧ w2.sums (0 * 1 + 0) = 15 ∧ w2.counts 1 = 0 ∧
      w2.sums (1 * 1 + 0) = 0 := by
  have h := local_accumulation_exact (ofRows [[5], [5], [5]]) 3 2 1 (by decide)
    (by intro i hi d hd; interval_cases i <;> interval_cases d <;> decide) (by decide)
  obtain ⟨w2, hrun, hall⟩ := h.1 (ofRows [[5], [999]])
    { cluster_id := fun _ => -1, sums := fun _ => 7, counts := fun _ => 7 } 0 3 (by decide)
  have e : (Pthreads.worker_phase (ofRows [[5], [5], [5]]) (ofRows [[5], [999]]) 2 1 0 3
      { cluster_id := fun _ => -1, sums := fun _ => 7, counts := fun _ => 7 }).map
      (fun w => [w.cluster_id 0, w.cluster_id 1, w.cluster_id 2]) = some [0, 0, 0] := by
    decide
  rw [hrun, Option.map_some', Option.some.injEq] at e
  have e0 : w2.cluster_id 0 = 0 := by injection e
  have e1 : w2.cluster_id 1 = 0 := by
    injection e with _ e; injection e
  have e2 : w2.cluster_id 2 = 0 := by
    injection e with _ e; injection e with _ e; injection e
  obtain ⟨c0, s0⟩ := hall 0 (by decide)
  obtain ⟨c1, s1⟩ := hall 1 (by decide)
  refine ⟨w2, hrun, ?_, ?_, ?_, ?_⟩
  · rw [c0]; simp [List.range', List.filter, e0, e1, e2]
  · rw [s0 0 (by decide)]; simp [List.range', List.filter, e0, e1, e2]; decide
  · rw [c1]; simp [List.range', List.filter, e0, e1, e2]
  · rw [s1 0 (by decide)]; simp [List.range', List.filter, e0, e1, e2]

/-! ## Every point is counted once -/

theorem indicator_sum (x : Int) (K : Nat) (h0 : 0 ≤ x) (h1 : x < K) :
    ((List.range K).map (fun (k : Nat) => if x = (k : Int) then (1 : Int) else 0)).sum = 1 := by
  induction K with
  | zero => simp at h1; omega
  | succ K ih =>
    rw [List.range_succ, List.map_append, List.sum_append]
    simp only [List.map_cons, List.map_nil, List.sum_cons, List.sum_nil, Int.add_zero]
    by_cases hx : x = (K : Int)
    · rw [if_pos hx]
      have hz : ((List.range K).map (fun (k : Nat) => if x = (k : Int) then (1 : Int) else 0)).sum
          = 0 := by
        apply List.sum_eq_zero
        intro y hy
        obtain ⟨k, hk, rfl⟩ := List.mem_map.1 hy
        have := List.mem_range.1 hk
        rw [if_neg (by omega)]
      rw [hz]
      rfl
    · rw [if_neg hx, ih (by push_cast at h1; omega)]
      rfl

/-- The counts of the `K` clusters over a list of points with assignments in
`[0, K)` add up to the number of points. -/
theorem member_count_total (a : Nat → Int) (K : Nat) (l : List Nat)
    (hok : ∀ i, i ∈ l → 0 ≤ a i ∧ a i < K) :
    ((List.range K).map (fun k => member_count a k l)).sum = (l.length : Int) := by
  induction l with
  | nil =>
    apply List.sum_eq_zero
    intro y hy
    obtain ⟨k, _, rfl⟩ := List.mem_map.1 hy
    rfl
  | cons i l ih =>
    have hi := hok i (List.mem_cons_self i l)
    have e : (List.range K).map (fun k => member_count a k (i :: l)) =
        (List.range K).map (fun (k : Nat) =>
          (if a i = (k : Int) then (1 : Int) else 0) + member_count a k l) := by
      apply List.map_congr_left
      intro k _
      rw [member_count_cons]
    rw [e, List.sum_map_add, indicator_sum (a i) K hi.1 hi.2,
      ih (fun j hj => hok j (List.mem_cons_of_mem i hj)), List.length_cons]
    push_cast
    omega

/-- C17. In kmeans_pthreads.c, for every `K ≥ 1`, every `M ≤ INT_MAX` (in
particular `M ≥ 1`) and every number `P ≥ 1` of threads, after the reduction of
any iteration the leader's `total_count` of the `K` clusters add up to `M`,
and every point `j < M` has a `cluster_id` in `[0, K)`, hence belongs to
exactly one cluster. -/
theorem every_point_counted_once (points : Nat → Nat → Int) (M K D P : Nat)
    (hM : (M : Int) ≤ INT_MAX) (hK : 1 ≤ K) (hP : 1 ≤ P) (st : Pthreads.State) :
    ∃ s2, Pthreads.iteration points K D P (Pthreads.setup M P).start_idx
        (Pthreads.setup M P).end_idx st = some s2 ∧
      ((List.range K).map
        (fun k => (Pthreads.leader_reduce s2.sums s2.counts P D k).2)).sum = (M : Int) ∧
      (∀ j, j < M → 0 ≤ s2.cluster_id j ∧ s2.cluster_id j < K) ∧
      (∀ j, j < M → ∃ k, k < K ∧ s2.cluster_id j = (k : Int) ∧
        ∀ k2, k2 < K → s2.cluster_id j = (k2 : Int) → k2 = k) := by
  obtain ⟨s2, hrun, hcid, hcnt, _, _⟩ := pthreads_iteration_spec points M K D P st hK hP
  have hrange : ∀ j, j < M → 0 ≤ s2.cluster_id j ∧ s2.cluster_id j < K := by
    intro j hj
    rw [hcid j, if_pos hj]
    exact pthreads_assignment_range points st.centroids K D hK j
  refine ⟨s2, hrun, ?_, hrange, ?_⟩
  · have e : (List.range K).map
          (fun k => (Pthreads.leader_reduce s2.sums s2.counts P D k).2) =
        (List.range K).map (fun k =>
          member_count (pthreads_assignment points st.centroids K D) k (List.range' 0 M)) := by
      apply List.map_congr_left
      intro k hk
      rw [hcnt k (List.mem_range.1 hk)]
      apply wrapInt_of_isInt
      have := member_count_bounds (pthreads_assignment points st.centroids K D) k
        (List.range' 0 M)
      rw [List.length_range'] at this
      unfold INT_MAX at hM
      unfold isInt
      omega
    rw [e, member_count_total _ K _
      (fun i _ => pthreads_assignment_range points st.centroids K D hK i), List.length_range']
  · intro j hj
    obtain ⟨h0, h1⟩ := hrange j hj
    refine ⟨(s2.cluster_id j).toNat, by omega, by omega, ?_⟩
    intro k2 _ h
    omega

/-- Scenario B with three threads: the two counts add up to 2. -/
theorem every_point_counted_once_witness :
    ∃ s2, Pthreads.iteration (ofRows [[0], [100]]) 2 1 3 (Pthreads.setup 2 3).start_idx
        (Pthreads.setup 2 3).end_idx
        { centroids := ofRows [[0], [100]], cluster_id := fun _ => -1,
          sums := fun _ _ => 7, counts := fun _ _ => 7 } = some s2 ∧
      ((List.range 2).map
        (fun k => (Pthreads.leader_reduce s2.sums s2.counts 3 1 k).2)).sum = ((2 : Nat) : Int) ∧
      (∀ j, j < 2 → 0 ≤ s2.cluster_id j ∧ s2.cluster_id j < ((2 : Nat) : Int)) := by
  obtain ⟨s2, h1, h2, h3, _⟩ := every_point_counted_once (ofRows [[0], [100]]) 2 2 1 3
    (by decide) (by decide) (by decide)
    { centroids := ofRows [[0], [100]], cluster_id := fun _ => -1,
      sums := fun _ _ => 7, counts := fun _ _ => 7 }
  exact ⟨s2, h1, h2, h3⟩

/-- In kmeans_mpi.c, when `size` divides `M ≤ INT_MAX` and no point is left at
the sentinel `-1`, the reduced counts of the `K` clusters add up to `M`. -/
theorem mpi_counted_once (points : Nat → Nat → Int) (M K D size : Nat)
    (hM : (M : Int) ≤ INT_MAX) (st : Mpi.State) (hdiv : M % size = 0)
    (hok : ∀ i, i < M → 0 ≤ mpi_assignment points st.centroids K D i ∧
      mpi_assignment points st.centroids K D i < K) :
    ∃ s2, Mpi.iteration points M K D size st = some s2 ∧
      ((List.range K).map
        (fun k => Mpi.reduce_counts (fun r => (s2.ranks r).counts) size k)).sum = (M : Int) := by
  obtain ⟨s2, hrun, _, hcnt, _, _⟩ := mpi_iteration_spec points M K D size st hdiv hok
  refine ⟨s2, hrun, ?_⟩
  have e : (List.range K).map
        (fun k => Mpi.reduce_counts (fun r => (s2.ranks r).counts) size k) =
      (List.range K).map (fun k =>
        member_count (mpi_assignment points st.centroids K D) k (List.range' 0 M)) := by
    apply List.map_congr_left
    intro k hk
    rw [hcnt k (List.mem_range.1 hk)]
    apply wrapInt_of_isInt
    have := member_count_bounds (mpi_assignment points st.centroids K D) k (List.range' 0 M)
    rw [List.length_range'] at this
    unfold INT_MAX at hM
    unfold isInt
    omega
  rw [e, member_count_total _ K _ (fun i hi => hok i (by
    have := List.mem_range'_1.1 hi
    omega)), List.length_range']

/-! ## The unrolled distance -/

/-- C18. For every `D ≥ 0` and every pair of coordinate arrays, the unrolled
`euclidean_dist_sq` of kmeans_pthreads.c returns the same `long long` value as
the plain `euclidean_dist_sq` of kmeans_mpi.c, every addition and product
being wrapped to 64 bits in both; the unrolled loop stops at an index `i ≤ D`
with fewer than four dimensions left, which the remainder loop processes. -/
theorem unrolled_distance_eq (p1 p2 : Nat → Int) (D : Nat) :
    Pthreads.euclidean_dist_sq p1 p2 D = Mpi.euclidean_dist_sq p1 p2 D ∧
    (Pthreads.unrolled_loop p1 p2 D D 0 0).1 ≤ D ∧
    ¬ ((Pthreads.unrolled_loop p1 p2 D D 0 0).1 + 4 ≤ D) := by
  obtain ⟨_, h2, h3⟩ := unrolled_loop_spec p1 p2 D D 0 0 (Nat.zero_le D)
  refine ⟨?_, h2, unrolled_loop_exit p1 p2 D D 0 0 (by omega)⟩
  unfold Pthreads.euclidean_dist_sq Mpi.euclidean_dist_sq
  simp only
  rw [h3, List.range_eq_range', ← List.foldl_append]
  generalize (Pthreads.unrolled_loop p1 p2 D D 0 0).1 = e at h2 ⊢
  have hs := range'_split 0 e (D - e)
  simp only [Nat.sub_zero, Nat.zero_add] at hs ⊢
  rw [← hs]
  congr 2
  omega

/-! ## The narrowing store of the mean -/

theorem member_count_pos (a : Nat → Int) (k : Nat) (l : List Nat) (m : Nat)
    (hm : m ∈ l) (ha : a m = (k : Int)) : 0 < member_count a k l := by
  induction l with
  | nil => simp at hm
  | cons i l ih =>
    rw [member_count_cons]
    have hnn := (member_count_bounds a k l).1
    rcases List.mem_cons.1 hm with h | h
    · subst h
      rw [if_pos ha]
      omega
    · have := ih h
      split <;> omega

/-- A non-empty cluster has a member at which a given function of the points
is minimal. -/
theorem exists_min_member (f : Nat → Int) (a : Nat → Int) (k : Nat) (l : List Nat)
    (h : 0 < member_count a k l) :
    ∃ m, m ∈ l ∧ a m = (k : Int) ∧ ∀ i, i ∈ l → a i = (k : Int) → f m ≤ f i := by
  induction l with
  | nil => simp [member_count] at h
  | cons i l ih =>
    by_cases hi : a i = (k : Int)
    · by_cases hl : 0 < member_count a k l
      · obtain ⟨m, hm, ham, hmin⟩ := ih hl
        by_cases hc : f i ≤ f m
        · refine ⟨i, List.mem_cons_self i l, hi, ?_⟩
          intro j hj haj
          rcases List.mem_cons.1 hj with e | e
          · subst e; exact le_refl _
          · have := hmin j e haj
            omega
        · refine ⟨m, List.mem_cons_of_mem i hm, ham, ?_⟩
          intro j hj haj
          rcases List.mem_cons.1 hj with e | e
          · subst e; omega
          · exact hmin j e haj
      · refine ⟨i, List.mem_cons_self i l, hi, ?_⟩
        intro j hj haj
        rcases List.mem_cons.1 hj with e | e
        · subst e; exact le_refl _
        · exact absurd (member_count_pos a k l j e haj) hl
    · rw [member_count_cons, if_neg hi, Int.zero_add] at h
      obtain ⟨m, hm, ham, hmin⟩ := ih h
      refine ⟨m, List.mem_cons_of_mem i hm, ham, ?_⟩
      intro j hj haj
      rcases List.mem_cons.1 hj with e | e
      · subst e; exact absurd haj hi
      · exact hmin j e haj

/-- Bounds of the coordinate sum of a cluster from bounds of its members. -/
theorem member_sum_member_bounds (pts : Nat → Nat → Int) (a : Nat → Int) (k d : Nat)
    (lo hi : Int) (l : List Nat)
    (h : ∀ i, i ∈ l → a i = (k : Int) → lo ≤ pts i d ∧ pts i d ≤ hi) :
    member_count a k l * lo ≤ member_sum pts a k d l ∧
      member_sum pts a k d l ≤ member_count a k l * hi := by
  induction l with
  | nil => simp [member_count, member_sum]
  | cons i l ih =>
    have ih2 := ih (fun j hj => h j (List.mem_cons_of_mem i hj))
    rw [member_count_cons, member_sum_cons]
    by_cases hc : a i = (k : Int)
    · have hi2 := h i (List.mem_cons_self i l) hc
      rw [if_pos hc, if_pos hc, Int.add_mul, Int.add_mul, Int.one_mul, Int.one_mul]
      omega
    · rw [if_neg hc, if_neg hc, Int.zero_add, Int.zero_add]
      exact ih2

/-- C19. For every non-empty cluster `k` of a list `l` of points whose
members have an `int` coordinate `j`, with `n ≥ 1` the number of members and
`S` the sum of their coordinates `j`: the truncated quotient `S / n` lies
between the coordinate of a member where it is minimal and the coordinate of a
member where it is maximal, it is representable as an `int`, the narrowing to
`int` does not change it, and the store loop, the update loop of kmeans_mpi.c
and the leader of kmeans_pthreads.c write exactly `S / n` into the centroid
coordinate when their count is `n` and their sum is `S`. -/
theorem narrowing_lossless (points : Nat → Nat → Int) (a : Nat → Int) (k j : Nat)
    (l : List Nat) (hn : 0 < member_count a k l)
    (hint : ∀ i, i ∈ l → a i = (k : Int) → isInt (points i j)) :
    (∃ i1 i2, i1 ∈ l ∧ a i1 = (k : Int) ∧ i2 ∈ l ∧ a i2 = (k : Int) ∧
      (∀ i, i ∈ l → a i = (k : Int) → points i1 j ≤ points i j ∧ points i j ≤ points i2 j) ∧
      points i1 j ≤ Int.tdiv (member_sum points a k j l) (member_count a k l) ∧
      Int.tdiv (member_sum points a k j l) (member_count a k l) ≤ points i2 j) ∧
    isInt (Int.tdiv (member_sum points a k j l) (member_count a k l)) ∧
    wrapInt (Int.tdiv (member_sum points a k j l) (member_count a k l)) =
      Int.tdiv (member_sum points a k j l) (member_count a k l) ∧
    (∀ (sums coords : Nat → Int) (off D : Nat), j < D →
      sums (off + j) = member_sum points a k j l →
      store_means sums off (member_count a k l) D coords j =
        Int.tdiv (member_sum points a k j l) (member_count a k l)) ∧
    (∀ (sums counts : Nat → Int) (c : Nat → Nat → Int) (K D : Nat), k < K → j < D →
      counts k = member_count a k l → sums (k * D + j) = member_sum points a k j l →
      write_centroids sums counts K D c k j =
        Int.tdiv (member_sum points a k j l) (member_count a k l)) ∧
    (∀ (sums counts : Nat → Nat → Int) (c : Nat → Nat → Int) (P K D : Nat), k < K → j < D →
      (Pthreads.leader_reduce sums counts P D k).2 = member_count a k l →
      (Pthreads.leader_reduce sums counts P D k).1 j = member_sum points a k j l →
      Pthreads.leader sums counts P K D c k j =
        Int.tdiv (member_sum points a k j l) (member_count a k l)) := by
  obtain ⟨i1, m1, a1, min1⟩ := exists_min_member (fun i => points i j) a k l hn
  obtain ⟨i2, m2, a2, max2⟩ := exists_min_member (fun i => -points i j) a k l hn
  have hmm : ∀ i, i ∈ l → a i = (k : Int) →
      points i1 j ≤ points i j ∧ points i j ≤ points i2 j := by
    intro i hi hai
    have h1 := min1 i hi hai
    have h2 := max2 i hi hai
    simp only at h1 h2
    omega
  obtain ⟨hs0, hs1⟩ := member_sum_member_bounds points a k j (points i1 j) (points i2 j) l hmm
  have hq := tdiv_bounds (member_sum points a k j l) (member_count a k l)
    (points i1 j) (points i2 j) hn hs0 hs1
  have hb1 := hint i1 m1 a1
  have hb2 := hint i2 m2 a2
  have hq_int : isInt (Int.tdiv (member_sum points a k j l) (member_count a k l)) := by
    unfold isInt at hb1 hb2 ⊢
    omega
  refine ⟨⟨i1, i2, m1, a1, m2, a2, hmm, hq.1, hq.2⟩, hq_int, wrapInt_of_isInt hq_int,
    ?_, ?_, ?_⟩
  · intro sums coords off D hj hS
    rw [store_means_apply, if_pos hj, hS]
    exact wrapInt_of_isInt hq_int
  · intro sums counts c K D hk hj hc hS
    rw [write_centroids_apply, if_pos ⟨hk, hj, by rw [hc]; exact hn⟩, hc, hS]
    exact wrapInt_of_isInt hq_int
  · intro sums counts c P K D hk hj hc hS
    rw [leader_apply, if_pos ⟨hk, hj, by rw [hc]; exact hn⟩, hc, hS]
    exact wrapInt_of_isInt hq_int

/-- The cluster of the two points `-3` and `-4`: the mean `-7 / 2 = -3` lies
between `-4` and `-3` and is stored unchanged. -/
theorem narrowing_lossless_witness :
    isInt (Int.tdiv (member_sum (ofRows [[-3], [-4]]) (fun _ => 0) 0 0 [0, 1])
      (member_count (fun _ => 0) 0 [0, 1])) ∧
    Int.tdiv (member_sum (ofRows [[-3], [-4]]) (fun _ => 0) 0 0 [0, 1])
      (member_count (fun _ => 0) 0 [0, 1]) = -3 ∧
    store_means (fun _ => member_sum (ofRows [[-3], [-4]]) (fun _ => 0) 0 0 [0, 1]) 0
      (member_count (fun _ => 0) 0 [0, 1]) 1 (fun _ => 0) 0 = -3 := by
  have h := narrowing_lossless (ofRows [[-3], [-4]]) (fun _ => 0) 0 0 [0, 1] (by decide)
    (by
      intro i hi _
      have : i = 0 ∨ i = 1 := by simpa using hi
      rcases this with e | e <;> subst e <;> decide)
  refine ⟨h.2.1, by decide, ?_⟩
  rw [h.2.2.2.1 _ _ 0 1 (by decide) rfl]
  decide

/-! ## Stable assignments -/

/-- Updating again from the same assignment reproduces the updated centroids:
a non-empty cluster recomputes the same mean, an empty cluster keeps its
centroid. -/
theorem mean_update_idem (points : Nat → Nat → Int) (a : Nat → Int) (M K D : Nat)
    (c c1 : Nat → Nat → Int) (h : ∀ k d, c1 k d = mean_update points a M K D c k d)
    (k d : Nat) : mean_update points a M K D c1 k d = c1 k d := by
  rw [h k d]
  unfold mean_update
  by_cases hc : k < K ∧ d < D ∧ wrapInt (member_count a k (List.range' 0 M)) > 0
  · rw [if_pos hc, if_pos hc]
  · rw [if_neg hc, if_neg hc]
    have := h k d
    unfold mean_update at this
    rw [if_neg hc] at this
    rw [this]

/-- In kmeans_pthreads.c, once the centroids `c1` of an iteration give the
same assignment as the centroids before it, an iteration from any state with
centroids `c1` leaves the centroids at `c1`. -/
theorem pthreads_stable_step (points : Nat → Nat → Int) (M K D P : Nat) (hK : 1 ≤ K)
    (hP : 1 ≤ P) (c0 c1 : Nat → Nat → Int)
    (hc1 : ∀ k d, c1 k d =
      mean_update points (pthreads_assignment points c0 K D) M K D c0 k d)
    (hstable : ∀ i, i < M →
      pthreads_assignment points c1 K D i = pthreads_assignment points c0 K D i)
    (s : Pthreads.State) (hs : s.centroids = c1) :
    ∃ s2, Pthreads.iteration points K D P (Pthreads.setup M P).start_idx
        (Pthreads.setup M P).end_idx s = some s2 ∧ s2.centroids = c1 := by
  obtain ⟨s2, hrun, _, _, _, hmean⟩ := pthreads_iteration_spec points M K D P s hK hP
  refine ⟨s2, hrun, ?_⟩
  funext k d
  rw [hmean k d, hs, mean_update_congr points _ _ M K D c1 k d hstable]
  have h2 : ∀ k d, c1 k d =
      mean_update points (pthreads_assignment points c0 K D) M K D c0 k d := hc1
  exact mean_update_idem points _ M K D c0 c1 h2 k d

theorem pthreads_stable_iterate (points : Nat → Nat → Int) (M K D P : Nat) (hK : 1 ≤ K)
    (hP : 1 ≤ P) (c0 c1 : Nat → Nat → Int)
    (hc1 : ∀ k d, c1 k d =
      mean_update points (pthreads_assignment points c0 K D) M K D c0 k d)
    (hstable : ∀ i, i < M →
      pthreads_assignment points c1 K D i = pthreads_assignment points c0 K D i) :
    ∀ (n : Nat) (s : Pthreads.State), s.centroids = c1 →
      ∃ sn, iterate_step (Pthreads.iteration points K D P (Pthreads.setup M P).start_idx
          (Pthreads.setup M P).end_idx) n s = some sn ∧ sn.centroids = c1 := by
  intro n
  induction n with
  | zero => intro s hs; exact ⟨s, rfl, hs⟩
  | succ n ih =>
    intro s hs
    obtain ⟨s2, hrun, hs2⟩ := pthreads_stable_step points M K D P hK hP c0 c1 hc1 hstable s hs
    obtain ⟨sn, hn, hsn⟩ := ih s2 hs2
    refine ⟨sn, ?_, hsn⟩
    show (Pthreads.iteration points K D P (Pthreads.setup M P).start_idx
      (Pthreads.setup M P).end_idx s).bind _ = some sn
    rw [hrun, Option.some_bind]
    exact hn

/-- In kmeans_mpi.c with `size` dividing `M`, once the centroids `c1` of an
iteration without invalid access give the same assignment as the centroids
before it, an iteration from any state with centroids `c1` leaves the
centroids at `c1`. -/
theorem mpi_stable_step (points : Nat → Nat → Int) (M K D size : Nat)
    (hdiv : M % size = 0) (c0 c1 : Nat → Nat → Int)
    (hok : ∀ i, i < M → 0 ≤ mpi_assignment points c0 K D i ∧
      mpi_assignment points c0 K D i < K)
    (hc1 : ∀ k d, c1 k d = mean_update points (mpi_assignment points c0 K D) M K D c0 k d)
    (hstable : ∀ i, i < M → mpi_assignment points c1 K D i = mpi_assignment points c0 K D i)
    (s : Mpi.State) (hs : s.centroids = c1) :
    ∃ s2, Mpi.iteration points M K D size s = some s2 ∧ s2.centroids = c1 := by
  obtain ⟨s2, hrun, _, _, _, hmean⟩ := mpi_iteration_spec points M K D size s hdiv
    (fun i hi => by rw [hs, hstable i hi]; exact hok i hi)
  refine ⟨s2, hrun, ?_⟩
  funext k d
  rw [hmean k d, hs, mean_update_congr points _ _ M K D c1 k d hstable]
  exact mean_update_idem points _ M K D c0 c1 hc1 k d

theorem mpi_stable_iterate (points : Nat → Nat → Int) (M K D size : Nat)
    (hdiv : M % size = 0) (c0 c1 : Nat → Nat → Int)
    (hok : ∀ i, i < M → 0 ≤ mpi_assignment points c0 K D i ∧
      mpi_assignment points c0 K D i < K)
    (hc1 : ∀ k d, c1 k d = mean_update points (mpi_assignment points c0 K D) M K D c0 k d)
    (hstable : ∀ i, i < M → mpi_assignment points c1 K D i = mpi_assignment points c0 K D i) :
    ∀ (n : Nat) (s : Mpi.State), s.centroids = c1 →
      ∃ sn, iterate_step (Mpi.iteration points M K D size) n s = some sn ∧
        sn.centroids = c1 := by
  intro n
  induction n with
  | zero => intro s hs; exact ⟨s, rfl, hs⟩
  | succ n ih =>
    intro s hs
    obtain ⟨s2, hrun, hs2⟩ := mpi_stable_step points M K D size hdiv c0 c1 hok hc1 hstable s hs
    obtain ⟨sn, hn, hsn⟩ := ih s2 hs2
    refine ⟨sn, ?_, hsn⟩
    show (Mpi.iteration points M K D size s).bind _ = some sn
    rw [hrun, Option.some_bind]
    exact hn

/-- C20. For every dataset, every `K ≥ 1` and every number `P ≥ 1` of workers:
if one iteration maps the centroids `c` of a state to `c1` and every point has
the same assignment under `c1` as under `c`, then a further iteration maps
`c1` to `c1`, and after any number `n` of further iterations the centroids are
still `c1` and the checksum is unchanged. This holds for kmeans_pthreads.c,
where an iteration never makes an invalid access, and for kmeans_mpi.c when
`P` divides `M` and the first iteration made no invalid access. -/
theorem stable_fixed_point (points : Nat → Nat → Int) (M K D P : Nat)
    (hK : 1 ≤ K) (hP : 1 ≤ P) :
    (∀ st : Pthreads.State,
      ∃ s1, Pthreads.iteration points K D P (Pthreads.setup M P).start_idx
          (Pthreads.setup M P).end_idx st = some s1 ∧
        ((∀ i, i < M → pthreads_assignment points s1.centroids K D i =
            pthreads_assignment points st.centroids K D i) →
          (∃ s2, Pthreads.iteration points K D P (Pthreads.setup M P).start_idx
              (Pthreads.setup M P).end_idx s1 = some s2 ∧ s2.centroids = s1.centroids) ∧
          ∀ n, ∃ sn, Pthreads.main_loop points M K D n P s1 = some sn ∧
            sn.centroids = s1.centroids ∧
            checksum sn.centroids K D = checksum s1.centroids K D)) ∧
    (∀ st s1 : Mpi.State, M % P = 0 → Mpi.iteration points M K D P st = some s1 →
      (∀ i, i < M → mpi_assignment points s1.centroids K D i =
        mpi_assignment points st.centroids K D i) →
      (∃ s2, Mpi.iteration points M K D P s1 = some s2 ∧ s2.centroids = s1.centroids) ∧
      ∀ n, ∃ sn, Mpi.main_loop points M K D n P s1 = some sn ∧
        sn.centroids = s1.centroids ∧
        checksum sn.centroids K D = checksum s1.centroids K D) := by
  constructor
  · intro st
    obtain ⟨s1, hrun, _, _, _, hmean⟩ := pthreads_iteration_spec points M K D P st hK hP
    refine ⟨s1, hrun, ?_⟩
    intro hstable
    constructor
    · exact pthreads_stable_step points M K D P hK hP st.centroids s1.centroids hmean hstable
        s1 rfl
    · intro n
      obtain ⟨sn, hn, hsn⟩ := pthreads_stable_iterate points M K D P hK hP st.centroids
        s1.centroids hmean hstable n s1 rfl
      refine ⟨sn, ?_, hsn, by rw [hsn]⟩
      unfold Pthreads.main_loop
      simp only
      rw [iter_loop_eq _ n n 0 s1 (by omega)]
      exact hn
  · intro st s1 hdiv hrun hstable
    have hok : ∀ i, i < M → 0 ≤ mpi_assignment points st.centroids K D i ∧
        mpi_assignment points st.centroids K D i < K := by
      intro i hi
      by_contra hbad
      have := mpi_iteration_none points M K D P st hdiv ⟨i, hi, hbad⟩
      rw [this] at hrun
      exact Option.noConfusion hrun
    obtain ⟨s1b, hrun2, _, _, _, hmean⟩ := mpi_iteration_spec points M K D P st hdiv hok
    rw [hrun] at hrun2
    have e : s1b = s1 := (Option.some.inj hrun2).symm
    subst e
    constructor
    · exact mpi_stable_step points M K D P hdiv st.centroids s1b.centroids hok hmean hstable
        s1b rfl
    · intro n
      obtain ⟨sn, hn, hsn⟩ := mpi_stable_iterate points M K D P hdiv st.centroids
        s1b.centroids hok hmean hstable n s1b rfl
      refine ⟨sn, ?_, hsn, by rw [hsn]⟩
      unfold Mpi.main_loop
      rw [iter_loop_eq _ n n 0 s1b (by omega)]
      exact hn

/-- Scenario C with two threads: the centroids `5, 999` are reproduced by the
first iteration, the assignment is stable, and five further iterations leave
the centroids and the checksum 1004 unchanged. -/
theorem stable_fixed_point_witness :
    ∃ s1 sn, Pthreads.iteration (ofRows [[5], [5], [5]]) 2 1 2 (Pthreads.setup 3 2).start_idx
        (Pthreads.setup 3 2).end_idx
        { centroids := ofRows [[5], [999]], cluster_id := fun _ => -1,
          sums := fun _ _ => 7, counts := fun _ _ => 7 } = some s1 ∧
      Pthreads.main_loop (ofRows [[5], [5], [5]]) 3 2 1 5 2 s1 = some sn ∧
      sn.centroids = s1.centroids ∧ checksum sn.centroids 2 1 = 1004 := by
  obtain ⟨s1, hrun, himp⟩ := (stable_fixed_point (ofRows [[5], [5], [5]]) 3 2 1 2
    (by decide) (by decide)).1
    { centroids := ofRows [[5], [999]], cluster_id := fun _ => -1,
      sums := fun _ _ => 7, counts := fun _ _ => 7 }
  obtain ⟨s1b, hrun2, _, _, _, hmean⟩ :=
    pthreads_iteration_spec (ofRows [[5], [5], [5]]) 3 2 1 2
      { centroids := ofRows [[5], [999]], cluster_id := fun _ => -1,
        sums := fun _ _ => 7, counts := fun _ _ => 7 } (by decide) (by decide)
  rw [hrun] at hrun2
  have e : s1b = s1 := (Option.some.inj hrun2).symm
  subst e
  dsimp only at hmean himp
  have hfix : s1b.centroids = ofRows [[5], [999]] := by
    funext k d
    rw [hmean k d]
    by_cases hkd : k < 2 ∧ d < 1
    · obtain ⟨hk, hd⟩ := hkd
      interval_cases k <;> interval_cases d <;> decide
    · unfold mean_update
      rw [if_neg (fun h => hkd ⟨h.1, h.2.1⟩)]
  obtain ⟨_, hall⟩ := himp (by rw [hfix]; intro i _; rfl)
  obtain ⟨sn, hn, hsn, _⟩ := hall 5
  refine ⟨s1b, sn, hrun, hn, hsn, ?_⟩
  rw [hsn, hfix]
  decide

/-! ## Reduction correctness -/

/-- Accumulators whose sums over the workers are representable are reduced
exactly: the leader's `total_count` and `total_sum[d]` and the results of the
two `MPI_Reduce` calls are the sums over the workers. -/
theorem reduce_exact_of_representable (sums counts : Nat → Nat → Int) (P D k : Nat)
    (hc : isInt (((List.range P).map (fun t => counts t k)).sum))
    (hs : ∀ d, d < D → isLL (((List.range P).map (fun t => sums t (k * D + d))).sum)) :
    (Pthreads.leader_reduce sums counts P D k).2 =
      ((List.range P).map (fun t => counts t k)).sum ∧
    (∀ d, d < D → (Pthreads.leader_reduce sums counts P D k).1 d =
      ((List.range P).map (fun t => sums t (k * D + d))).sum) ∧
    Mpi.reduce_counts counts P k = ((List.range P).map (fun t => counts t k)).sum ∧
    (∀ d, d < D → Mpi.reduce_sums sums P (k * D + d) =
      ((List.range P).map (fun t => sums t (k * D + d))).sum) := by
  obtain ⟨h1, h2⟩ := leader_reduce_spec sums counts P D k
  refine ⟨?_, ?_, ?_, ?_⟩
  · rw [h1, wrapInt_of_isInt hc]
  · intro d hd
    rw [h2 d hd, wrapLL_of_isLL (hs d hd)]
  · rw [mpi_reduce_counts_spec, wrapInt_of_isInt hc]
  · intro d hd
    rw [mpi_reduce_sums_spec, wrapLL_of_isLL (hs d hd)]

/-- The accumulators of the threads after the assignment phases on the ranges
of the set-up loop, on at most `INT_MAX` points with `int` coordinates: their
sums over the threads are representable, the counts as an `int` and the
coordinate sums as a `long long`. -/
theorem pthreads_accumulator_sums (points : Nat → Nat → Int) (M K D P : Nat) (a : Nat → Int)
    (sums counts : Nat → Nat → Int) (hM : (M : Int) ≤ INT_MAX)
    (hpts : ∀ i, i < M → ∀ d, d < D → isInt (points i d)) (hP : 1 ≤ P)
    (hcnt : ∀ t k, t < P → k < K → counts t k =
      wrapInt (member_count a k
        (List.range' ((Pthreads.setup M P).start_idx t)
          ((Pthreads.setup M P).end_idx t - (Pthreads.setup M P).start_idx t))))
    (hsum : ∀ t k d, t < P → k < K → d < D → sums t (k * D + d) =
      wrapLL (member_sum points a k d
        (List.range' ((Pthreads.setup M P).start_idx t)
          ((Pthreads.setup M P).end_idx t - (Pthreads.setup M P).start_idx t))))
    (k : Nat) (hk : k < K) :
    isInt (((List.range P).map (fun t => counts t k)).sum) ∧
    ∀ d, d < D → isLL (((List.range P).map (fun t => sums t (k * D + d))).sum) := by
  constructor
  · have e : (List.range P).map (fun t => counts t k) =
        (List.range P).map (fun t => member_count a k
          (List.range' ((Pthreads.setup M P).start_idx t)
            ((Pthreads.setup M P).end_idx t - (Pthreads.setup M P).start_idx t))) := by
      apply List.map_congr_left
      intro t ht
      have htP := List.mem_range.1 ht
      obtain ⟨h1, h2⟩ := setup_range_le M P t hP htP
      have hb := member_count_bounds a k (List.range' ((Pthreads.setup M P).start_idx t)
        ((Pthreads.setup M P).end_idx t - (Pthreads.setup M P).start_idx t))
      rw [List.length_range'] at hb
      rw [hcnt t k htP hk]
      apply wrapInt_of_isInt
      unfold INT_MAX at hM
      unfold isInt
      omega
    rw [e]
    have hc := setup_prefix_chain (fun i => if a i = (k : Int) then (1 : Int) else 0) M P P
      (Nat.le_refl P)
    unfold member_count
    rw [hc, Pthreads.boundary_last M P hP]
    have hb := member_count_bounds a k (List.range' 0 M)
    rw [List.length_range'] at hb
    unfold member_count at hb
    unfold INT_MAX at hM
    unfold isInt
    omega
  · intro d hd
    have e : (List.range P).map (fun t => sums t (k * D + d)) =
        (List.range P).map (fun t => member_sum points a k d
          (List.range' ((Pthreads.setup M P).start_idx t)
            ((Pthreads.setup M P).end_idx t - (Pthreads.setup M P).start_idx t))) := by
      apply List.map_congr_left
      intro t ht
      have htP := List.mem_range.1 ht
      obtain ⟨h1, h2⟩ := setup_range_le M P t hP htP
      rw [hsum t k d htP hk hd]
      exact wrapLL_of_isLL (range_bounds points a M k d _ _ hM
        (fun i hi => hpts i hi d hd) (by omega)).2
    rw [e]
    have hc := setup_prefix_chain (fun i => if a i = (k : Int) then points i d else 0) M P P
      (Nat.le_refl P)
    unfold member_sum
    rw [hc, Pthreads.boundary_last M P hP]
    exact (range_bounds points a M k d 0 M hM (fun i hi => hpts i hi d hd) (by omega)).2

/-- The accumulators of the ranks after the local phases on `M_local` rows
each, on at most `INT_MAX` points with `int` coordinates: their sums over the
ranks are representable, the counts as an `int` and the coordinate sums as a
`long long`. -/
theorem mpi_accumulator_sums (points : Nat → Nat → Int) (M M_local K D size : Nat)
    (a : Nat → Int) (rs : Nat → Worker) (hM : (M : Int) ≤ INT_MAX)
    (hpts : ∀ i, i < M → ∀ d, d < D → isInt (points i d)) (hsz : size * M_local = M)
    (hcnt : ∀ r k, r < size → k < K → (rs r).counts k =
      wrapInt (member_count a k (List.range' (r * M_local) M_local)))
    (hsum : ∀ r k d, r < size → k < K → d < D → (rs r).sums (k * D + d) =
      wrapLL (member_sum points a k d (List.range' (r * M_local) M_local)))
    (k : Nat) (hk : k < K) :
    isInt (((List.range size).map (fun r => (rs r).counts k)).sum) ∧
    ∀ d, d < D → isLL (((List.range size).map (fun r => (rs r).sums (k * D + d))).sum) := by
  have hstep : ∀ r, (r + 1) * M_local - r * M_local = M_local := by
    intro r
    rw [Nat.succ_mul]
    omega
  have hmono : ∀ r, r * M_local ≤ (r + 1) * M_local := by
    intro r
    rw [Nat.succ_mul]
    omega
  have hrow : ∀ r, r < size → r * M_local + M_local ≤ M := by
    intro r hr
    have : (r + 1) * M_local ≤ size * M_local := Nat.mul_le_mul_right _ (by omega)
    rw [Nat.succ_mul] at this
    omega
  constructor
  · have e : (List.range size).map (fun r => (rs r).counts k) =
        (List.range size).map (fun r => member_count a k
          (List.range' (r * M_local) ((r + 1) * M_local - r * M_local))) := by
      apply List.map_congr_left
      intro r hr
      have hrs := List.mem_range.1 hr
      have hb := member_count_bounds a k (List.range' (r * M_local) M_local)
      rw [List.length_range'] at hb
      have hle := hrow r hrs
      rw [hcnt r k hrs hk, hstep r]
      apply wrapInt_of_isInt
      unfold INT_MAX at hM
      unfold isInt
      omega
    rw [e, member_count_chain a k (fun r => r * M_local) (Nat.zero_mul M_local) hmono, hsz]
    have hb := member_count_bounds a k (List.range' 0 M)
    rw [List.length_range'] at hb
    unfold INT_MAX at hM
    unfold isInt
    omega
  · intro d hd
    have e : (List.range size).map (fun r => (rs r).sums (k * D + d)) =
        (List.range size).map (fun r => member_sum points a k d
          (List.range' (r * M_local) ((r + 1) * M_local - r * M_local))) := by
      apply List.map_congr_left
      intro r hr
      have hrs := List.mem_range.1 hr
      rw [hsum r k d hrs hk hd, hstep r]
      exact wrapLL_of_isLL (range_bounds points a M k d _ _ hM
        (fun i hi => hpts i hi d hd) (hrow r hrs)).2
    rw [e, member_sum_chain points a k d (fun r => r * M_local) (Nat.zero_mul M_local) hmono,
      hsz]
    exact (range_bounds points a M k d 0 M hM (fun i hi => hpts i hi d hd) (by omega)).2

/-- C7. Reduction correctness on the accumulators the programs produce, for
every dataset of `M ≤ INT_MAX` points with `int` coordinates, every `K ≥ 1` and
every number `P ≥ 1` of workers. In kmeans_pthreads.c, from every state, the
assignment phases of the `P` threads leave accumulators for which, for every
cluster `k`, the leader's `total_count` is the sum over all threads `t` of
`local_counts[t][k]` and its `total_sum[d]` is the sum over all threads `t` of
`local_sum_coords[t][k*D + d]`. In kmeans_mpi.c (when `P` divides `M`) the
local phases of the `P` ranks produce accumulators whenever no point is left
at the sentinel `-1`, and for every family of accumulators they produce the
results of the two `MPI_Reduce` calls are the sums over all ranks of the local
counts and of the local sums. With `P = 1` the totals are the accumulator of
the single worker unchanged. -/
theorem reduction_correctness (points : Nat → Nat → Int) (M K D P : Nat)
    (hM : (M : Int) ≤ INT_MAX) (hpts : ∀ i, i < M → ∀ d, d < D → isInt (points i d))
    (hK : 1 ≤ K) (hP : 1 ≤ P) :
    (∀ st : Pthreads.State,
      ∃ s1, Pthreads.all_worker_phases points K D P (Pthreads.setup M P).start_idx
          (Pthreads.setup M P).end_idx st = some s1 ∧
        ∀ k, k < K →
          (Pthreads.leader_reduce s1.sums s1.counts P D k).2 =
            ((List.range P).map (fun t => s1.counts t k)).sum ∧
          (∀ d, d < D → (Pthreads.leader_reduce s1.sums s1.counts P D k).1 d =
            ((List.range P).map (fun t => s1.sums t (k * D + d))).sum) ∧
          (P = 1 →
            (Pthreads.leader_reduce s1.sums s1.counts P D k).2 = s1.counts 0 k ∧
            ∀ d, d < D →
              (Pthreads.leader_reduce s1.sums s1.counts P D k).1 d = s1.sums 0 (k * D + d))) ∧
    (∀ st : Mpi.State, M % P = 0 →
      ((∀ i, i < M → 0 ≤ mpi_assignment points st.centroids K D i ∧
          mpi_assignment points st.centroids K D i < K) →
        ∃ rs, Mpi.all_local_phases points st.centroids (M / P) K D P st.ranks = some rs) ∧
      ∀ rs, Mpi.all_local_phases points st.centroids (M / P) K D P st.ranks = some rs →
        ∀ k, k < K →
          Mpi.reduce_counts (fun r => (rs r).counts) P k =
            ((List.range P).map (fun r => (rs r).counts k)).sum ∧
          (∀ d, d < D → Mpi.reduce_sums (fun r => (rs r).sums) P (k * D + d) =
            ((List.range P).map (fun r => (rs r).sums (k * D + d))).sum) ∧
          (P = 1 →
            Mpi.reduce_counts (fun r => (rs r).counts) P k = (rs 0).counts k ∧
            ∀ d, d < D →
              Mpi.reduce_sums (fun r => (rs r).sums) P (k * D + d) =
                (rs 0).sums (k * D + d))) := by
  constructor
  · intro st
    obtain ⟨s1, hrun, _, _, hcnt, hsum⟩ :=
      all_worker_phases_spec points K D (Pthreads.setup M P).start_idx
        (Pthreads.setup M P).end_idx st hK P
    refine ⟨s1, hrun, ?_⟩
    intro k hk
    obtain ⟨hc, hs⟩ := pthreads_accumulator_sums points M K D P _ s1.sums s1.counts hM hpts hP
      hcnt hsum k hk
    obtain ⟨a1, a2, _, _⟩ := reduce_exact_of_representable s1.sums s1.counts P D k hc hs
    refine ⟨a1, a2, ?_⟩
    intro h1
    subst h1
    constructor
    · rw [a1]; simp [List.range_succ]
    · intro d hd; rw [a2 d hd]; simp [List.range_succ]
  · intro st hdiv
    have hsz : P * (M / P) = M := by
      have := Nat.div_add_mod M P
      omega
    have hlocal : ∀ r i, r < P → i < M / P → r * (M / P) + i < M := by
      intro r i hr hi
      have := row_cell_lt r i P (M / P) hr hi
      omega
    constructor
    · intro hok
      obtain ⟨rs, hrun, _⟩ :=
        all_local_phases_spec points st.centroids (M / P) K D st.ranks P
          (fun r i hr hi => hok (r * (M / P) + i) (hlocal r i hr hi))
      exact ⟨rs, hrun⟩
    · intro rs hrun k hk
      have hok : ∀ r i, r < P → i < M / P →
          0 ≤ mpi_assignment points st.centroids K D (r * (M / P) + i) ∧
            mpi_assignment points st.centroids K D (r * (M / P) + i) < K := by
        intro r i hr hi
        by_contra hbad
        have hnone := all_local_phases_none points st.centroids (M / P) K D st.ranks P
          ⟨r, i, hr, hi, hbad⟩
        rw [hnone] at hrun
        exact Option.noConfusion hrun
      obtain ⟨rs2, hrun2, _, hcnt, hsum, _⟩ :=
        all_local_phases_spec points st.centroids (M / P) K D st.ranks P hok
      have hrs : rs2 = rs := by
        rw [hrun2] at hrun
        exact Option.some.inj hrun
      subst hrs
      obtain ⟨hc, hs⟩ := mpi_accumulator_sums points M (M / P) K D P _ rs2 hM hpts hsz
        hcnt hsum k hk
      obtain ⟨_, _, a3, a4⟩ := reduce_exact_of_representable (fun r => (rs2 r).sums)
        (fun r => (rs2 r).counts) P D k hc hs
      refine ⟨a3, a4, ?_⟩
      intro h1
      subst h1
      constructor
      · rw [a3]; simp [List.range_succ]
      · intro d hd; rw [a4 d hd]; simp [List.range_succ]

/-- Four points in one dimension, two clusters, two workers, from accumulators
that held 7: the leader's `total_count` and `total_sum[0]` of cluster 1 are the
sums of the two threads' accumulators, and so are the results of the two
`MPI_Reduce` calls for the accumulators of the two ranks. -/
theorem reduction_correctness_witness :
    (∃ s1, Pthreads.all_worker_phases (ofRows [[0], [100], [3], [98]]) 2 1 2
        (Pthreads.setup 4 2).start_idx (Pthreads.setup 4 2).end_idx
        { centroids := ofRows [[0], [100]], cluster_id := fun _ => -1,
          sums := fun _ _ => 7, counts := fun _ _ => 7 } = some s1 ∧
      (Pthreads.leader_reduce s1.sums s1.counts 2 1 1).2 = s1.counts 0 1 + s1.counts 1 1 ∧
      (Pthreads.leader_reduce s1.sums s1.counts 2 1 1).1 0 =
        s1.sums 0 (1 * 1 + 0) + s1.sums 1 (1 * 1 + 0)) ∧
    (∃ rs, Mpi.all_local_phases (ofRows [[0], [100], [3], [98]]) (ofRows [[0], [100]])
        (4 / 2) 2 1 2
        (fun _ => { cluster_id := fun _ => -1, sums := fun _ => 7, counts := fun _ => 7 })
          = some rs ∧
      Mpi.reduce_counts (fun r => (rs r).counts) 2 1 = (rs 0).counts 1 + (rs 1).counts 1 ∧
      Mpi.reduce_sums (fun r => (rs r).sums) 2 (1 * 1 + 0) =
        (rs 0).sums (1 * 1 + 0) + (rs 1).sums (1 * 1 + 0)) := by
  have h := reduction_correctness (ofRows [[0], [100], [3], [98]]) 4 2 1 2 (by decide)
    (by intro i hi d hd; interval_cases i <;> interval_cases d <;> decide)
    (by decide) (by decide)
  constructor
  · obtain ⟨s1, hrun, hall⟩ := h.1
      { centroids := ofRows [[0], [100]], cluster_id := fun _ => -1,
        sums := fun _ _ => 7, counts := fun _ _ => 7 }
    obtain ⟨h1, h2, _⟩ := hall 1 (by decide)
    refine ⟨s1, hrun, ?_, ?_⟩
    · rw [h1]; simp [List.range_succ]
    · rw [h2 0 (by decide)]; simp [List.range_succ]
  · obtain ⟨hex, hall⟩ := h.2
      { centroids := ofRows [[0], [100]],
        ranks := fun _ => { cluster_id := fun _ => -1, sums := fun _ => 7,
                            counts := fun _ => 7 } } (by decide)
    obtain ⟨rs, hrun⟩ := hex (by intro i hi; interval_cases i <;> decide)
    obtain ⟨h1, h2, _⟩ := hall rs hrun 1 (by decide)
    refine ⟨rs, hrun, ?_, ?_⟩
    · rw [h1]; simp [List.range_succ]
    · rw [h2 0 (by decide)]; simp [List.range_succ]

end KMeans
